import Mathlib

/-!
# Verification of the `coll` digital search trie

A shallow embedding of the Go digital-search-trie package (`trie.go`,
`search_context.go`, `node.go`, `digitizer.go`) together with proofs of the
specification's testable properties.

Keys are Go strings; we model them as Lean `String`s and index their
characters (all keys relevant to the specification are printable ASCII, for
which Go's byte indexing and Lean's character indexing agree).

The mutable pointer structure of the Go code is modelled functionally:

* a tree node (`TNode`) is either a leaf holding the stored entry's key or an
  internal node with an array of optional children (`base = 96` slots for
  nodes produced by the algorithms);
* the pooled `searchContext` (`pointer`, `branchPosition`) is modelled by the
  list of child indices from the root to the current node; the Go invariant
  `branchPosition = depth of pointer` makes `branchPosition` the length of
  that list, and `ascend`/`descendToIndex` are `dropLast`/append;
* the doubly linked overlay list of leaves is modelled as the list of keys in
  head→tail order.  `leaf.Remove()` eagerly splices the leaf out, so a fresh
  traversal from the head sentinel sees exactly the live keys in order; the
  tombstone mechanism is observable only through stale iterators, which no
  claim touches.
-/

set_option maxRecDepth 4000

namespace Coll

/-- Error kinds of the Go package (`collection-go` errors plus the
formatted errors produced inside the trie package). -/
inductive GoErr where
  | notFound
  | collectionEmpty
  | valueRequired
  | unsupportedChar
  | placeTooLarge
  | prefixViolation
  | childExists
  | boundsErr
  deriving DecidableEq, Repr

/-- `unicode.IsSpace` restricted to Latin-1 (the code points Go's
`strings.TrimSpace` can trim in keys made of one-byte runes):
`\t \n \v \f \r ' '` plus NEL and NBSP. -/
def goIsSpace (c : Char) : Bool :=
  c.toNat == 9 || c.toNat == 10 || c.toNat == 11 || c.toNat == 12 ||
  c.toNat == 13 || c.toNat == 32 || c.toNat == 133 || c.toNat == 160

/-- `strings.TrimSpace` on the character list. -/
def trimChars (l : List Char) : List Char :=
  ((l.dropWhile goIsSpace).reverse.dropWhile goIsSpace).reverse

/-- `strings.TrimSpace`. -/
def goTrim (s : String) : String := ⟨trimChars s.data⟩

/-! ## The default (ASCII) digitizer  — `digitizer.go` -/

/-- The `asciiTable` map of `digitizer.go`: the 95 printable ASCII characters
`' '..'~'` are mapped to `1..95` consecutively (`' ' ↦ 1`, …, `'~' ↦ 95`,
i.e. code point minus 31); all other characters are unmapped. -/
def asciiDigit (c : Char) : Option Nat :=
  if 32 ≤ c.toNat && c.toNat ≤ 126 then some (c.toNat - 31) else none

/-- `asciiDigitizer.Base()`: 95 printable characters plus the end-of-string
digit `0`. -/
def digitizerBase : Nat := 96

/-- `asciiDigitizer.IsPrefixFree()`. -/
def digitizerPrefixFree : Bool := true

/-- `asciiDigitizer.NumDigitsOf`: `len(value) + 1` (no trimming). -/
def numDigitsOf (value : String) : Nat := value.length + 1

/-- `asciiDigitizer.DigitOf`: trims the value, returns the end-of-string
digit `0` at or beyond the end of the trimmed value, fails when the place
exceeds the base or the character is unmapped.  (The Go `place` is an `int`;
every call site passes the non-negative `branchPosition`.) -/
def digitOfE (value : String) (place : Nat) : Except GoErr Nat :=
  if (trimChars value.data).length = 0 || place ≥ (trimChars value.data).length then .ok 0
  else if place > digitizerBase then .error .placeTooLarge
  else
    match asciiDigit ((trimChars value.data).getD place ' ') with
    | some i => .ok i
    | none => .error .unsupportedChar

/-! ## Nodes — `node.go`

`node` owns a slice of `base` child slots (a `leaf`'s inner node has a `nil`
slice).  The `parent` back-references are represented by paths from the root,
and the `isRoot` flag by the empty path.  A `leaf` additionally stores the
entry; the claims only concern the entry's key, so a leaf carries that key. -/

inductive TNode where
  | leafN (value : String)
  | internal (children : List (Option TNode))

/-- Child slots of a fresh `newNode(96)` / `newRootNode(96)`. -/
def emptyChildren : List (Option TNode) := List.replicate 96 none

/-- `newRootNode(digitizer.Base())`. -/
def emptyRoot : TNode := .internal emptyChildren

/-- The child stored at a slot (`nil` absence and out-of-range both give
`none`; the algorithms treat `ChildAt` errors and `nil` children alike, via
`childNotFound`). -/
def childOfList (cs : List (Option TNode)) (i : Nat) : Option TNode :=
  match cs.get? i with
  | some (some c) => some c
  | _ => none

/-- Child of a node: a leaf's inner node has no child slots. -/
def TNode.childOf : TNode → Nat → Option TNode
  | .leafN _, _ => none
  | .internal cs, i => childOfList cs i

/-- Follow a path of child indices from a node. -/
def nodeAt : TNode → List Nat → Option TNode
  | n, [] => some n
  | n, i :: p =>
    match n.childOf i with
    | some c => nodeAt c p
    | none => none

/-- `Node.HasChildren` (the Go `numChildren` counter equals the number of
occupied slots: `AddChild` increments exactly when it fills an empty slot and
`RemoveChildAt` decrements exactly when it clears an occupied one). -/
def hasChild : TNode → Bool
  | .leafN _ => false
  | .internal cs => cs.any Option.isSome

/-- `Node.AddChild` on the child-slot slice: fails when the index is out of
capacity (`index < 0 || index >= len(children)`) or the slot is occupied. -/
def addChildList (cs : List (Option TNode)) (d : Nat) (child : TNode) :
    Except GoErr (List (Option TNode)) :=
  if h : d < cs.length then
    match cs.get ⟨d, h⟩ with
    | some _ => .error .childExists
    | none => .ok (cs.set d (some child))
  else .error .boundsErr

/-- `Node.AddChild`; a leaf delegates to its inner zero-capacity node, so any
index is out of bounds. -/
def addChild : TNode → Nat → TNode → Except GoErr TNode
  | .leafN _, _, _ => .error .boundsErr
  | .internal cs, d, c => (addChildList cs d c).map .internal

/-- `AddChild` performed at the node reached by `path` (the mutation through
the `ctx.pointer` alias).  The `.notFound` fallbacks are unreachable: every
caller passes a path that `nodeAt` resolves. -/
def addChildAt : TNode → List Nat → Nat → TNode → Except GoErr TNode
  | n, [], d, c => addChild n d c
  | n, i :: p, d, c =>
    match n with
    | .internal cs =>
      match childOfList cs i with
      | some ch => (addChildAt ch p d c).map (fun ch' => .internal (cs.set i (some ch')))
      | none => .error .notFound
    | .leafN _ => .error .notFound

mutual
/-- Structural equality of nodes (`reflect.DeepEqual` in
`processedEndOfString`: the compared interface values are trees of plain
structs, pointers followed). -/
def beqT : TNode → TNode → Bool
  | .leafN a, .leafN b => a == b
  | .internal a, .internal b => beqChildren a b
  | _, _ => false
def beqChildren : List (Option TNode) → List (Option TNode) → Bool
  | [], [] => true
  | none :: xs, none :: ys => beqChildren xs ys
  | some x :: xs, some y :: ys => beqT x y && beqChildren xs ys
  | _, _ => false
end

mutual
/-- The leaf entries below a node, in ascending slot order (each with its
digit path relative to the node).  This is the enumeration order of
`searchContext.entriesInSubtree`, which scans slots `0 .. Base()-1` and
recurses into present children. -/
def leavesOf : TNode → List (List Nat × String)
  | .leafN v => [([], v)]
  | .internal cs => leavesOfChildren cs 0
def leavesOfChildren : List (Option TNode) → Nat → List (List Nat × String)
  | [], _ => []
  | none :: rest, i => leavesOfChildren rest (i + 1)
  | some c :: rest, i =>
    (leavesOf c).map (fun pv => (i :: pv.1, pv.2)) ++ leavesOfChildren rest (i + 1)
end

/-- `searchContext.entriesInSubtree` collected into a list of keys (the Go
code appends `pointer.Value().Value()` at each leaf). -/
def subtreeValues (n : TNode) : List String := (leavesOf n).map Prod.snd

/-! ## The search context — `search_context.go`

The context is the pair (tree, path); `branchPosition = path.length` and
`atRoot ↔ path = []`, `atLeaf ↔ nodeAt tree path` is a leaf. -/

/-- The Go `searchResult` enumeration. -/
inductive SearchResult where
  | Extension | Greater | Less | Matched | Prefix | Unmatched
  deriving DecidableEq, Repr, BEq

/-- `atLeaf` at a context position. -/
def isLeafAt (tree : TNode) (path : List Nat) : Bool :=
  match nodeAt tree path with
  | some (.leafN _) => true
  | _ => false

/-- The scan of `retraceToLastLeftFork`: the largest slot `i < d` of the
current node holding a child (`descendToIndex(i) != childNotFound`,
scanning from `d-1` down to `0`). -/
def scanBelow (tree : TNode) (path : List Nat) (d : Nat) : Option Nat :=
  match nodeAt tree path with
  | some n => (List.range d).reverse.find? (fun i => (n.childOf i).isSome)
  | none => none

/-- Index of the highest occupied slot (the inner loop of
`moveToMaxDescendant`, which counts down from `Base()-1` until
`descendToIndex` succeeds). -/
def maxPresentIdx (cs : List (Option TNode)) : Option Nat :=
  (List.range cs.length).reverse.find? (fun i => (childOfList cs i).isSome)

/-- Depth budget used when descending with `moveToMax`: the digitizer fails
on digit places above `96` that index real characters, so every digit path
the trie can build has length at most `98`, and `100` strictly exceeds the
depth of any node in a tree built through the API. -/
def depthBudget : Nat := 100

/-- `moveToMaxDescendant`: repeatedly descend into the highest occupied slot
until a leaf is reached, returning the descent path.  The recursion carries
an explicit depth budget (always `depthBudget`, which exceeds the depth of
any buildable tree); `none` models the Go code's non-termination on an
internal node with no children (the inner loop would count `index` below `0`
forever) and also cuts off trees deeper than the budget, which the trie
cannot build. -/
def moveToMax : Nat → TNode → Option (List Nat)
  | _, .leafN _ => some []
  | 0, .internal _ => none
  | fuel + 1, .internal cs =>
    match maxPresentIdx cs with
    | some i =>
      match childOfList cs i with
      | some c => (moveToMax fuel c).map (fun p => i :: p)
      | none => none
    | none => none

/-- `retraceToLastLeftFork`: walk upward; at each non-leaf ancestor scan the
slots strictly below the digit the key takes there and descend into the first
occupied one; stop at the root otherwise.  Each iteration either returns or
ascends one level, so `path.length + 1` iterations always suffice; the fuel
argument (passed as such by the caller) makes this count explicit, and its
exhaustion branch is unreachable. -/
def retrace (tree : TNode) (value : String) : Nat → List Nat →
    Except GoErr (List Nat)
  | 0, path => .ok path
  | fuel + 1, path =>
    match nodeAt tree path with
    | some (.leafN _) =>
      if path = [] then .ok path
      else retrace tree value fuel path.dropLast
    | _ =>
      match digitOfE value path.length with
      | .error e => .error e
      | .ok d =>
        match scanBelow tree path d with
        | some i => .ok (path ++ [i])
        | none =>
          if path = [] then .ok path
          else retrace tree value fuel path.dropLast

/-- `trie.moveToPredecessor`.  The outer `Option` is `none` when the Go code
would not return: either `moveToMaxDescendant` loops forever (childless
internal node) or the `ctx.pointer.(Leaf)` assertion in the callers would
fail; neither happens in trees the trie builds. -/
def moveToPredecessor (tree : TNode) (value : String) (r : SearchResult)
    (path : List Nat) : Option (Except GoErr (Bool × List Nat)) :=
  if isLeafAt tree path && (r == .Greater || r == .Extension) then
    some (.ok (true, path))
  else
    match (if r == .Greater then .ok path
           else retrace tree value (path.length + 1) path :
        Except GoErr (List Nat)) with
    | .error e => some (.error e)
    | .ok p =>
      if p = [] then some (.ok (false, p))
      else if isLeafAt tree p then some (.ok (true, p))
      else
        match nodeAt tree p with
        | some n =>
          match moveToMax depthBudget n with
          | some q => some (.ok (true, p ++ q))
          | none => none
        | none => none

/-- `searchContext.processedEndOfString`: true iff the digitizer is
prefix-free, the position is not the root, and the parent's slot-0 child is
(deep-)equal to the current node.  `none` models the Go panic when the
position is the root (`s.pointer.Parent()` is `nil` and calling `ChildAt` on
it faults) or the path is broken. -/
def processedEOS (tree : TNode) (path : List Nat) : Option Bool :=
  match path with
  | [] => none
  | _ =>
    match nodeAt tree path.dropLast, nodeAt tree path with
    | some parent, some cur =>
      match parent.childOf 0 with
      | some c0 => some (digitizerPrefixFree && beqT c0 cur)
      | none => some false
    | _, _ => none

/-! ## The trie — `trie.go` -/

/-- The trie state: the root node (lazily created), the overlay list of keys
in head→tail order, and the element count. -/
structure GoTrie where
  root : Option TNode
  overlay : List String
  size : Nat

/-- `New()` with the default digitizer: no root yet, the two sentinels linked
to each other, size `0`. -/
def emptyTrie : GoTrie := ⟨none, [], 0⟩

/-- The descent loop of `trie.find`.  Each iteration either returns or
advances `branchPosition` by one, and the loop returns `Prefix` as soon as
`branchPosition = numDigits`, so starting from `branchPosition = 0` it makes
at most `numDigits` descents; the fuel argument (the caller passes
`numDigits`) makes that count explicit, and its exhaustion branch is
unreachable.  Returns the classification and the final context path; `pos`
is `path.length` throughout. -/
def findFrom (value : String) (numD : Nat) : Nat → TNode → Nat → List Nat →
    Except GoErr (SearchResult × List Nat)
  | _, .leafN _, pos, path =>
    if pos ≠ numD then .ok (.Extension, path) else .ok (.Matched, path)
  | fuel, .internal cs, pos, path =>
    if pos = numD then .ok (.Prefix, path)
    else
      match digitOfE value pos with
      | .error e => .error e
      | .ok d =>
        match childOfList cs d with
        | some c =>
          match fuel with
          | fuel' + 1 => findFrom value numD fuel' c (pos + 1) (path ++ [d])
          | 0 => .ok (.Unmatched, path)
        | none => .ok (.Unmatched, path)

/-- `trie.find`: a blank (trimmed-empty) key fails with `NotFound`; an empty
trie is `Unmatched` (with the context untouched, i.e. still at the root of
nothing — insertion then creates a fresh root, which the empty path over
`emptyRoot` also models).  Otherwise descend from the root. -/
def findT (t : GoTrie) (value : String) : Except GoErr (SearchResult × List Nat) :=
  if goTrim value = "" then .error .notFound
  else if t.size = 0 then .ok (.Unmatched, [])
  else
    findFrom (goTrim value) (numDigitsOf (goTrim value)) (numDigitsOf (goTrim value))
      (t.root.getD emptyRoot) 0 []

/-- The loop of `trie.addNode`: while `branchPosition < NumDigitsOf(v)-1`,
attach a fresh internal node at the digit of the current position and descend
into it; finally attach `node` (the new leaf) at the digit of the last
position.  Mutation happens step by step through `ctx.pointer`, so on a
digitizer error the internal nodes attached so far remain in the tree: the
function returns the tree as mutated so far together with the error.  The
loop advances `branchPosition` towards `numDigits - 1`, so it iterates fewer
than `numDigits` times; the fuel argument (the caller passes `numDigits`)
makes that count explicit, and its exhaustion branch is unreachable. -/
def addNodeLoop (value : String) (numD : Nat) : Nat → TNode → List Nat →
    TNode × List Nat × Option GoErr
  | fuel, tree, path =>
    if path.length < numD - 1 then
      match digitOfE value path.length with
      | .error e => (tree, path, some e)
      | .ok d =>
        match addChildAt tree path d (.internal emptyChildren) with
        | .error e => (tree, path, some e)
        | .ok tree' =>
          match fuel with
          | fuel' + 1 => addNodeLoop value numD fuel' tree' (path ++ [d])
          | 0 => (tree, path, some .boundsErr)
    else
      match digitOfE value path.length with
      | .error e => (tree, path, some e)
      | .ok d =>
        match addChildAt tree path d (.leafN value) with
        | .error e => (tree, path, some e)
        | .ok tree' => (tree', path ++ [d], none)

/-- Splice a key into the overlay list immediately after the pivot leaf
(`leaf.AddAfter`); `none` is the head sentinel.  A pivot key that is not in
the list cannot arise (the predecessor leaf found in the tree is live, hence
in the overlay); that branch appends at the end. -/
def overlayInsertAfter (l : List String) (pivot : Option String) (v : String) :
    List String :=
  match pivot with
  | none => v :: l
  | some w => insertAfterFirst l w v
where
  insertAfterFirst : List String → String → String → List String
    | [], _, v => [v]
    | x :: xs, w, v => if x = w then x :: v :: xs else x :: insertAfterFirst xs w v

/-- `trie.insert` (the body of `AddEntry`).  Returns `none` where the Go code
would panic or loop forever (see `moveToPredecessor`); otherwise the
resulting trie state together with the error, the state reflecting any
mutations made before a failure. -/
def insertE (t : GoTrie) (value : String) : Option (GoTrie × Option GoErr) :=
  match findT t value with
  | .error e => some (t, some e)
  | .ok (r, path) =>
    if r == .Matched ||
        (!digitizerPrefixFree && (r == .Prefix || r == .Extension)) then
      some (t, some .prefixViolation)
    else
      -- `addNode` replaces the root when `ctx.pointer` is nil, which happens
      -- exactly when `find` returned before `prepareSearch` (empty trie).
      match addNodeLoop value (numDigitsOf value) (numDigitsOf value)
          (if t.size = 0 then emptyRoot else t.root.getD emptyRoot) path with
      | (tree1, _, some e) => some ({ t with root := some tree1 }, some e)
      | (tree1, path1, none) =>
        match moveToPredecessor tree1 value .Matched path1 with
        | none => none
        | some (.error e) => some ({ t with root := some tree1 }, some e)
        | some (.ok (m, path2)) =>
          if m then
            match nodeAt tree1 path2 with
            | some (.leafN w) =>
              some ({ root := some tree1,
                      overlay := overlayInsertAfter t.overlay (some w) value,
                      size := t.size + 1 }, none)
            | _ => none
          else
            some ({ root := some tree1,
                    overlay := overlayInsertAfter t.overlay none value,
                    size := t.size + 1 }, none)

/-- One step of `trie.Add`: trim; skip blank values (returning no error);
otherwise `AddEntry` with the trimmed value. -/
def addKeyE (t : GoTrie) (v : String) : Option (GoTrie × Option GoErr) :=
  if goTrim v = "" then some (t, none) else insertE t (goTrim v)

/-- Remove the first occurrence of a key from the overlay list
(`leaf.Remove()` splices the leaf out of the doubly linked list). -/
def eraseFirst : List String → String → List String
  | [], _ => []
  | x :: xs, w => if x = w then xs else x :: eraseFirst xs w

/-- Digits of a stored value at places `0 .. n-1` (the indices
`trie.remove` uses to clear child slots while pruning). -/
def digitsUpTo (v : String) (n : Nat) : Except GoErr (List Nat) :=
  (List.range n).mapM (digitOfE v)

/-- The pruning walk of `trie.remove`, written top-down: remove the leaf at
the end of the digit path from its parent, then clear each ancestor that
became childless (the Go loop walks parent pointers upward and stops at the
first ancestor that still has children, or at the root). -/
def pruneAt : List Nat → TNode → TNode
  | [], n => n
  | _ :: _, .leafN v => .leafN v
  | d :: rest, .internal cs =>
    match rest with
    | [] => .internal (cs.set d none)
    | _ :: _ =>
      match childOfList cs d with
      | some c =>
        match pruneAt rest c with
        | c' =>
          if hasChild c' then .internal (cs.set d (some c'))
          else .internal (cs.set d none)
      | none => .internal cs
termination_by structural path _ => path

/-- `trie.RemoveEntry` via `trie.Remove(value)`: error only on an empty trie;
a `find` failure or a non-`Matched` outcome reports "not removed" with no
error; on a match the leaf is spliced out of the overlay list, the tree is
pruned upward and the size decremented.  The digit calls made while pruning
use the stored key, whose digits were all computed successfully when it was
inserted, so their error branch is unreachable (modelled by returning the
overlay-spliced state with the error). -/
def removeE (t : GoTrie) (value : String) : GoTrie × Bool × Option GoErr :=
  if t.size = 0 then (t, false, some .collectionEmpty)
  else
    match findT t value with
    | .error _ => (t, false, none)
    | .ok (r, path) =>
      if r ≠ .Matched then (t, false, none)
      else
        match nodeAt (t.root.getD emptyRoot) path with
        | some (.leafN w) =>
          match digitsUpTo w (numDigitsOf w) with
          | .error e => ({ t with overlay := eraseFirst t.overlay w }, false, some e)
          | .ok ds =>
            ({ root := some (pruneAt ds (t.root.getD emptyRoot)),
               overlay := eraseFirst t.overlay w,
               size := t.size - 1 }, true, none)
        | _ => (t, false, none)

/-! ## Read-only public operations -/

/-- `trie.Len()`. -/
def lenT (t : GoTrie) : Nat := t.size

/-- `trie.Entries()` keys: a fresh iterator from the head sentinel visits
exactly the live leaves in list order. -/
def entriesT (t : GoTrie) : List String := t.overlay

/-- `trie.Values()`: the keys of `Entries()` in order. -/
def valuesT (t : GoTrie) : List String := t.overlay

/-- `trie.Contains`: false on an empty trie or blank key or any `find`
error; otherwise whether the outcome is `Matched`. -/
def containsT (t : GoTrie) (value : String) : Bool :=
  if t.size = 0 then false
  else if goTrim value = "" then false
  else
    match findT t value with
    | .ok (.Matched, _) => true
    | _ => false

/-- `trie.Min()`: `head.Next().Value().Value()`, failing on an empty trie. -/
def minT (t : GoTrie) : Except GoErr String :=
  if t.size = 0 then .error .collectionEmpty
  else .ok (t.overlay.headI)

/-- `trie.Max()`: `tail.Previous().Value().Value()`, failing on an empty
trie. -/
def maxT (t : GoTrie) : Except GoErr String :=
  if t.size = 0 then .error .collectionEmpty
  else .ok (t.overlay.getLastD "")

/-- `trie.Predecessor`.  The outer `Option` is `none` where the Go code
would panic (`pointer.Value()` on an entry-less node) or loop forever; this
does not happen on trees the trie builds. -/
def predecessorT (t : GoTrie) (value : String) : Option (Except GoErr String) :=
  if t.size = 0 then some (.error .collectionEmpty)
  else if goTrim value = "" then some (.error .valueRequired)
  else
    match findT t (goTrim value) with
    | .error e => some (.error e)
    | .ok (r, path) =>
      match moveToPredecessor (t.root.getD emptyRoot) (goTrim value) r path with
      | none => none
      | some (.error e) => some (.error e)
      | some (.ok (m, p)) =>
        if m then
          match nodeAt (t.root.getD emptyRoot) p with
          | some (.leafN w) => some (.ok w)
          | _ => none
        else some (.error .notFound)

/-- The element after the first occurrence of a key in the overlay list
(`leaf.Next()` of a live leaf, `none` when the next node is the tail
sentinel). -/
def overlayNextOf : List String → String → Option String
  | [], _ => none
  | [x], w => if x = w then none else none
  | x :: y :: xs, w => if x = w then some y else overlayNextOf (y :: xs) w

/-- `trie.Successor`.  On a match the successor is the matched leaf's `Next`
link; otherwise the code re-runs `find` (same deterministic outcome) and
takes the predecessor's `Next` link.  A tail-sentinel successor fails with
`NotFound`. -/
def successorT (t : GoTrie) (value : String) : Option (Except GoErr String) :=
  if t.size = 0 then some (.error .collectionEmpty)
  else if goTrim value = "" then some (.error .valueRequired)
  else
    match findT t (goTrim value) with
    | .error e => some (.error e)
    | .ok (r, path) =>
      if r == .Matched then
        match nodeAt (t.root.getD emptyRoot) path with
        | some (.leafN w) =>
          match overlayNextOf t.overlay w with
          | some s => some (.ok s)
          | none => some (.error .notFound)
        | _ => none
      else
        match moveToPredecessor (t.root.getD emptyRoot) (goTrim value) r path with
        | none => none
        | some (.error e) => some (.error e)
        | some (.ok (m, p)) =>
          if m then
            match nodeAt (t.root.getD emptyRoot) p with
            | some (.leafN w) =>
              match overlayNextOf t.overlay w with
              | some s => some (.ok s)
              | none => some (.error .notFound)
            | _ => none
          else some (.error .notFound)

/-- `trie.Completions`: find the prefix; under a prefix-free digitizer the
digit budget is `NumDigitsOf(prefix) - 1` and an exact end-of-string match
steps back one level; enumerate the subtree when the outcome is `Prefix`,
`Matched`, or the descent consumed exactly the budget.  The result is the
list of keys appended to the sink.  The outer `Option` is `none` where
`processedEndOfString` would dereference a nil parent (find stopped at the
root). -/
def completionsT (t : GoTrie) (pre : String) : Option (Except GoErr (List String)) :=
  if t.size = 0 then some (.error .collectionEmpty)
  else
    match findT t pre with
    | .error e => some (.error e)
    | .ok (r, path) =>
      if digitizerPrefixFree then
        match processedEOS (t.root.getD emptyRoot) path with
        | none => none
        | some eos =>
          if r == .Prefix || r == .Matched ||
              (if eos then path.dropLast else path).length = numDigitsOf pre - 1 then
            match nodeAt (t.root.getD emptyRoot) (if eos then path.dropLast else path) with
            | some n => some (.ok (subtreeValues n))
            | none => none
          else some (.ok [])
      else
        if r == .Prefix || r == .Matched || path.length = numDigitsOf pre then
          match nodeAt (t.root.getD emptyRoot) path with
          | some n => some (.ok (subtreeValues n))
          | none => none
        else some (.ok [])

/-! ## Node child-slot access with the `node.checkBounds` bounds check

`node.checkBounds` accepts `0 ≤ index ≤ len(children)`; `ChildAt` and
`RemoveChildAt` then index the slice, so `index == len(children)` passes the
check and faults on the slice access.  (`AddChild` uses its own, strict
check.)  The index is a Go `int`, so it is modelled as `Int`. -/

/-- Outcome of a node child-slot operation: a normal result, an error
return, or a runtime panic. -/
inductive GoOutcome (α : Type) where
  | ok (a : α)
  | errOut
  | crash
  deriving Repr

/-- `node.checkBounds`: an error exactly when `index < 0 || index > len`. -/
def nodeCheckBounds (numSlots : Nat) (index : Int) : Bool :=
  !(index < 0 || index > (numSlots : Int))

/-- `node.ChildAt`: bounds check, then `n.children[index]`; the slice access
panics at `index == len(children)`, which the buggy bounds check lets
through. -/
def childAtN (cs : List (Option TNode)) (index : Int) : GoOutcome (Option TNode) :=
  if !nodeCheckBounds cs.length index then .errOut
  else if index = (cs.length : Int) then .crash
  else .ok (cs.getD index.toNat none)

/-- `node.RemoveChildAt`: bounds-check failure returns `false` untouched;
otherwise clear the slot if occupied; the slice access at
`index == len(children)` panics. -/
def removeChildAtN (cs : List (Option TNode)) (index : Int) :
    GoOutcome (List (Option TNode) × Bool) :=
  if !nodeCheckBounds cs.length index then .ok (cs, false)
  else if index = (cs.length : Int) then .crash
  else
    match cs.getD index.toNat none with
    | some _ => .ok (cs.set index.toNat none, true)
    | none => .ok (cs, false)

/-! ## Sequences of operations -/

/-- `trie.AddAll` on a list of values (each value trimmed, blanks skipped,
abort on first error). -/
def addAllT (t : GoTrie) (vs : List String) : Option (GoTrie × Option GoErr) :=
  match vs with
  | [] => some (t, none)
  | v :: rest =>
    match addKeyE t v with
    | none => none
    | some (t', some e) => some (t', some e)
    | some (t', none) => addAllT t' rest

/-- The trie after `AddAll` from empty, for concrete scenarios (falls back to
the empty trie on failure; the scenarios proved below all succeed). -/
def trieOfList (vs : List String) : GoTrie :=
  ((addAllT emptyTrie vs).getD (emptyTrie, none)).1

/-! ## Specification-level notions: digit sequences and digit order -/

/-- The digit of a mapped character (`asciiDigit` without the range guard). -/
def charDigit (c : Char) : Nat := c.toNat - 31

/-- Whether the default digitizer maps a character. -/
def isMapped (c : Char) : Bool := 32 ≤ c.toNat && c.toNat ≤ 126

/-- Keys that the trie can store through `Add`: trimmed, non-blank, fully
mapped, and short enough that every digit place the insertion needs stays
within the digitizer's place bound. -/
def GoodKey (v : String) : Prop :=
  goTrim v = v ∧ v ≠ "" ∧ (∀ c ∈ v.data, isMapped c = true) ∧ v.length ≤ 97

/-- The digit sequence of a key: one digit per character followed by the
end-of-string digit `0`. -/
def digitsK (v : String) : List Nat := v.data.map charDigit ++ [0]

/-- The digit the digitizer yields at a place (`0` beyond the end). -/
def dseq (v : String) (p : Nat) : Nat := (digitsK v).getD p 0

/-- Lexicographic order on digit sequences. -/
def lexLt : List Nat → List Nat → Prop := List.Lex (· < ·)

/-- Digit order on keys: lexicographic order of their digit sequences.  The
end-of-string digit `0` is below every character digit, so a key precedes
all its proper extensions. -/
def digitLt (u v : String) : Prop := lexLt (digitsK u) (digitsK v)

/-! ## Well-formedness of trees built by the trie -/

/-- Shape invariant of every internal node the trie builds: `96` child
slots; the slot-`0` child, when present, is a leaf (end-of-string edges are
only ever given leaves); children at positive slots are well-formed internal
nodes that contain at least one leaf (eager pruning removes childless
nodes). -/
inductive WFT : TNode → Prop where
  | node (cs : List (Option TNode))
      (hlen : cs.length = 96)
      (h0 : ∀ n, childOfList cs 0 = some n → ∃ v, n = .leafN v)
      (hsub : ∀ i n, 1 ≤ i → childOfList cs i = some n → WFT n)
      (hne : ∀ i n, 1 ≤ i → childOfList cs i = some n → leavesOf n ≠ []) :
      WFT (.internal cs)

/-- The state invariant of a reachable trie: every stored key is good; the
overlay list is strictly ascending in digit order; the size is the overlay
length; and when the trie is non-empty the root is a well-formed tree whose
leaves are exactly the stored keys, each sitting at its digit path. -/
structure Inv (t : GoTrie) : Prop where
  good : ∀ k ∈ t.overlay, GoodKey k
  sorted : t.overlay.Pairwise digitLt
  size_eq : t.size = t.overlay.length
  tree_spec : t.overlay ≠ [] → ∃ r, t.root = some r ∧ WFT r ∧
    ∀ p w, ((p, w) ∈ leavesOf r ↔ w ∈ t.overlay ∧ p = digitsK w)

/-- Trie states reachable from `New()` by error-free `Add` (single key) and
`Remove` calls. -/
inductive ReachOk : GoTrie → Prop where
  | base : ReachOk emptyTrie
  | add {t t' : GoTrie} {v : String} : ReachOk t →
      addKeyE t v = some (t', none) → ReachOk t'
  | rem {t t' : GoTrie} {v : String} {b : Bool} : ReachOk t →
      removeE t v = (t', b, none) → ReachOk t'

/-! ## Counted operation sequences (for the count invariant) -/

/-- A public mutating operation on the trie. -/
inductive TrieOp where
  | add (v : String)
  | remove (v : String)

/-- Run a sequence of operations, requiring every one of them to be
error-free, and count the size-incrementing inserts (`n`) and the removals
that report `removed = true` (`m`). -/
def runOps : GoTrie → List TrieOp → Option (GoTrie × Nat × Nat)
  | t, [] => some (t, 0, 0)
  | t, .add v :: rest =>
    match addKeyE t v with
    | some (t', none) =>
      (runOps t' rest).map fun u =>
        (u.1, (if t'.size = t.size + 1 then u.2.1 + 1 else u.2.1), u.2.2)
    | _ => none
  | t, .remove v :: rest =>
    match removeE t v with
    | (t', b, none) =>
      (runOps t' rest).map fun u =>
        (u.1, u.2.1, if b then u.2.2 + 1 else u.2.2)
    | _ => none

/-- The chain of nodes `addNode` builds below the stop position: grafted at
digit place `p` with `k` further places to cover, it is the nest of fresh
internal nodes ending in the new leaf (`k = numDigits - 1 - p` at the graft
point). -/
def chainFrom (v : String) : Nat → Nat → TNode
  | _, 0 => .leafN v
  | p, k + 1 =>
    .internal (emptyChildren.set (dseq v (p + 1)) (some (chainFrom v (p + 1) k)))

/-- A key containing the unsupported control character `U+0001` after a
mapped prefix (`"ac\u0001"`): the digitizer rejects it midway through an
insertion. -/
def badC5Key : String := ⟨['a', 'c', Char.ofNat 1]⟩

/-- The leaves of a tree are exactly the keys of `K`, each at its digit
path. -/
def LeafCorr (r : TNode) (K : List String) : Prop :=
  ∀ p w, ((p, w) ∈ leavesOf r ↔ w ∈ K ∧ p = digitsK w)

/-- A concrete reachable state: `New()` then `Add("ab")` (used to
instantiate universally quantified claims). -/
def oneKeyTrie : GoTrie :=
  ⟨some (TNode.internal (emptyChildren.set 66 (some (TNode.internal
    (emptyChildren.set 67 (some (TNode.internal
      (emptyChildren.set 0 (some (TNode.leafN "ab")))))))))), ["ab"], 1⟩

/-- A concrete reachable state: `New()` then `Add("ab")` then `Add("ba")`. -/
def twoKeyTrie : GoTrie :=
  ⟨some (TNode.internal ((emptyChildren.set 66 (some (TNode.internal
    (emptyChildren.set 67 (some (TNode.internal
      (emptyChildren.set 0 (some (TNode.leafN "ab"))))))))).set 67
    (some (TNode.internal (emptyChildren.set 66 (some (TNode.internal
      (emptyChildren.set 0 (some (TNode.leafN "ba")))))))))),
   ["ab", "ba"], 2⟩

/-!
# Theorems

## Trimming -/

theorem trimChars_idem (l : List Char) : trimChars (trimChars l) = trimChars l := by
  have h1 : trimChars l = List.rdropWhile goIsSpace (l.dropWhile goIsSpace) := rfl
  have key : ∀ m : List Char, m.dropWhile goIsSpace = m →
      trimChars m = List.rdropWhile goIsSpace m := by
    intro m hm
    show List.rdropWhile goIsSpace (m.dropWhile goIsSpace) = _
    rw [hm]
  have hdrop : (trimChars l).dropWhile goIsSpace = trimChars l := by
    rw [h1]
    rcases hr : List.rdropWhile goIsSpace (l.dropWhile goIsSpace) with _ | ⟨a, m⟩
    · rfl
    · have hpre : List.rdropWhile goIsSpace (l.dropWhile goIsSpace) <+:
          l.dropWhile goIsSpace := List.rdropWhile_prefix _ _
      rw [hr] at hpre
      obtain ⟨tl, htl⟩ := hpre
      have hhead : ¬ goIsSpace a = true := by
        have := List.head?_dropWhile_not goIsSpace l
        rw [← htl] at this
        simp at this
        exact fun hc => by simp [hc] at this
      simp [List.dropWhile, hhead]
  calc trimChars (trimChars l)
      = List.rdropWhile goIsSpace (trimChars l) := key _ hdrop
    _ = List.rdropWhile goIsSpace (List.rdropWhile goIsSpace (l.dropWhile goIsSpace)) := by
        rw [h1]
    _ = List.rdropWhile goIsSpace (l.dropWhile goIsSpace) :=
        List.rdropWhile_idempotent _ _
    _ = trimChars l := rfl

theorem goTrim_data (s : String) : (goTrim s).data = trimChars s.data := rfl

theorem goTrim_idem (s : String) : goTrim (goTrim s) = goTrim s := by
  show (⟨trimChars (trimChars s.data)⟩ : String) = ⟨trimChars s.data⟩
  rw [trimChars_idem]

/-! ## Digit sequences of good keys -/

theorem getD_of_get? {l : List Nat} {p x : Nat} (h : l.get? p = some x) :
    l.getD p 0 = x := by
  rw [List.getD_eq_getD_get?, h]; rfl

theorem getD_of_get?_none {l : List Nat} {p : Nat} (h : l.get? p = none) :
    l.getD p 0 = 0 := by
  rw [List.getD_eq_getD_get?, h]; rfl

theorem length_eq_data (s : String) : s.length = s.data.length := rfl

theorem good_trimChars {v : String} (h : GoodKey v) : trimChars v.data = v.data :=
  congrArg String.data h.1

theorem good_data_ne {v : String} (h : GoodKey v) : v.data ≠ [] := by
  intro hd
  apply h.2.1
  cases v with
  | mk d =>
    have hd' : d = [] := hd
    subst hd'
    rfl

theorem digitsK_length (v : String) : (digitsK v).length = v.length + 1 := by
  unfold digitsK
  rw [List.length_append, List.length_map]
  rfl

theorem digitsK_get?_last (v : String) : (digitsK v).get? v.length = some 0 := by
  show (v.data.map charDigit ++ [0]).get? v.data.length = some 0
  rw [List.get?_append_right (by rw [List.length_map])]
  rw [List.length_map, Nat.sub_self]
  rfl

theorem dseq_of_ge {v : String} {p : Nat} (h : v.length ≤ p) : dseq v p = 0 := by
  unfold dseq
  rcases Nat.eq_or_lt_of_le h with he | hlt
  · exact getD_of_get? (he ▸ digitsK_get?_last v)
  · exact getD_of_get?_none (List.get?_eq_none.mpr (by rw [digitsK_length]; omega))

theorem data_get?_getD {v : String} {p : Nat} (h : p < v.data.length) :
    v.data.get? p = some (v.data.getD p ' ') := by
  rw [List.getD_eq_getD_get?]
  cases hg : v.data.get? p
  · exact absurd (List.get?_eq_none.mp hg) (by omega)
  · rfl

theorem dseq_of_lt {v : String} {p : Nat} (h : p < v.length) :
    dseq v p = charDigit (v.data.getD p ' ') := by
  unfold dseq digitsK
  rw [length_eq_data] at h
  apply getD_of_get?
  rw [List.get?_append (by simpa using h), List.get?_map, data_get?_getD h]
  rfl

theorem charDigit_pos {c : Char} (h : isMapped c = true) : 1 ≤ charDigit c := by
  unfold isMapped at h
  unfold charDigit
  simp at h
  omega

theorem charDigit_lt {c : Char} (h : isMapped c = true) : charDigit c < 96 := by
  unfold isMapped at h
  unfold charDigit
  simp at h
  omega

theorem good_mem_getD {v : String} (h : GoodKey v) {p : Nat} (hp : p < v.data.length) :
    isMapped (v.data.getD p ' ') = true :=
  h.2.2.1 _ (List.get?_mem (data_get?_getD hp))

theorem dseq_pos {v : String} (h : GoodKey v) {p : Nat} (hp : p < v.length) :
    1 ≤ dseq v p := by
  rw [dseq_of_lt hp]
  exact charDigit_pos (good_mem_getD h (by rwa [← length_eq_data]))

theorem dseq_lt96 {v : String} (h : GoodKey v) (p : Nat) : dseq v p < 96 := by
  rcases Nat.lt_or_ge p v.length with hp | hp
  · rw [dseq_of_lt hp]
    exact charDigit_lt (good_mem_getD h (by rwa [← length_eq_data]))
  · rw [dseq_of_ge hp]; omega

/-- On a good key the digitizer never fails and produces `dseq`. -/
theorem digitOfE_good {v : String} (h : GoodKey v) (p : Nat) :
    digitOfE v p = .ok (dseq v p) := by
  unfold digitOfE
  rw [good_trimChars h]
  have hne : v.data.length ≠ 0 := fun h0 => good_data_ne h (List.eq_nil_of_length_eq_zero h0)
  rcases Nat.lt_or_ge p v.data.length with hp | hp
  · rw [if_neg (by simp only [Bool.or_eq_true, decide_eq_true_eq, ge_iff_le]; omega)]
    have h96 : ¬ p > digitizerBase := by
      have h97 := h.2.2.2
      rw [length_eq_data] at h97
      unfold digitizerBase
      omega
    rw [if_neg h96]
    have hm := good_mem_getD h hp
    unfold asciiDigit
    unfold isMapped at hm
    rw [if_pos hm, dseq_of_lt (by rwa [length_eq_data])]
    rfl
  · rw [if_pos (by simp only [Bool.or_eq_true, decide_eq_true_eq, ge_iff_le]; omega),
      dseq_of_ge (by rwa [length_eq_data])]

/-- `NumDigitsOf` counts the digit places of `digitsK`. -/
theorem digitsK_take_len (v : String) : (digitsK v).take (numDigitsOf v) = digitsK v := by
  apply List.take_of_length_le
  rw [digitsK_length]
  rfl

theorem charDigit_inj {a b : Char} (ha : isMapped a = true) (hb : isMapped b = true)
    (h : charDigit a = charDigit b) : a = b := by
  unfold isMapped at ha hb
  unfold charDigit at h
  simp at ha hb
  have hval : a.toNat = b.toNat := by omega
  have := congrArg Char.ofNat hval
  rwa [Char.ofNat_toNat, Char.ofNat_toNat] at this

theorem mapped_list_inj : ∀ (l₁ l₂ : List Char), (∀ c ∈ l₁, isMapped c = true) →
    (∀ c ∈ l₂, isMapped c = true) → l₁.map charDigit = l₂.map charDigit → l₁ = l₂
  | [], [], _, _, _ => rfl
  | a :: l₁, b :: l₂, h₁, h₂, h => by
    simp only [List.map_cons, List.cons.injEq] at h
    have := charDigit_inj (h₁ a (by simp)) (h₂ b (by simp)) h.1
    rw [this, mapped_list_inj l₁ l₂ (fun c hc => h₁ c (by simp [hc]))
      (fun c hc => h₂ c (by simp [hc])) h.2]

theorem digitsK_inj {u v : String} (hu : GoodKey u) (hv : GoodKey v)
    (h : digitsK u = digitsK v) : u = v := by
  unfold digitsK at h
  have h' := List.append_inj_left' h (by simp)
  have hd := mapped_list_inj u.data v.data hu.2.2.1 hv.2.2.1 h'
  cases u; cases v
  simp only at hd
  rw [hd]

/-- Digit sequences of good keys are prefix-free: a digit-prefix forces
equality (the end-of-string digit `0` cannot occur at a character place). -/
theorem digitsK_prefix_eq {u v : String} (hu : GoodKey u) (hv : GoodKey v)
    (h : digitsK u <+: digitsK v) : u = v := by
  rcases h with ⟨tl, htl⟩
  rcases Nat.lt_trichotomy u.length v.length with hlt | heq | hgt
  · exfalso
    have hget : (digitsK v).get? u.length = some 0 := by
      rw [← htl, List.get?_append (by rw [digitsK_length]; omega)]
      exact digitsK_get?_last u
    have h0 : dseq v u.length = 0 := getD_of_get? hget
    have := dseq_pos hv hlt
    omega
  · apply digitsK_inj hu hv
    have hlen : (digitsK u).length = (digitsK v).length := by
      rw [digitsK_length, digitsK_length, heq]
    have hl := congrArg List.length htl
    rw [List.length_append, hlen] at hl
    have htl0 : tl = [] := List.eq_nil_of_length_eq_zero (by omega)
    rw [htl0] at htl
    simpa using htl
  · exfalso
    have := congrArg List.length htl
    rw [List.length_append, digitsK_length, digitsK_length] at this
    omega

/-- Strict totality of digit order on distinct keys. -/
theorem digitLt_total {u v : String} (h : u ≠ v) (hu : GoodKey u) (hv : GoodKey v) :
    digitLt u v ∨ digitLt v u := by
  have ht : ∀ l₁ l₂ : List Nat, List.Lex (· < ·) l₁ l₂ ∨ l₁ = l₂ ∨ List.Lex (· < ·) l₂ l₁ :=
    (inferInstance : IsTrichotomous (List Nat) (List.Lex (· < ·))).trichotomous
  rcases ht (digitsK u) (digitsK v) with hl | he | hr
  · exact Or.inl hl
  · exact absurd (digitsK_inj hu hv he) h
  · exact Or.inr hr

theorem digitLt_irrefl (v : String) : ¬ digitLt v v :=
  (inferInstance : IsIrrefl (List Nat) (List.Lex (· < ·))).irrefl (digitsK v)

theorem digitLt_trans {u v w : String} (h₁ : digitLt u v) (h₂ : digitLt v w) :
    digitLt u w :=
  (inferInstance : IsTrans (List Nat) (List.Lex (· < ·))).trans _ _ _ h₁ h₂

theorem digitLt_asymm {u v : String} (h : digitLt u v) : ¬ digitLt v u :=
  fun h' => digitLt_irrefl u (digitLt_trans h h')

theorem digitLt_ne {u v : String} (h : digitLt u v) : u ≠ v :=
  fun he => digitLt_irrefl v (he ▸ h)

/-! ## Trim invariance of the key-resolving operations -/

theorem findT_trim (t : GoTrie) (v : String) : findT t (goTrim v) = findT t v := by
  unfold findT
  rw [goTrim_idem]

theorem addKeyE_trim (t : GoTrie) (v : String) : addKeyE t (goTrim v) = addKeyE t v := by
  unfold addKeyE
  rw [goTrim_idem]

theorem containsT_trim (t : GoTrie) (v : String) :
    containsT t (goTrim v) = containsT t v := by
  unfold containsT
  rw [goTrim_idem, findT_trim]

theorem removeE_trim (t : GoTrie) (v : String) : removeE t (goTrim v) = removeE t v := by
  unfold removeE
  rw [findT_trim]

theorem predecessorT_trim (t : GoTrie) (v : String) :
    predecessorT t (goTrim v) = predecessorT t v := by
  unfold predecessorT
  rw [goTrim_idem, findT_trim]

theorem successorT_trim (t : GoTrie) (v : String) :
    successorT t (goTrim v) = successorT t v := by
  unfold successorT
  rw [goTrim_idem, findT_trim]

theorem addKeyE_blank {t : GoTrie} {v : String} (h : goTrim v = "") :
    addKeyE t v = some (t, none) := by
  unfold addKeyE
  rw [if_pos h]

/-! ## The `Remove` error contract -/

theorem removeE_empty {t : GoTrie} (v : String) (h : t.size = 0) :
    removeE t v = (t, false, some .collectionEmpty) := by
  unfold removeE
  rw [if_pos h]

theorem removeE_find_error {t : GoTrie} {v : String} {e : GoErr}
    (hs : t.size ≠ 0) (h : findT t v = .error e) :
    removeE t v = (t, false, none) := by
  unfold removeE
  rw [if_neg hs, h]

theorem removeE_not_matched {t : GoTrie} {v : String} {r : SearchResult}
    {p : List Nat} (hs : t.size ≠ 0) (h : findT t v = .ok (r, p))
    (hr : r ≠ .Matched) : removeE t v = (t, false, none) := by
  unfold removeE
  rw [if_neg hs, h]
  exact if_pos hr

/-! ## Size bookkeeping of the mutating operations -/

theorem insertE_success_size {t t' : GoTrie} {v : String}
    (h : insertE t v = some (t', none)) : t'.size = t.size + 1 := by
  unfold insertE at h
  split at h
  · simp at h
  · split at h
    · simp at h
    · split at h
      · simp at h
      · split at h
        · simp at h
        · simp at h
        · split at h
          · split at h
            · simp at h
              rw [← h]
            · simp at h
          · simp at h
            rw [← h]

theorem addKeyE_success_size {t t' : GoTrie} {v : String}
    (h : addKeyE t v = some (t', none)) : t' = t ∨ t'.size = t.size + 1 := by
  unfold addKeyE at h
  split at h
  · simp at h
    exact Or.inl h.symm
  · exact Or.inr (insertE_success_size h)

theorem removeE_true_size {t t' : GoTrie} {v : String}
    (h : removeE t v = (t', true, none)) : t.size ≠ 0 ∧ t'.size = t.size - 1 := by
  unfold removeE at h
  split at h
  · simp at h
  · refine ⟨by assumption, ?_⟩
    split at h
    · simp at h
    · split at h
      · simp at h
      · split at h
        · split at h
          · simp at h
          · simp at h
            rw [← h]
        · simp at h

theorem removeE_false_state {t t' : GoTrie} {v : String}
    (h : removeE t v = (t', false, none)) : t' = t := by
  unfold removeE at h
  split at h
  · simp at h
  · split at h
    · simp at h
      exact h.symm
    · split at h
      · simp at h
        exact h.symm
      · split at h
        · split at h
          · simp at h
          · simp at h
        · simp at h
          exact h.symm

theorem runOps_size : ∀ (ops : List TrieOp) (t u : GoTrie) (n m : Nat),
    runOps t ops = some (u, n, m) → u.size + m = t.size + n
  | [], t, u, n, m, h => by
    unfold runOps at h
    have h' := Option.some.inj h
    cases h'
    rfl
  | .add v :: rest, t, u, n, m, h => by
    unfold runOps at h
    split at h
    next t' heq =>
      simp only [Option.map_eq_some'] at h
      obtain ⟨⟨u', n', m'⟩, hrun, hval⟩ := h
      have ih := runOps_size rest t' u' n' m' hrun
      simp only [Prod.mk.injEq] at hval
      obtain ⟨hu, hn, hm⟩ := hval
      subst hu hm
      rcases addKeyE_success_size heq with hsame | hinc
      · subst hsame
        rw [if_neg (by omega)] at hn
        omega
      · by_cases hc : t'.size = t.size + 1
        · rw [if_pos hc] at hn
          omega
        · exact absurd hinc hc
    next hne => simp at h
  | .remove v :: rest, t, u, n, m, h => by
    unfold runOps at h
    split at h
    next t' b heq =>
      simp only [Option.map_eq_some'] at h
      obtain ⟨⟨u', n', m'⟩, hrun, hval⟩ := h
      have ih := runOps_size rest t' u' n' m' hrun
      simp only [Prod.mk.injEq] at hval
      obtain ⟨hu, hn, hm⟩ := hval
      subst hu hn
      cases b with
      | true =>
        obtain ⟨hpos, hsz⟩ := removeE_true_size heq
        rw [if_pos rfl] at hm
        omega
      | false =>
        have := removeE_false_state heq
        subst this
        rw [if_neg (by simp)] at hm
        omega
    next hne =>
      exact absurd h (by simp)

/-! ## Navigation lemmas for trees -/

theorem childOfList_set_self {cs : List (Option TNode)} {d : Nat}
    (h : d < cs.length) (x : Option TNode) :
    childOfList (cs.set d x) d = (x.map id : Option TNode) := by
  unfold childOfList
  rw [List.get?_set_eq_of_lt x h]
  cases x <;> rfl

theorem childOfList_set_ne {cs : List (Option TNode)} {d i : Nat}
    (h : i ≠ d) (x : Option TNode) :
    childOfList (cs.set d x) i = childOfList cs i := by
  unfold childOfList
  rw [List.get?_set_ne x cs (fun he => h he.symm)]

theorem mem_leavesOfChildren {p : List Nat} {w : String} :
    ∀ (cs : List (Option TNode)) (i : Nat),
    ((p, w) ∈ leavesOfChildren cs i ↔
      ∃ j c p', cs.get? j = some (some c) ∧ p = (i + j) :: p' ∧
        (p', w) ∈ leavesOf c)
  | [], i => by
    constructor
    · intro h
      simp [leavesOfChildren] at h
    · rintro ⟨j, c, p', hj, _, _⟩
      simp at hj
  | none :: rest, i => by
    rw [show leavesOfChildren (none :: rest) i = leavesOfChildren rest (i + 1) from rfl]
    rw [mem_leavesOfChildren rest (i + 1)]
    constructor
    · rintro ⟨j, c, p', hj, hp, hmem⟩
      refine ⟨j + 1, c, p', by simpa using hj, ?_, hmem⟩
      rw [hp]
      congr 1
      omega
    · rintro ⟨j, c, p', hj, hp, hmem⟩
      match j, hj with
      | j + 1, hj =>
        refine ⟨j, c, p', by simpa using hj, ?_, hmem⟩
        rw [hp]
        congr 1
        omega
  | some c0 :: rest, i => by
    rw [show leavesOfChildren (some c0 :: rest) i =
      (leavesOf c0).map (fun pv => (i :: pv.1, pv.2)) ++ leavesOfChildren rest (i + 1)
      from rfl]
    rw [List.mem_append, mem_leavesOfChildren rest (i + 1), List.mem_map]
    constructor
    · rintro (⟨⟨p0, w0⟩, hmem, he⟩ | ⟨j, c, p', hj, hp, hmem⟩)
      · simp only [Prod.mk.injEq] at he
        refine ⟨0, c0, p0, by simp, ?_, ?_⟩
        · rw [← he.1]
          simp
        · rw [he.2] at hmem
          exact hmem
      · refine ⟨j + 1, c, p', by simpa using hj, ?_, hmem⟩
        rw [hp]
        congr 1
        omega
    · rintro ⟨j, c, p', hj, hp, hmem⟩
      match j, hj with
      | 0, hj =>
        left
        simp only [List.get?_cons_zero, Option.some.injEq] at hj
        refine ⟨(p', w), ?_, by simp [hp]⟩
        rw [hj]
        exact hmem
      | j + 1, hj =>
        right
        refine ⟨j, c, p', by simpa using hj, ?_, hmem⟩
        rw [hp]
        congr 1
        omega

theorem childOfList_eq_some {cs : List (Option TNode)} {d : Nat} {c : TNode} :
    childOfList cs d = some c ↔ cs.get? d = some (some c) := by
  unfold childOfList
  cases hg : cs.get? d with
  | none => simp
  | some o =>
    cases o with
    | none => simp
    | some c' => simp

theorem mem_leavesOf_internal {p : List Nat} {w : String} {cs : List (Option TNode)} :
    (p, w) ∈ leavesOf (.internal cs) ↔
      ∃ d c p', childOfList cs d = some c ∧ p = d :: p' ∧ (p', w) ∈ leavesOf c := by
  rw [show leavesOf (.internal cs) = leavesOfChildren cs 0 from rfl,
    mem_leavesOfChildren cs 0]
  constructor
  · rintro ⟨j, c, p', hj, hp, hmem⟩
    exact ⟨j, c, p', childOfList_eq_some.mpr hj, by simpa using hp, hmem⟩
  · rintro ⟨d, c, p', hd, hp, hmem⟩
    exact ⟨d, c, p', childOfList_eq_some.mp hd, by simpa using hp, hmem⟩

theorem mem_leavesOf_leaf {p : List Nat} {w v : String} :
    (p, w) ∈ leavesOf (.leafN v) ↔ p = [] ∧ w = v := by
  rw [show leavesOf (.leafN v) = [([], v)] from rfl]
  simp [Prod.ext_iff]

theorem nodeAt_cons (n : TNode) (i : Nat) (p : List Nat) :
    nodeAt n (i :: p) = match n.childOf i with
      | some c => nodeAt c p
      | none => none := rfl

theorem nodeAt_append (n : TNode) (q q' : List Nat) :
    nodeAt n (q ++ q') = (nodeAt n q).bind (fun m => nodeAt m q') := by
  induction q generalizing n with
  | nil => rfl
  | cons i qs ih =>
    show nodeAt n (i :: (qs ++ q')) = (nodeAt n (i :: qs)).bind _
    rw [nodeAt_cons n i (qs ++ q'), nodeAt_cons n i qs]
    cases h : n.childOf i with
    | some c => simpa using ih c
    | none => rfl

theorem leaf_nodeAt {w : String} : ∀ {p : List Nat} {n : TNode},
    (p, w) ∈ leavesOf n → nodeAt n p = some (.leafN w)
  | [], n, h => by
    cases n with
    | leafN v =>
      rw [mem_leavesOf_leaf] at h
      rw [h.2]
      rfl
    | internal cs =>
      rw [mem_leavesOf_internal] at h
      obtain ⟨d, c, p', _, hp, _⟩ := h
      cases hp
  | i :: p, n, h => by
    cases n with
    | leafN v =>
      rw [mem_leavesOf_leaf] at h
      cases h.1
    | internal cs =>
      rw [mem_leavesOf_internal] at h
      obtain ⟨d, c, p', hd, hp, hmem⟩ := h
      have hi : i = d := by cases hp; rfl
      have hpp : p = p' := by cases hp; rfl
      subst hi
      subst hpp
      rw [nodeAt_cons, show TNode.childOf (.internal cs) i = childOfList cs i from rfl, hd]
      exact leaf_nodeAt hmem

theorem subtree_leaves {r nq : TNode} : ∀ {q : List Nat}, nodeAt r q = some nq →
    ∀ (p' : List Nat) (w : String),
    ((p', w) ∈ leavesOf nq ↔ (q ++ p', w) ∈ leavesOf r) := by
  intro q
  induction q generalizing r with
  | nil =>
    intro h p' w
    cases h
    rfl
  | cons i qs ih =>
    intro h p' w
    unfold nodeAt at h
    cases hc : r.childOf i with
    | some c =>
      rw [hc] at h
      cases r with
      | leafN v => cases hc
      | internal cs =>
        rw [ih h p' w]
        show _ ↔ (i :: (qs ++ p'), w) ∈ leavesOf (.internal cs)
        rw [mem_leavesOf_internal]
        constructor
        · intro hmem
          exact ⟨i, c, qs ++ p', hc, rfl, hmem⟩
        · rintro ⟨d, c', p'', hd, hp, hmem⟩
          have hi : d = i := by cases hp; rfl
          subst hi
          have : c' = c := by
            have heq : TNode.childOf (.internal cs) d = childOfList cs d := rfl
            rw [heq, hd] at hc
            exact Option.some.inj hc
          subst this
          have : p'' = qs ++ p' := by cases hp; rfl
          rwa [this] at hmem
    | none => rw [hc] at h; cases h

/-! ## Well-formedness helpers -/

theorem WFT_len {cs : List (Option TNode)} (h : WFT (.internal cs)) :
    cs.length = 96 := by
  cases h with
  | node _ hlen _ _ _ => exact hlen

theorem WFT_child0 {cs : List (Option TNode)} (h : WFT (.internal cs)) {c : TNode}
    (hc : childOfList cs 0 = some c) : ∃ v, c = .leafN v := by
  cases h with
  | node _ _ h0 _ _ => exact h0 c hc

theorem WFT_childPos {cs : List (Option TNode)} (h : WFT (.internal cs)) {d : Nat}
    {c : TNode} (hd : 1 ≤ d) (hc : childOfList cs d = some c) : WFT c := by
  cases h with
  | node _ _ _ hsub _ => exact hsub d c hd hc

theorem WFT_childPos_ne {cs : List (Option TNode)} (h : WFT (.internal cs)) {d : Nat}
    {c : TNode} (hd : 1 ≤ d) (hc : childOfList cs d = some c) : leavesOf c ≠ [] := by
  cases h with
  | node _ _ _ _ hne => exact hne d c hd hc

theorem WFT_child_leaves_ne {cs : List (Option TNode)} (h : WFT (.internal cs))
    {d : Nat} {c : TNode} (hc : childOfList cs d = some c) : leavesOf c ≠ [] := by
  cases d with
  | zero =>
    obtain ⟨v, hv⟩ := WFT_child0 h hc
    rw [hv]
    simp [leavesOf]
  | succ d' => exact WFT_childPos_ne h (by omega) hc

theorem WFT_nodeAt {r n : TNode} : ∀ {q : List Nat}, WFT r → nodeAt r q = some n →
    (∃ v, n = .leafN v) ∨ WFT n := by
  intro q
  induction q generalizing r with
  | nil =>
    intro hw h
    cases h
    exact Or.inr hw
  | cons i qs ih =>
    intro hw h
    rw [nodeAt_cons] at h
    cases r with
    | leafN v => cases h
    | internal cs =>
      cases hc : TNode.childOf (.internal cs) i with
      | none => rw [hc] at h; cases h
      | some c =>
        rw [hc] at h
        have hc' : childOfList cs i = some c := hc
        cases i with
        | zero =>
          obtain ⟨v, hv⟩ := WFT_child0 hw hc'
          subst hv
          cases qs with
          | nil =>
            cases h
            exact Or.inl ⟨v, rfl⟩
          | cons j js =>
            have h' : nodeAt (.leafN v) (j :: js) = some n := h
            simp [nodeAt, TNode.childOf] at h'
        | succ i' => exact ih (WFT_childPos hw (by omega) hc') h

/-- In a well-formed tree whose leaves are the keys of `K`, a child slot `i`
below the node at `q` is occupied exactly when some stored key's digit
sequence extends `q ++ [i]`. -/
theorem present_iff_extends {r : TNode} {K : List String} (hw : WFT r)
    (hcorr : LeafCorr r K) {q : List Nat} {n : TNode} (hq : nodeAt r q = some n)
    (i : Nat) : (n.childOf i).isSome ↔ ∃ k ∈ K, (q ++ [i]) <+: digitsK k := by
  constructor
  · intro hp
    cases n with
    | leafN v => simp [TNode.childOf] at hp
    | internal cs =>
      cases hc : childOfList cs i with
      | none => rw [show TNode.childOf (.internal cs) i = childOfList cs i from rfl, hc] at hp; simp at hp
      | some c =>
        have hwn : WFT (.internal cs) := by
          rcases WFT_nodeAt hw hq with ⟨v, hv⟩ | hwn
          · cases hv
          · exact hwn
        have hne := WFT_child_leaves_ne hwn hc
        rcases hx : leavesOf c with _ | ⟨⟨pc, wc⟩, rest⟩
        · exact absurd hx hne
        · have hmem : (pc, wc) ∈ leavesOf c := by rw [hx]; simp
          have hmem2 : (i :: pc, wc) ∈ leavesOf (.internal cs) :=
            mem_leavesOf_internal.mpr ⟨i, c, pc, hc, rfl, hmem⟩
          have hmem3 : (q ++ i :: pc, wc) ∈ leavesOf r :=
            (subtree_leaves hq _ _).mp hmem2
          have := (hcorr _ _).mp hmem3
          refine ⟨wc, this.1, ?_⟩
          rw [← this.2]
          exact ⟨pc, by simp⟩
  · rintro ⟨k, hk, rest, hrest⟩
    have hmem : (digitsK k, k) ∈ leavesOf r := (hcorr _ _).mpr ⟨hk, rfl⟩
    have : (q ++ (i :: rest), k) ∈ leavesOf r := by
      rw [← hrest] at hmem
      simpa using hmem
    have hsub := (subtree_leaves hq _ _).mpr this
    cases n with
    | leafN v =>
      rw [mem_leavesOf_leaf] at hsub
      cases hsub.1
    | internal cs =>
      rw [mem_leavesOf_internal] at hsub
      obtain ⟨d, c, p', hd, hp, _⟩ := hsub
      have : d = i := by cases hp; rfl
      subst this
      rw [show TNode.childOf (.internal cs) d = childOfList cs d from rfl, hd]
      rfl

/-- Every prefix of a stored key's digit path resolves to a node. -/
theorem nodeAt_of_prefix {r : TNode} {K : List String} (hcorr : LeafCorr r K)
    {k : String} (hk : k ∈ K) {q : List Nat} (hpre : q <+: digitsK k) :
    ∃ n, nodeAt r q = some n := by
  obtain ⟨rest, hrest⟩ := hpre
  have hmem : (digitsK k, k) ∈ leavesOf r := (hcorr _ _).mpr ⟨hk, rfl⟩
  have hleaf := leaf_nodeAt hmem
  rw [← hrest, nodeAt_append] at hleaf
  cases hn : nodeAt r q with
  | none => rw [hn] at hleaf; cases hleaf
  | some n => exact ⟨n, rfl⟩

/-! ## Characterization of `find` on well-formed trees -/

theorem digitsK_get? {v : String} {pos : Nat} (h : pos < numDigitsOf v) :
    (digitsK v).get? pos = some (dseq v pos) := by
  have hlen : pos < (digitsK v).length := by rw [digitsK_length]; exact h
  cases hg : (digitsK v).get? pos with
  | none => exact absurd (List.get?_eq_none.mp hg) (by omega)
  | some a =>
    have : dseq v pos = a := getD_of_get? hg
    rw [this]

theorem digitsK_take_succ {v : String} {pos : Nat} (h : pos < numDigitsOf v) :
    (digitsK v).take (pos + 1) = (digitsK v).take pos ++ [dseq v pos] := by
  rw [List.take_succ,
    show (digitsK v)[pos]? = (digitsK v).get? pos from (List.get?_eq_getElem? _ _).symm,
    digitsK_get? h]
  rfl

theorem leavesOf_ne_of_corr {r : TNode} {K : List String} (hcorr : LeafCorr r K)
    {k : String} (hk : k ∈ K) : leavesOf r ≠ [] := by
  intro hemp
  have : (digitsK k, k) ∈ leavesOf r := (hcorr _ _).mpr ⟨hk, rfl⟩
  rw [hemp] at this
  cases this

theorem findFrom_leaf_eq (v : String) (numD fuel : Nat) (w : String) (pos : Nat)
    (path : List Nat) :
    findFrom v numD fuel (.leafN w) pos path =
      if pos ≠ numD then .ok (.Extension, path) else .ok (.Matched, path) := by
  cases fuel <;> rfl

theorem findFrom_internal_eq (v : String) (numD f : Nat) (cs : List (Option TNode))
    (pos : Nat) (path : List Nat) :
    findFrom v numD (f + 1) (.internal cs) pos path =
      if pos = numD then .ok (.Prefix, path)
      else
        match digitOfE v pos with
        | .error e => .error e
        | .ok d =>
          match childOfList cs d with
          | some c => findFrom v numD f c (pos + 1) (path ++ [d])
          | none => .ok (.Unmatched, path) := by
  simp only [findFrom]

/-- A leaf reached along the digit path of a good key is the key's own leaf:
the descent consumed all the digit places and the key is stored. -/
theorem findFrom_leaf_case {r : TNode} {K : List String} (hcorr : LeafCorr r K)
    (hgood : ∀ k ∈ K, GoodKey k) {v : String} (hv : GoodKey v) {pos : Nat}
    {w : String} (hle : pos ≤ numDigitsOf v)
    (hq : nodeAt r ((digitsK v).take pos) = some (.leafN w)) :
    v ∈ K ∧ w = v ∧ pos = numDigitsOf v := by
  have hmem : ((digitsK v).take pos ++ [], w) ∈ leavesOf r :=
    (subtree_leaves hq [] w).mp (mem_leavesOf_leaf.mpr ⟨rfl, rfl⟩)
  rw [List.append_nil] at hmem
  obtain ⟨hwK, hdig⟩ := (hcorr _ _).mp hmem
  have hgw : GoodKey w := hgood w hwK
  have hnum : numDigitsOf v = v.length + 1 := rfl
  have hlen : w.length + 1 = pos := by
    have h1 := congrArg List.length hdig
    rw [List.length_take, digitsK_length, digitsK_length] at h1
    omega
  have hpos1 : 1 ≤ pos := by omega
  have hlast : dseq v (pos - 1) = 0 := by
    have hg : (digitsK w).get? (pos - 1) = some 0 := by
      have := digitsK_get?_last w
      rwa [show w.length = pos - 1 by omega] at this
    rw [← hdig] at hg
    rw [List.get?_take (by omega)] at hg
    unfold dseq
    exact getD_of_get? hg
  have hend : v.length ≤ pos - 1 := by
    by_contra hc
    have := @dseq_pos _ hv (pos - 1) (by omega)
    omega
  have hpose : pos = numDigitsOf v := by omega
  have hdig2 : digitsK w = digitsK v := by
    rw [← hdig, hpose, digitsK_take_len]
  have hwv : w = v := digitsK_inj hgw hv hdig2
  exact ⟨hwv ▸ hwK, hwv, hpose⟩

/-- An internal node cannot sit at the full digit path of a good key when it
has a leaf below it (so `find` never returns `Prefix` on a well-formed
tree). -/
theorem findFrom_noPrefix {r : TNode} {K : List String} (hcorr : LeafCorr r K)
    (hgood : ∀ k ∈ K, GoodKey k) {v : String} (hv : GoodKey v)
    {cs : List (Option TNode)}
    (hq : nodeAt r (digitsK v) = some (.internal cs))
    (hne : leavesOf (.internal cs) ≠ []) : False := by
  rcases hx : leavesOf (.internal cs) with _ | ⟨⟨pc, wc⟩, rest⟩
  · exact hne hx
  · have hmem : (pc, wc) ∈ leavesOf (.internal cs) := by rw [hx]; simp
    have hpc : ∃ d c p', childOfList cs d = some c ∧ pc = d :: p' ∧ (p', wc) ∈ leavesOf c :=
      mem_leavesOf_internal.mp hmem
    obtain ⟨d, c, p', _, hpc', _⟩ := hpc
    have hmem2 : (digitsK v ++ pc, wc) ∈ leavesOf r := (subtree_leaves hq _ _).mp hmem
    obtain ⟨hwK, hdig⟩ := (hcorr _ _).mp hmem2
    have : digitsK v <+: digitsK wc := ⟨pc, hdig⟩
    have hvw := digitsK_prefix_eq hv (hgood wc hwK) this
    rw [← hvw] at hdig
    have : pc = [] := by
      have := congrArg List.length hdig
      rw [List.length_append] at this
      have hl : pc.length = 0 := by omega
      exact List.eq_nil_of_length_eq_zero hl
    rw [this] at hpc'
    cases hpc'

/-- What the `find` descent does on a well-formed tree: it reaches the key's
leaf (`Matched` with the full digit path) exactly when the key is stored;
otherwise it stops `Unmatched` at some proper digit prefix whose node lacks
the next digit's child. -/
theorem findFrom_spec {r : TNode} {K : List String} (hw : WFT r) (hcorr : LeafCorr r K)
    (hgood : ∀ k ∈ K, GoodKey k) {v : String} (hv : GoodKey v) :
    ∀ (fuel pos : Nat) (n : TNode),
    pos ≤ numDigitsOf v →
    numDigitsOf v - pos ≤ fuel →
    nodeAt r ((digitsK v).take pos) = some n →
    leavesOf n ≠ [] →
    ((v ∈ K →
      findFrom v (numDigitsOf v) fuel n pos ((digitsK v).take pos) =
        .ok (.Matched, digitsK v)) ∧
     (v ∉ K → ∃ j, pos ≤ j ∧ j ≤ v.length ∧
      findFrom v (numDigitsOf v) fuel n pos ((digitsK v).take pos) =
        .ok (.Unmatched, (digitsK v).take j) ∧
      ∃ cs, nodeAt r ((digitsK v).take j) = some (.internal cs) ∧
        childOfList cs (dseq v j) = none)) := by
  intro fuel
  induction fuel with
  | zero =>
    intro pos n hle hfuel hq hne
    have hpos : pos = numDigitsOf v := by omega
    cases n with
    | leafN w =>
      obtain ⟨hvK, hwv, _⟩ := findFrom_leaf_case hcorr hgood hv hle hq
      constructor
      · intro _
        rw [findFrom_leaf_eq, if_neg (by omega), hpos, digitsK_take_len]
      · intro hvn
        exact absurd hvK hvn
    | internal cs =>
      rw [hpos, digitsK_take_len] at hq
      exact absurd (findFrom_noPrefix hcorr hgood hv hq hne) id
  | succ f ih =>
    intro pos n hle hfuel hq hne
    cases n with
    | leafN w =>
      obtain ⟨hvK, hwv, hpos⟩ := findFrom_leaf_case hcorr hgood hv hle hq
      constructor
      · intro _
        rw [findFrom_leaf_eq, if_neg (by omega), hpos, digitsK_take_len]
      · intro hvn
        exact absurd hvK hvn
    | internal cs =>
      by_cases hpos : pos = numDigitsOf v
      · rw [hpos, digitsK_take_len] at hq
        exact absurd (findFrom_noPrefix hcorr hgood hv hq hne) id
      · have hlt : pos < numDigitsOf v := by omega
        have hstep : findFrom v (numDigitsOf v) (f + 1) (.internal cs) pos
            ((digitsK v).take pos) =
            (match childOfList cs (dseq v pos) with
             | some c => findFrom v (numDigitsOf v) f c (pos + 1)
                 ((digitsK v).take pos ++ [dseq v pos])
             | none => .ok (.Unmatched, (digitsK v).take pos)) := by
          rw [findFrom_internal_eq, if_neg hpos, digitOfE_good hv pos]
        cases hc : childOfList cs (dseq v pos) with
        | some c =>
          have hq' : nodeAt r ((digitsK v).take (pos + 1)) = some c := by
            rw [digitsK_take_succ hlt, nodeAt_append, hq]
            show nodeAt (.internal cs) [dseq v pos] = some c
            rw [nodeAt_cons, show TNode.childOf (.internal cs) (dseq v pos) =
              childOfList cs (dseq v pos) from rfl, hc]
            rfl
          have hwn : WFT (.internal cs) := by
            rcases WFT_nodeAt hw hq with ⟨w, hw'⟩ | hwn
            · cases hw'
            · exact hwn
          have hne' : leavesOf c ≠ [] := WFT_child_leaves_ne hwn hc
          have := ih (pos + 1) c (by omega) (by omega) hq' hne'
          rw [← digitsK_take_succ hlt] at hstep
          constructor
          · intro hvK
            rw [hstep, hc]
            exact this.1 hvK
          · intro hvn
            obtain ⟨j, hj1, hj2, hres, hrest⟩ := this.2 hvn
            exact ⟨j, by omega, hj2, by rw [hstep, hc]; exact hres, hrest⟩
        | none =>
          have hvn : v ∉ K := by
            intro hvK
            have hpre : ((digitsK v).take pos ++ [dseq v pos]) <+: digitsK v := by
              rw [← digitsK_take_succ hlt]
              exact List.take_prefix _ _
            have := (present_iff_extends hw hcorr hq (dseq v pos)).mpr ⟨v, hvK, hpre⟩
            rw [show TNode.childOf (.internal cs) (dseq v pos) =
              childOfList cs (dseq v pos) from rfl, hc] at this
            cases this
          constructor
          · intro hvK
            exact absurd hvK hvn
          · intro _
            exact ⟨pos, Nat.le_refl pos, by unfold numDigitsOf at hlt; omega,
              by rw [hstep, hc], cs, hq, hc⟩

/-- `find` on a reachable non-empty trie with a good search key. -/
theorem findT_spec {t : GoTrie} {r : TNode} (hr : t.root = some r) (hsz : t.size ≠ 0)
    (hw : WFT r) (hcorr : LeafCorr r t.overlay)
    (hgood : ∀ k ∈ t.overlay, GoodKey k) {v : String} (hv : GoodKey v)
    (hK : t.overlay ≠ []) :
    (v ∈ t.overlay → findT t v = .ok (.Matched, digitsK v)) ∧
    (v ∉ t.overlay → ∃ j, j ≤ v.length ∧
      findT t v = .ok (.Unmatched, (digitsK v).take j) ∧
      ∃ cs, nodeAt r ((digitsK v).take j) = some (.internal cs) ∧
        childOfList cs (dseq v j) = none) := by
  obtain ⟨k0, hk0⟩ := List.exists_mem_of_ne_nil _ hK
  have hne : leavesOf r ≠ [] := leavesOf_ne_of_corr hcorr hk0
  have hspec := findFrom_spec hw hcorr hgood hv (numDigitsOf v) 0 r
    (by omega) (by omega) (by simp [nodeAt]) hne
  have hfind : findT t v =
      findFrom v (numDigitsOf v) (numDigitsOf v) r 0 [] := by
    unfold findT
    rw [if_neg (by rw [hv.1]; exact hv.2.1), if_neg hsz, hv.1, hr]
    rfl
  rw [show ((digitsK v).take 0) = ([] : List Nat) from rfl] at hspec
  refine ⟨fun hm => by rw [hfind]; exact hspec.1 hm, fun hm => ?_⟩
  obtain ⟨j, _, hj2, hres, hrest⟩ := hspec.2 hm
  rw [hfind]
  exact ⟨j, hj2, hres, hrest⟩

/-! ## Grafting a subtree (`AddChild` through the context pointer) -/

theorem childOfList_none_lt {cs : List (Option TNode)} {d : Nat}
    (h : d < cs.length) (hn : childOfList cs d = none) : cs.get ⟨d, h⟩ = none := by
  unfold childOfList at hn
  have hg : cs.get? d = some (cs.get ⟨d, h⟩) := List.get?_eq_get h
  rw [hg] at hn
  cases hx : cs.get ⟨d, h⟩ with
  | none => rfl
  | some c => rw [hx] at hn; simp at hn

theorem addChild_ok {cs : List (Option TNode)} {d : Nat} (x : TNode)
    (hlt : d < cs.length) (hn : childOfList cs d = none) :
    addChild (.internal cs) d x = .ok (.internal (cs.set d (some x))) := by
  simp only [addChild, addChildList]
  rw [dif_pos hlt, childOfList_none_lt hlt hn]
  rfl

theorem addChildAt_leaf_ne {w : String} {path : List Nat} {d : Nat} {x r' : TNode} :
    addChildAt (.leafN w) path d x ≠ .ok r' := by
  cases path <;> intro h <;> cases h

theorem addChildAt_inv {path : List Nat} : ∀ {r : TNode} {d : Nat} {x r' : TNode},
    addChildAt r path d x = .ok r' →
    match path with
    | [] => ∃ cs, r = .internal cs ∧ d < cs.length ∧ childOfList cs d = none ∧
        r' = .internal (cs.set d (some x))
    | i :: rest => ∃ cs ch ch', r = .internal cs ∧ childOfList cs i = some ch ∧
        addChildAt ch rest d x = .ok ch' ∧ r' = .internal (cs.set i (some ch')) := by
  intro r d x r' h
  cases path with
  | nil =>
    cases r with
    | leafN w => cases h
    | internal cs =>
      have h2 : Except.map TNode.internal
          (if hlt : d < cs.length then
            match cs.get ⟨d, hlt⟩ with
            | some _ => Except.error GoErr.childExists
            | none => Except.ok (cs.set d (some x))
          else Except.error GoErr.boundsErr) = Except.ok r' := h
      by_cases hlt : d < cs.length
      · rw [dif_pos hlt] at h2
        cases hg : cs.get ⟨d, hlt⟩ with
        | some c =>
          rw [hg] at h2
          cases h2
        | none =>
          rw [hg] at h2
          have h3 : Except.ok (TNode.internal (cs.set d (some x))) = Except.ok r' := h2
          refine ⟨cs, rfl, hlt, ?_, (Except.ok.inj h3).symm⟩
          unfold childOfList
          rw [List.get?_eq_get hlt, hg]
      · rw [dif_neg hlt] at h2
        cases h2
  | cons i rest =>
    cases r with
    | leafN w => exact absurd h addChildAt_leaf_ne
    | internal cs =>
      have h2 : (match childOfList cs i with
          | some ch => Except.map (fun ch' => TNode.internal (cs.set i (some ch')))
              (addChildAt ch rest d x)
          | none => Except.error GoErr.notFound) = Except.ok r' := h
      cases hc : childOfList cs i with
      | none =>
        rw [hc] at h2
        cases h2
      | some ch =>
        rw [hc] at h2
        have h3 : Except.map (fun ch' => TNode.internal (cs.set i (some ch')))
            (addChildAt ch rest d x) = Except.ok r' := h2
        cases hrec : addChildAt ch rest d x with
        | error e =>
          rw [hrec] at h3
          cases h3
        | ok ch' =>
          rw [hrec] at h3
          have h4 : Except.ok (TNode.internal (cs.set i (some ch'))) = Except.ok r' := h3
          exact ⟨cs, ch, ch', rfl, hc, hrec, (Except.ok.inj h4).symm⟩

/-- Grafting exists whenever the path resolves to an internal node with the
target slot empty and in capacity. -/
theorem addChildAt_exists {x : TNode} : ∀ {path : List Nat} {r : TNode}
    {cs : List (Option TNode)} {d : Nat},
    nodeAt r path = some (.internal cs) → childOfList cs d = none →
    d < cs.length → ∃ r', addChildAt r path d x = .ok r'
  | [], r, cs, d, hq, hn, hlt => by
    cases hq
    exact ⟨_, addChild_ok x hlt hn⟩
  | i :: rest, r, cs, d, hq, hn, hlt => by
    cases r with
    | leafN w => rw [nodeAt_cons] at hq; cases hq
    | internal cs0 =>
      rw [nodeAt_cons] at hq
      cases hc : TNode.childOf (.internal cs0) i with
      | none => rw [hc] at hq; cases hq
      | some ch =>
        rw [hc] at hq
        obtain ⟨ch', hch'⟩ := @addChildAt_exists x rest _ _ _ hq hn hlt
        refine ⟨.internal (cs0.set i (some ch')), ?_⟩
        have hgoal : addChildAt (.internal cs0) (i :: rest) d x =
            (match childOfList cs0 i with
             | some ch => Except.map (fun ch' => TNode.internal (cs0.set i (some ch')))
                 (addChildAt ch rest d x)
             | none => Except.error GoErr.notFound) := rfl
        rw [hgoal, show childOfList cs0 i = some ch from hc]
        show Except.map (fun ch' => TNode.internal (cs0.set i (some ch')))
          (addChildAt ch rest d x) = _
        rw [hch']
        rfl

/-- Leaves after a successful graft: the old leaves plus the grafted
subtree's leaves below `path ++ [d]`. -/
theorem leavesOf_addChildAt : ∀ {path : List Nat} {r r' x : TNode} {d : Nat},
    addChildAt r path d x = .ok r' →
    ∀ p w, ((p, w) ∈ leavesOf r' ↔
      ((p, w) ∈ leavesOf r ∨ ∃ px, (px, w) ∈ leavesOf x ∧ p = path ++ d :: px))
  | [], r, r', x, d, h, p, w => by
    obtain ⟨cs, hr, hlt, hn, hr'⟩ := addChildAt_inv h
    subst hr hr'
    rw [mem_leavesOf_internal, mem_leavesOf_internal]
    constructor
    · rintro ⟨i, c, p', hc, hp, hmem⟩
      by_cases hi : i = d
      · subst hi
        rw [childOfList_set_self hlt] at hc
        simp at hc
        right
        exact ⟨p', hc ▸ hmem, by simpa using hp⟩
      · rw [childOfList_set_ne hi] at hc
        exact Or.inl ⟨i, c, p', hc, hp, hmem⟩
    · rintro (⟨i, c, p', hc, hp, hmem⟩ | ⟨px, hmem, hp⟩)
      · have hi : i ≠ d := by
          intro he
          subst he
          rw [hn] at hc
          cases hc
        exact ⟨i, c, p', by rw [childOfList_set_ne hi]; exact hc, hp, hmem⟩
      · refine ⟨d, x, px, ?_, by simpa using hp, hmem⟩
        rw [childOfList_set_self hlt]
        rfl
  | i :: rest, r, r', x, d, h, p, w => by
    obtain ⟨cs, ch, ch', hr, hc, hrec, hr'⟩ := addChildAt_inv h
    subst hr hr'
    have ih := leavesOf_addChildAt hrec
    have hlt : i < cs.length := by
      by_contra hge
      unfold childOfList at hc
      rw [List.get?_eq_none.mpr (by omega)] at hc
      cases hc
    rw [mem_leavesOf_internal, mem_leavesOf_internal]
    constructor
    · rintro ⟨j, c, p', hcj, hp, hmem⟩
      by_cases hj : j = i
      · subst hj
        rw [childOfList_set_self hlt] at hcj
        simp at hcj
        subst hcj
        rcases (ih p' w).mp hmem with hold | ⟨px, hx, hpx⟩
        · exact Or.inl ⟨j, ch, p', hc, hp, hold⟩
        · right
          exact ⟨px, hx, by rw [hp, hpx]; rfl⟩
      · rw [childOfList_set_ne hj] at hcj
        exact Or.inl ⟨j, c, p', hcj, hp, hmem⟩
    · rintro (⟨j, c, p', hcj, hp, hmem⟩ | ⟨px, hx, hpx⟩)
      · by_cases hj : j = i
        · subst hj
          have : c = ch := by rw [hcj] at hc; exact Option.some.inj hc
          subst this
          refine ⟨j, ch', p', ?_, hp, ?_⟩
          · rw [childOfList_set_self hlt]; rfl
          · exact (ih p' w).mpr (Or.inl hmem)
        · exact ⟨j, c, p', by rw [childOfList_set_ne hj]; exact hcj, hp, hmem⟩
      · refine ⟨i, ch', rest ++ d :: px, ?_, by rw [hpx]; rfl, ?_⟩
        · rw [childOfList_set_self hlt]; rfl
        · exact (ih _ w).mpr (Or.inr ⟨px, hx, rfl⟩)

/-- Well-formedness after a successful graft, provided the grafted subtree
satisfies the slot conditions. -/
theorem WFT_addChildAt : ∀ {path : List Nat} {r r' x : TNode} {d : Nat},
    addChildAt r path d x = .ok r' → WFT r →
    (d = 0 → ∃ v, x = .leafN v) → (1 ≤ d → WFT x ∧ leavesOf x ≠ []) →
    WFT r'
  | [], r, r', x, d, h, hw, h0, hpos => by
    obtain ⟨cs, hr, hlt, hn, hr'⟩ := addChildAt_inv h
    subst hr hr'
    refine WFT.node _ (by rw [List.length_set]; exact WFT_len hw) ?_ ?_ ?_
    · intro n hc
      by_cases hd : (0 : Nat) = d
      · subst hd
        rw [childOfList_set_self hlt] at hc
        simp at hc
        subst hc
        exact h0 rfl
      · rw [childOfList_set_ne (fun he => hd he)] at hc
        exact WFT_child0 hw hc
    · intro j n hj hc
      by_cases hd : j = d
      · subst hd
        rw [childOfList_set_self hlt] at hc
        simp at hc
        subst hc
        exact (hpos hj).1
      · rw [childOfList_set_ne hd] at hc
        exact WFT_childPos hw hj hc
    · intro j n hj hc
      by_cases hd : j = d
      · subst hd
        rw [childOfList_set_self hlt] at hc
        simp at hc
        subst hc
        exact (hpos hj).2
      · rw [childOfList_set_ne hd] at hc
        exact WFT_childPos_ne hw hj hc
  | i :: rest, r, r', x, d, h, hw, h0, hpos => by
    obtain ⟨cs, ch, ch', hr, hc, hrec, hr'⟩ := addChildAt_inv h
    subst hr hr'
    have hlt : i < cs.length := by
      by_contra hge
      unfold childOfList at hc
      rw [List.get?_eq_none.mpr (by omega)] at hc
      cases hc
    cases i with
    | zero =>
      obtain ⟨w, hwleaf⟩ := WFT_child0 hw hc
      subst hwleaf
      exact absurd hrec addChildAt_leaf_ne
    | succ i' =>
      have hwch : WFT ch := WFT_childPos hw (by omega) hc
      have hwch' : WFT ch' := WFT_addChildAt hrec hwch h0 hpos
      have hnech' : leavesOf ch' ≠ [] := by
        have hne := WFT_childPos_ne hw (by omega) hc
        rcases hx : leavesOf ch with _ | ⟨⟨pc, wc⟩, restl⟩
        · exact absurd hx hne
        · have : (pc, wc) ∈ leavesOf ch' :=
            (leavesOf_addChildAt hrec pc wc).mpr (Or.inl (by rw [hx]; simp))
          intro hemp
          rw [hemp] at this
          cases this
      refine WFT.node _ (by rw [List.length_set]; exact WFT_len hw) ?_ ?_ ?_
      · intro n hcn
        rw [childOfList_set_ne (by omega)] at hcn
        exact WFT_child0 hw hcn
      · intro j n hj hcn
        by_cases hd : j = i' + 1
        · subst hd
          rw [childOfList_set_self hlt] at hcn
          simp at hcn
          subst hcn
          exact hwch'
        · rw [childOfList_set_ne hd] at hcn
          exact WFT_childPos hw hj hcn
      · intro j n hj hcn
        by_cases hd : j = i' + 1
        · subst hd
          rw [childOfList_set_self hlt] at hcn
          simp at hcn
          subst hcn
          exact hnech'
        · rw [childOfList_set_ne hd] at hcn
          exact WFT_childPos_ne hw hj hcn

/-! ## The chain grafted by `addNode` -/

theorem childOfList_empty (i : Nat) : childOfList emptyChildren i = none := by
  unfold childOfList emptyChildren
  cases h : (List.replicate 96 (none : Option TNode)).get? i with
  | none => rfl
  | some o =>
    have hm := List.get?_mem h
    have : o = none := List.eq_of_mem_replicate hm
    rw [this]

theorem emptyChildren_length : emptyChildren.length = 96 := by
  unfold emptyChildren
  exact List.length_replicate 96 none

/-- Index shift for the digit-path of a chain. -/
theorem dseq_range_shift (v : String) (k p : Nat) :
    (List.range (k + 1)).map (fun t => dseq v (p + 1 + t)) =
      dseq v (p + 1) :: (List.range k).map (fun t => dseq v (p + 2 + t)) := by
  rw [List.range_succ_eq_map, List.map_cons, List.map_map]
  refine congrArg₂ List.cons rfl ?_
  apply List.map_congr_left
  intro t _
  simp only [Function.comp_apply]
  congr 1
  omega

/-- The chain holds exactly one leaf: the new key, at the digit path covering
places `p+1 .. p+k`. -/
theorem mem_chainFrom {v : String} (hv : GoodKey v) :
    ∀ (k p : Nat) (q : List Nat) (w : String),
    ((q, w) ∈ leavesOf (chainFrom v p k) ↔
      w = v ∧ q = (List.range k).map (fun t => dseq v (p + 1 + t)))
  | 0, p, q, w => by
    rw [show chainFrom v p 0 = .leafN v from rfl, mem_leavesOf_leaf]
    simp [and_comm]
  | k + 1, p, q, w => by
    rw [show chainFrom v p (k + 1) =
      .internal (emptyChildren.set (dseq v (p + 1)) (some (chainFrom v (p + 1) k)))
      from rfl, mem_leavesOf_internal]
    have hlt : dseq v (p + 1) < emptyChildren.length := by
      rw [emptyChildren_length]
      exact dseq_lt96 hv (p + 1)
    rw [dseq_range_shift]
    constructor
    · rintro ⟨d, c, q', hd, hq, hmem⟩
      by_cases hdd : d = dseq v (p + 1)
      · subst hdd
        rw [childOfList_set_self hlt] at hd
        simp at hd
        subst hd
        obtain ⟨hw, hq'⟩ := (mem_chainFrom hv k (p + 1) q' w).mp hmem
        refine ⟨hw, ?_⟩
        rw [hq, hq']
      · rw [childOfList_set_ne hdd] at hd
        rw [childOfList_empty] at hd
        cases hd
    · rintro ⟨hw, hq⟩
      refine ⟨dseq v (p + 1), chainFrom v (p + 1) k,
        (List.range k).map (fun t => dseq v (p + 2 + t)), ?_, hq, ?_⟩
      · rw [childOfList_set_self hlt]
        rfl
      · rw [mem_chainFrom hv k (p + 1)]
        exact ⟨hw, rfl⟩

theorem drop_digitsK_eq (v : String) (m : Nat) :
    (digitsK v).drop m = (List.range (v.length + 1 - m)).map (fun t => dseq v (m + t)) := by
  apply List.ext_get?
  intro n
  rw [List.get?_drop]
  rcases Nat.lt_or_ge n (v.length + 1 - m) with h | h
  · rw [List.get?_map, List.get?_range h]
    show (digitsK v).get? (m + n) = some (dseq v (m + n))
    exact digitsK_get? (by unfold numDigitsOf; omega)
  · have h1 : (digitsK v).get? (m + n) = none :=
      List.get?_eq_none.mpr (by rw [digitsK_length]; omega)
    have h2 : ((List.range (v.length + 1 - m)).map (fun t => dseq v (m + t))).get? n = none :=
      List.get?_eq_none.mpr (by rw [List.length_map, List.length_range]; omega)
    rw [h1, h2]

/-- The leaves of the chain grafted for `v` below digit place `j`: exactly the
new key at the remaining digit path. -/
theorem leavesOf_chainFrom {v : String} (hv : GoodKey v) {j : Nat}
    (q : List Nat) (w : String) :
    ((q, w) ∈ leavesOf (chainFrom v j (v.length - j)) ↔
      w = v ∧ q = (digitsK v).drop (j + 1)) := by
  rw [mem_chainFrom hv (v.length - j) j q w, drop_digitsK_eq v (j + 1)]
  have he : v.length + 1 - (j + 1) = v.length - j := by omega
  rw [he]

/-- The chain is well-formed whenever it has at least one internal level. -/
theorem WFT_chainFrom {v : String} (hv : GoodKey v) :
    ∀ (k j : Nat), 1 ≤ k → j + k = v.length → WFT (chainFrom v j k)
  | k + 1, j, _, hjk => by
    rw [show chainFrom v j (k + 1) =
      .internal (emptyChildren.set (dseq v (j + 1)) (some (chainFrom v (j + 1) k)))
      from rfl]
    have hlt : dseq v (j + 1) < emptyChildren.length := by
      rw [emptyChildren_length]
      exact dseq_lt96 hv _
    cases k with
    | zero =>
      have hd0 : dseq v (j + 1) = 0 := dseq_of_ge (by omega)
      rw [hd0]
      refine WFT.node _ (by rw [List.length_set, emptyChildren_length]) ?_ ?_ ?_
      · intro n hn
        rw [childOfList_set_self (by rw [emptyChildren_length]; omega)] at hn
        simp at hn
        exact ⟨v, hn.symm⟩
      · intro i n hi hn
        rw [childOfList_set_ne (by omega), childOfList_empty] at hn
        cases hn
      · intro i n hi hn
        rw [childOfList_set_ne (by omega), childOfList_empty] at hn
        cases hn
    | succ k' =>
      have hdpos : 1 ≤ dseq v (j + 1) := dseq_pos hv (by omega)
      refine WFT.node _ (by rw [List.length_set, emptyChildren_length]) ?_ ?_ ?_
      · intro n hn
        rw [childOfList_set_ne (by omega), childOfList_empty] at hn
        cases hn
      · intro i n hi hn
        by_cases hdd : i = dseq v (j + 1)
        · subst hdd
          rw [childOfList_set_self hlt] at hn
          simp at hn
          rw [← hn]
          exact WFT_chainFrom hv (k' + 1) (j + 1) (by omega) (by omega)
        · rw [childOfList_set_ne hdd, childOfList_empty] at hn
          cases hn
      · intro i n hi hn
        by_cases hdd : i = dseq v (j + 1)
        · subst hdd
          rw [childOfList_set_self hlt] at hn
          simp at hn
          rw [← hn]
          apply List.ne_nil_of_mem
          exact (mem_chainFrom hv (k' + 1) (j + 1) _ v).mpr ⟨rfl, rfl⟩
        · rw [childOfList_set_ne hdd, childOfList_empty] at hn
          cases hn

/-- When the digit at place `j` is 0 the grafted chain is the bare leaf. -/
theorem chain_d0 {v : String} (hv : GoodKey v) {j : Nat} (hj : j ≤ v.length)
    (h0 : dseq v j = 0) : chainFrom v j (v.length - j) = .leafN v := by
  have hje : j = v.length := by
    by_contra hne
    have hlt : j < v.length := by omega
    have := dseq_pos hv hlt
    omega
  rw [hje, Nat.sub_self]
  rfl

/-- When the digit at place `j` is positive the grafted chain is a well-formed
internal tree with a nonempty leaf set. -/
theorem chain_d1 {v : String} (hv : GoodKey v) {j : Nat}
    (h1 : 1 ≤ dseq v j) :
    WFT (chainFrom v j (v.length - j)) ∧ leavesOf (chainFrom v j (v.length - j)) ≠ [] := by
  have hjlt : j < v.length := by
    by_contra hge
    rw [dseq_of_ge (by omega)] at h1
    omega
  refine ⟨WFT_chainFrom hv (v.length - j) j (by omega) (by omega), ?_⟩
  apply List.ne_nil_of_mem
  exact (leavesOf_chainFrom hv _ v).mpr ⟨rfl, rfl⟩

theorem childOfList_lt_of_some {cs : List (Option TNode)} {i : Nat} {c : TNode}
    (hc : childOfList cs i = some c) : i < cs.length := by
  by_contra hge
  unfold childOfList at hc
  rw [List.get?_eq_none.mpr (by omega)] at hc
  cases hc

/-- After a graft at `path`/`d`, the grafted subtree sits at `path ++ [d]`. -/
theorem nodeAt_addChildAt_graft : ∀ {path : List Nat} {r r' x : TNode} {d : Nat},
    addChildAt r path d x = .ok r' → nodeAt r' (path ++ [d]) = some x
  | [], r, r', x, d, h => by
    obtain ⟨cs, hr, hlt, hn, hr'⟩ := addChildAt_inv h
    subst hr hr'
    have hc : (TNode.internal (cs.set d (some x))).childOf d = some x := by
      show childOfList (cs.set d (some x)) d = some x
      rw [childOfList_set_self hlt]
      rfl
    rw [List.nil_append, nodeAt_cons, hc]
    rfl
  | i :: rest, r, r', x, d, h => by
    obtain ⟨cs, ch, ch', hr, hc, hrec, hr'⟩ := addChildAt_inv h
    subst hr hr'
    have hlt : i < cs.length := childOfList_lt_of_some hc
    have hc' : (TNode.internal (cs.set i (some ch'))).childOf i = some ch' := by
      show childOfList (cs.set i (some ch')) i = some ch'
      rw [childOfList_set_self hlt]
      rfl
    rw [List.cons_append, nodeAt_cons, hc']
    exact nodeAt_addChildAt_graft hrec

/-- Grafting a subtree and then grafting into that subtree equals grafting the
extended subtree in one step. -/
theorem addChildAt_compose : ∀ {path : List Nat} {r r₁ r₂ : TNode} {d d' : Nat}
    {cs₀ : List (Option TNode)} {y : TNode},
    addChildAt r path d (.internal cs₀) = .ok r₁ →
    addChildAt r₁ (path ++ [d]) d' y = .ok r₂ →
    addChildAt r path d (.internal (cs₀.set d' (some y))) = .ok r₂
  | [], r, r₁, r₂, d, d', cs₀, y, h1, h2 => by
    obtain ⟨cs, hr, hlt, hn, hr₁⟩ := addChildAt_inv h1
    subst hr hr₁
    rw [List.nil_append] at h2
    obtain ⟨cs', ch, ch', hr₁', hch, hrec, hr₂⟩ := addChildAt_inv h2
    have hcs' : cs' = cs.set d (some (TNode.internal cs₀)) := by
      cases hr₁'
      rfl
    subst hcs'
    rw [childOfList_set_self hlt] at hch
    simp at hch
    subst hch
    obtain ⟨cs₀', heq, hlt', hn', hch'⟩ := addChildAt_inv hrec
    have hcs₀ : cs₀' = cs₀ := by
      cases heq
      rfl
    subst hcs₀
    subst hch' hr₂
    rw [List.set_set]
    exact addChild_ok _ hlt hn
  | i :: rest, r, r₁, r₂, d, d', cs₀, y, h1, h2 => by
    obtain ⟨cs, ch, ch₁, hr, hci, hrec1, hr₁⟩ := addChildAt_inv h1
    subst hr hr₁
    rw [List.cons_append] at h2
    obtain ⟨cs', ch2, ch₂', hr₁', hci', hrec2, hr₂⟩ := addChildAt_inv h2
    have hcs' : cs' = cs.set i (some ch₁) := by
      cases hr₁'
      rfl
    subst hcs'
    have hlt : i < cs.length := childOfList_lt_of_some hci
    rw [childOfList_set_self hlt] at hci'
    simp at hci'
    subst hci'
    have ih := addChildAt_compose hrec1 hrec2
    show (match childOfList cs i with
      | some c => (addChildAt c rest d (.internal (cs₀.set d' (some y)))).map
          (fun c' => TNode.internal (cs.set i (some c')))
      | none => Except.error .notFound) = Except.ok r₂
    rw [hci]
    show (addChildAt ch rest d (.internal (cs₀.set d' (some y)))).map
        (fun c' => TNode.internal (cs.set i (some c'))) = Except.ok r₂
    rw [ih]
    subst hr₂
    rw [List.set_set]
    rfl

theorem take_digitsK_length {v : String} {j : Nat} (hj : j ≤ v.length) :
    ((digitsK v).take j).length = j := by
  rw [List.length_take, digitsK_length]
  omega

/-- `addNode` on a key absent from the tree: starting from the internal node
where `find` stopped (empty slot at the next digit), the loop succeeds,
reports the full digit path, and its net effect is one graft of the chain of
fresh nodes for the remaining digits. -/
theorem addNodeLoop_spec {v : String} (hv : GoodKey v) :
    ∀ (k : Nat) {j fuel : Nat} {r : TNode} {cs : List (Option TNode)},
    k = v.length - j → j ≤ v.length → k ≤ fuel →
    nodeAt r ((digitsK v).take j) = some (.internal cs) →
    cs.length = 96 → childOfList cs (dseq v j) = none →
    ∃ r', addNodeLoop v (numDigitsOf v) fuel r ((digitsK v).take j) =
        (r', digitsK v, none) ∧
      addChildAt r ((digitsK v).take j) (dseq v j) (chainFrom v j (v.length - j)) =
        .ok r'
  | 0, j, fuel, r, cs, hk, hj, hfuel, hq, h96, hempty => by
    have hje : j = v.length := by omega
    have hplen : ((digitsK v).take j).length = j := take_digitsK_length hj
    obtain ⟨r', hr'⟩ := @addChildAt_exists (TNode.leafN v) _ _ _ _ hq hempty
      (by rw [h96]; exact dseq_lt96 hv j)
    have htl : (digitsK v).take (v.length + 1) = digitsK v := by
      apply List.take_of_length_le
      rw [digitsK_length]
    refine ⟨r', ?_, ?_⟩
    · cases fuel with
      | zero =>
        rw [addNodeLoop]
        rw [hplen, if_neg (by unfold numDigitsOf; omega), digitOfE_good hv j]
        show (match addChildAt r ((digitsK v).take j) (dseq v j) (.leafN v) with
          | .error e => (r, (digitsK v).take j, some e)
          | .ok tree' => (tree', (digitsK v).take j ++ [dseq v j], none)) =
          (r', digitsK v, none)
        rw [hr']
        show (r', (digitsK v).take j ++ [dseq v j], none) = (r', digitsK v, none)
        rw [← digitsK_take_succ (by unfold numDigitsOf; omega), hje, htl]
      | succ fuel' =>
        rw [addNodeLoop]
        rw [hplen, if_neg (by unfold numDigitsOf; omega), digitOfE_good hv j]
        show (match addChildAt r ((digitsK v).take j) (dseq v j) (.leafN v) with
          | .error e => (r, (digitsK v).take j, some e)
          | .ok tree' => (tree', (digitsK v).take j ++ [dseq v j], none)) =
          (r', digitsK v, none)
        rw [hr']
        show (r', (digitsK v).take j ++ [dseq v j], none) = (r', digitsK v, none)
        rw [← digitsK_take_succ (by unfold numDigitsOf; omega), hje, htl]
    · rw [show v.length - j = 0 from by omega]
      exact hr'
  | k + 1, j, fuel, r, cs, hk, hj, hfuel, hq, h96, hempty => by
    have hjlt : j < v.length := by omega
    have hplen : ((digitsK v).take j).length = j := take_digitsK_length hj
    obtain ⟨r₁, h₁⟩ := @addChildAt_exists (TNode.internal emptyChildren) _ _ _ _
      hq hempty (by rw [h96]; exact dseq_lt96 hv j)
    have hts : (digitsK v).take j ++ [dseq v j] = (digitsK v).take (j + 1) :=
      (digitsK_take_succ (by unfold numDigitsOf; omega)).symm
    have hq₁ : nodeAt r₁ ((digitsK v).take (j + 1)) = some (.internal emptyChildren) := by
      rw [← hts]
      exact nodeAt_addChildAt_graft h₁
    cases fuel with
    | zero => omega
    | succ fuel' =>
      obtain ⟨r', heq, hgraft⟩ := @addNodeLoop_spec v hv k (j + 1) fuel' _ _
        (by omega) (by omega) (by omega) hq₁ emptyChildren_length
        (childOfList_empty _)
      refine ⟨r', ?_, ?_⟩
      · rw [addNodeLoop]
        rw [hplen, if_pos (by unfold numDigitsOf; omega), digitOfE_good hv j]
        show (match addChildAt r ((digitsK v).take j) (dseq v j)
            (.internal emptyChildren) with
          | .error e => (r, (digitsK v).take j, some e)
          | .ok tree' => addNodeLoop v (numDigitsOf v) fuel' tree'
              ((digitsK v).take j ++ [dseq v j])) =
          (r', digitsK v, none)
        rw [h₁]
        show addNodeLoop v (numDigitsOf v) fuel' r₁
            ((digitsK v).take j ++ [dseq v j]) = (r', digitsK v, none)
        rw [hts]
        exact heq
      · rw [show v.length - (j + 1) = k from by omega] at hgraft
        have hcomp := addChildAt_compose h₁ (hts ▸ hgraft)
        rw [show v.length - j = k + 1 from by omega]
        exact hcomp

/-! ## First-difference characterization of the digit order -/

theorem lex_of_firstdiff : ∀ {l : Nat} {xs ys : List Nat} {a b : Nat},
    xs.take l = ys.take l → xs.get? l = some a → ys.get? l = some b → a < b →
    List.Lex (· < ·) xs ys
  | 0, xs, ys, a, b, ht, hx, hy, hab => by
    cases xs with
    | nil => cases hx
    | cons x xs' =>
      cases ys with
      | nil => cases hy
      | cons y ys' =>
        have hxa : x = a := by simpa using hx
        have hyb : y = b := by simpa using hy
        subst hxa hyb
        exact List.Lex.rel hab
  | l + 1, xs, ys, a, b, ht, hx, hy, hab => by
    cases xs with
    | nil => cases hx
    | cons x xs' =>
      cases ys with
      | nil => cases hy
      | cons y ys' =>
        rw [List.take_succ_cons, List.take_succ_cons] at ht
        have hxy : x = y := by injection ht
        have ht' : xs'.take l = ys'.take l := by injection ht
        subst hxy
        exact List.Lex.cons (lex_of_firstdiff ht' (by simpa using hx)
          (by simpa using hy) hab)

theorem lex_decomp {xs ys : List Nat} (h : List.Lex (· < ·) xs ys) :
    (∃ l a b, xs.take l = ys.take l ∧ xs.get? l = some a ∧
      ys.get? l = some b ∧ a < b) ∨ (∃ zs, ys = xs ++ zs ∧ zs ≠ []) := by
  induction h with
  | nil => exact Or.inr ⟨_, rfl, List.cons_ne_nil _ _⟩
  | rel hab => exact Or.inl ⟨0, _, _, rfl, rfl, rfl, hab⟩
  | cons h ih =>
    rcases ih with ⟨l, a, b, ht, hx, hy, hab⟩ | ⟨zs, hzs, hne⟩
    · exact Or.inl ⟨l + 1, a, b, by simpa [List.take_succ_cons] using ht,
        hx, hy, hab⟩
    · exact Or.inr ⟨zs, by rw [hzs]; rfl, hne⟩

/-- Between good keys the digit order is exactly a first-difference
comparison: a shared digit prefix and a strictly smaller digit at the first
place where the sequences differ (the end-of-key digit rules out the strict
digit-prefix case). -/
theorem digitLt_firstdiff {k v : String} (hk : GoodKey k) (hv : GoodKey v)
    (h : digitLt k v) :
    ∃ l, (digitsK k).take l = (digitsK v).take l ∧
      l < numDigitsOf k ∧ l < numDigitsOf v ∧ dseq k l < dseq v l := by
  rcases lex_decomp h with ⟨l, a, b, ht, hx, hy, hab⟩ | ⟨zs, hzs, hne⟩
  · refine ⟨l, ht, ?_, ?_, ?_⟩
    · obtain ⟨hb, -⟩ := List.get?_eq_some.mp hx
      rw [digitsK_length] at hb
      unfold numDigitsOf
      omega
    · obtain ⟨hb, -⟩ := List.get?_eq_some.mp hy
      rw [digitsK_length] at hb
      unfold numDigitsOf
      omega
    · rw [show dseq k l = a from getD_of_get? hx,
        show dseq v l = b from getD_of_get? hy]
      exact hab
  · exfalso
    have hpre : digitsK k <+: digitsK v := ⟨zs, hzs.symm⟩
    have hkv : k = v := digitsK_prefix_eq hk hv hpre
    subst hkv
    have : (digitsK k).length = (digitsK k ++ zs).length := by rw [← hzs]
    rw [List.length_append] at this
    have hz0 : zs.length = 0 := by omega
    exact hne (List.eq_nil_of_length_eq_zero hz0)

/-- Converse: a shared digit prefix with a smaller next digit puts a good key
strictly below. -/
theorem digitLt_of_firstdiff {k v : String} {l : Nat}
    (ht : (digitsK k).take l = (digitsK v).take l)
    (hlk : l < numDigitsOf k) (hlv : l < numDigitsOf v)
    (hd : dseq k l < dseq v l) : digitLt k v :=
  lex_of_firstdiff ht (digitsK_get? hlk) (digitsK_get? hlv) hd

/-! ## `moveToMaxDescendant` finds the greatest leaf -/

/-- Scanning a reversed initial range finds the greatest index satisfying
the predicate (the countdown loops of `moveToMaxDescendant` and
`retraceToLastLeftFork`). -/
theorem find_rev_range_spec (p : Nat → Bool) :
    ∀ n : Nat, ((List.range n).reverse.find? p = none ∧ ∀ j < n, p j = false) ∨
      (∃ i, (List.range n).reverse.find? p = some i ∧ i < n ∧ p i = true ∧
        ∀ j, i < j → j < n → p j = false)
  | 0 => Or.inl ⟨rfl, by omega⟩
  | n + 1 => by
    have hr : (List.range (n + 1)).reverse = n :: (List.range n).reverse := by
      rw [List.range_succ, List.reverse_append]
      rfl
    rw [hr]
    cases hp : p n with
    | true =>
      refine Or.inr ⟨n, ?_, by omega, hp, by omega⟩
      rw [List.find?_cons_of_pos _ hp]
    | false =>
      rcases find_rev_range_spec p n with ⟨hfind, hall⟩ | ⟨i, hfind, hin, hpi, hmax⟩
      · refine Or.inl ⟨?_, ?_⟩
        · rw [List.find?_cons_of_neg _ (by rw [hp]; exact Bool.false_ne_true), hfind]
        · intro j hj
          rcases Nat.lt_or_ge j n with h | h
          · exact hall j h
          · have : j = n := by omega
            rw [this, hp]
      · refine Or.inr ⟨i, ?_, by omega, hpi, ?_⟩
        · rw [List.find?_cons_of_neg _ (by rw [hp]; exact Bool.false_ne_true), hfind]
        · intro j hij hjn
          rcases Nat.lt_or_ge j n with h | h
          · exact hmax j hij h
          · have : j = n := by omega
            rw [this, hp]

theorem leavesOf_leafN (w : String) : leavesOf (.leafN w) = [([], w)] := rfl

/-- `moveToMaxDescendant` on a well-formed subtree with enough depth budget
returns the path of the lexicographically greatest leaf. -/
theorem moveToMax_spec : ∀ (fuel : Nat) (n : TNode),
    ((∃ w, n = .leafN w) ∨ WFT n) → leavesOf n ≠ [] →
    (∀ q w, (q, w) ∈ leavesOf n → q.length < fuel) →
    ∃ q w, moveToMax fuel n = some q ∧ (q, w) ∈ leavesOf n ∧
      ∀ q' w', (q', w') ∈ leavesOf n → q' = q ∨ List.Lex (· < ·) q' q := by
  intro fuel n hn hne hbound
  rcases hn with ⟨w, rfl⟩ | hwft
  · refine ⟨[], w, by cases fuel <;> rfl, ?_, ?_⟩
    · rw [mem_leavesOf_leaf]
      exact ⟨rfl, rfl⟩
    · intro q' w' h
      rw [mem_leavesOf_leaf] at h
      exact Or.inl h.1
  · obtain ⟨cs, hlen, h0, hsub, hne2⟩ := hwft
    cases fuel with
    | zero =>
      exfalso
      cases hL : leavesOf (TNode.internal cs) with
      | nil => exact hne hL
      | cons hd tl =>
        obtain ⟨q₀, w₀⟩ := hd
        have hm : (q₀, w₀) ∈ leavesOf (TNode.internal cs) := by
          rw [hL]
          exact List.mem_cons_self _ _
        exact absurd (hbound q₀ w₀ hm) (by omega)
    | succ fuel' =>
      rcases find_rev_range_spec (fun i => (childOfList cs i).isSome) cs.length with
        ⟨hfind, hall⟩ | ⟨i, hfind, hin, hpi, hmax⟩
      · exfalso
        cases hL : leavesOf (TNode.internal cs) with
        | nil => exact hne hL
        | cons hd tl =>
          obtain ⟨q₀, w₀⟩ := hd
          have hm : (q₀, w₀) ∈ leavesOf (TNode.internal cs) := by
            rw [hL]
            exact List.mem_cons_self _ _
          obtain ⟨j, c, p', hcj, hq, hmem⟩ := (mem_leavesOf_internal).mp hm
          have hj : j < cs.length := childOfList_lt_of_some hcj
          have := hall j hj
          rw [hcj] at this
          cases this
      · obtain ⟨c, hc⟩ := Option.isSome_iff_exists.mp hpi
        have hcne : leavesOf c ≠ [] := by
          rcases Nat.eq_zero_or_pos i with hi0 | hip
          · obtain ⟨wc, hwc⟩ := h0 c (hi0 ▸ hc)
            rw [hwc, leavesOf_leafN]
            exact List.cons_ne_nil _ _
          · exact hne2 i c hip hc
        have hcwf : (∃ w, c = .leafN w) ∨ WFT c := by
          rcases Nat.eq_zero_or_pos i with hi0 | hip
          · exact Or.inl (h0 c (hi0 ▸ hc))
          · exact Or.inr (hsub i c hip hc)
        have hcbound : ∀ q w, (q, w) ∈ leavesOf c → q.length < fuel' := by
          intro q w hq
          have : (i :: q, w) ∈ leavesOf (TNode.internal cs) :=
            mem_leavesOf_internal.mpr ⟨i, c, q, hc, rfl, hq⟩
          have := hbound _ _ this
          simp only [List.length_cons] at this
          omega
        obtain ⟨qc, wc, hmc, hmemc, hmaxc⟩ := moveToMax_spec fuel' c hcwf hcne hcbound
        refine ⟨i :: qc, wc, ?_, ?_, ?_⟩
        · rw [moveToMax]
          show (match maxPresentIdx cs with
            | some i =>
              match childOfList cs i with
              | some c => (moveToMax fuel' c).map (fun p => i :: p)
              | none => none
            | none => none) = some (i :: qc)
          rw [show maxPresentIdx cs = some i from hfind]
          show (match childOfList cs i with
            | some c => (moveToMax fuel' c).map (fun p => i :: p)
            | none => none) = some (i :: qc)
          rw [hc]
          show (moveToMax fuel' c).map (fun p => i :: p) = some (i :: qc)
          rw [hmc]
          rfl
        · exact mem_leavesOf_internal.mpr ⟨i, c, qc, hc, rfl, hmemc⟩
        · intro q' w' h'
          obtain ⟨j, c', p', hcj, hq', hmem'⟩ := mem_leavesOf_internal.mp h'
          have hj : j < cs.length := childOfList_lt_of_some hcj
          have hji : j ≤ i := by
            by_contra hgt
            have := hmax j (by omega) hj
            rw [hcj] at this
            cases this
          rcases Nat.lt_or_ge j i with hlt | hge
          · right
            rw [hq']
            exact List.Lex.rel hlt
          · have hje : j = i := by omega
            subst hje
            rw [hc] at hcj
            have hcc : c' = c := by
              injection hcj with h
              exact h.symm
            subst hcc
            rcases hmaxc p' w' hmem' with heq | hlex
            · left
              rw [hq', heq]
            · right
              rw [hq']
              exact List.Lex.cons hlex

/-! ## `retraceToLastLeftFork` finds the deepest left fork -/

/-- Slot `i` of the node at digit place `l` on the search path of `v` holds a
child. -/
def occupiedAt (r : TNode) (v : String) (l i : Nat) : Prop :=
  ∃ n, nodeAt r ((digitsK v).take l) = some n ∧ (n.childOf i).isSome = true

theorem take_digitsK_ne_nil {v : String} {m : Nat} (hm : 1 ≤ m) :
    (digitsK v).take m ≠ [] := by
  intro h
  have := congrArg List.length h
  rw [List.length_take, digitsK_length] at this
  simp at this
  omega

theorem dropLast_take_digitsK {v : String} {m : Nat} (hm : m ≤ v.length + 1) :
    ((digitsK v).take m).dropLast = (digitsK v).take (m - 1) := by
  rw [List.dropLast_eq_take, List.take_take, List.length_take, digitsK_length]
  congr 1
  omega

/-- At each digit place of a stored key the search-path node exists, is
internal, and the left scan of `retraceToLastLeftFork` finds the greatest
occupied slot strictly below the key's digit, if any. -/
theorem retrace_scan {r : TNode} {K : List String} (hw : WFT r)
    (hcorr : LeafCorr r K) {v : String} (hv : GoodKey v) (hvK : v ∈ K)
    (m : Nat) (hm : m ≤ v.length) :
    ∃ cs, nodeAt r ((digitsK v).take m) = some (.internal cs) ∧
      ((scanBelow r ((digitsK v).take m) (dseq v m) = none ∧
         ∀ i, i < dseq v m → ¬ occupiedAt r v m i) ∨
       (∃ i, scanBelow r ((digitsK v).take m) (dseq v m) = some i ∧
         i < dseq v m ∧ occupiedAt r v m i ∧
         ∀ i', i < i' → i' < dseq v m → ¬ occupiedAt r v m i')) := by
  obtain ⟨n, hn⟩ := nodeAt_of_prefix hcorr hvK (List.take_prefix m (digitsK v))
  have hvchild : (n.childOf (dseq v m)).isSome = true := by
    rw [present_iff_extends hw hcorr hn]
    refine ⟨v, hvK, ?_⟩
    rw [← digitsK_take_succ (by unfold numDigitsOf; omega)]
    exact List.take_prefix _ _
  cases n with
  | leafN w => cases hvchild
  | internal cs =>
    refine ⟨cs, hn, ?_⟩
    have hscan : scanBelow r ((digitsK v).take m) (dseq v m) =
        (List.range (dseq v m)).reverse.find?
          (fun i => ((TNode.internal cs).childOf i).isSome) := by
      unfold scanBelow
      rw [hn]
    rcases find_rev_range_spec
        (fun i => ((TNode.internal cs).childOf i).isSome) (dseq v m) with
      ⟨hfind, hall⟩ | ⟨i, hfind, hin, hpi, hmax⟩
    · refine Or.inl ⟨by rw [hscan, hfind], ?_⟩
      intro i hi hocc
      obtain ⟨n', hn', hsome⟩ := hocc
      rw [hn] at hn'
      have hne : n' = TNode.internal cs := by
        have h := hn'
        injection h with h2
        exact h2.symm
      subst hne
      have := hall i hi
      simp only at this
      rw [hsome] at this
      cases this
    · refine Or.inr ⟨i, by rw [hscan, hfind], hin,
        ⟨TNode.internal cs, hn, by simpa using hpi⟩, ?_⟩
      intro i' hii' hi' hocc
      obtain ⟨n', hn', hsome⟩ := hocc
      rw [hn] at hn'
      have hne : n' = TNode.internal cs := by
        have h := hn'
        injection h with h2
        exact h2.symm
      subst hne
      have := hmax i' hii' hi'
      simp only at this
      rw [hsome] at this
      cases this

/-- One unfolding of the ascent loop at a search-path node (always internal,
so the leaf branch is not taken). -/
theorem retrace_unfold {r : TNode} {v : String} {m fuel : Nat}
    {cs : List (Option TNode)}
    (hn : nodeAt r ((digitsK v).take m) = some (.internal cs))
    (hv : GoodKey v) (hm : m ≤ v.length) :
    retrace r v (fuel + 1) ((digitsK v).take m) =
      match scanBelow r ((digitsK v).take m) (dseq v m) with
      | some i => .ok ((digitsK v).take m ++ [i])
      | none =>
        if (digitsK v).take m = [] then .ok ((digitsK v).take m)
        else retrace r v fuel ((digitsK v).take m).dropLast := by
  rw [retrace, hn]
  show (match digitOfE v ((digitsK v).take m).length with
    | .error e => (Except.error e : Except GoErr (List Nat))
    | .ok d =>
      match scanBelow r ((digitsK v).take m) d with
      | some i => Except.ok ((digitsK v).take m ++ [i])
      | none =>
        if (digitsK v).take m = [] then Except.ok ((digitsK v).take m)
        else retrace r v fuel ((digitsK v).take m).dropLast) = _
  rw [take_digitsK_length hm, digitOfE_good hv m]

/-- The ascent loop of `retraceToLastLeftFork`, characterized: starting at
digit place `m` of the stored key `v`, it returns the deepest fork to the
left of the search path at or below place `m` (the path there plus the
greatest occupied slot strictly under `v`'s digit), or the root path when no
such fork exists. -/
theorem retrace_from {r : TNode} {K : List String} (hw : WFT r)
    (hcorr : LeafCorr r K) {v : String} (hv : GoodKey v) (hvK : v ∈ K) :
    ∀ (m : Nat), m ≤ v.length →
    (retrace r v (m + 1) ((digitsK v).take m) = .ok [] ∧
      ∀ l i, l ≤ m → i < dseq v l → ¬ occupiedAt r v l i) ∨
    (∃ l i, retrace r v (m + 1) ((digitsK v).take m) =
        .ok ((digitsK v).take l ++ [i]) ∧
      l ≤ m ∧ i < dseq v l ∧ occupiedAt r v l i ∧
      (∀ i', i < i' → i' < dseq v l → ¬ occupiedAt r v l i') ∧
      (∀ l' i', l < l' → l' ≤ m → i' < dseq v l' → ¬ occupiedAt r v l' i')) := by
  intro m
  induction m with
  | zero =>
    intro hm
    obtain ⟨cs, hn, hsc⟩ := retrace_scan hw hcorr hv hvK 0 hm
    rcases hsc with ⟨hnone, hno⟩ | ⟨i, hsome, hi, hocc, hmax⟩
    · left
      refine ⟨?_, ?_⟩
      · rw [retrace_unfold hn hv hm, hnone]
        show (if (digitsK v).take 0 = [] then
            Except.ok ((digitsK v).take 0)
          else retrace r v 0 ((digitsK v).take 0).dropLast) = Except.ok []
        simp
      · intro l i hl hi
        have hl0 : l = 0 := by omega
        subst hl0
        exact hno i hi
    · right
      refine ⟨0, i, ?_, by omega, hi, hocc, hmax, by omega⟩
      rw [retrace_unfold hn hv hm, hsome]
  | succ m' ih =>
    intro hm
    obtain ⟨cs, hn, hsc⟩ := retrace_scan hw hcorr hv hvK (m' + 1) hm
    rcases hsc with ⟨hnone, hno⟩ | ⟨i, hsome, hi, hocc, hmax⟩
    · have hrec : retrace r v ((m' + 1) + 1) ((digitsK v).take (m' + 1)) =
          retrace r v (m' + 1) ((digitsK v).take m') := by
        rw [retrace_unfold hn hv hm, hnone]
        show (if (digitsK v).take (m' + 1) = [] then
            Except.ok ((digitsK v).take (m' + 1))
          else retrace r v (m' + 1) ((digitsK v).take (m' + 1)).dropLast) = _
        rw [if_neg (take_digitsK_ne_nil (by omega)),
          dropLast_take_digitsK (by omega)]
        rfl
      rcases ih (by omega) with ⟨hres, hno'⟩ | ⟨l, i, hres, hl, hi, hocc, hmaxi, hmaxl⟩
      · left
        refine ⟨by rw [hrec]; exact hres, ?_⟩
        intro l i hl hi
        rcases Nat.lt_or_ge l (m' + 1) with h | h
        · exact hno' l i (by omega) hi
        · have : l = m' + 1 := by omega
          subst this
          exact hno i hi
      · right
        refine ⟨l, i, by rw [hrec]; exact hres, by omega, hi, hocc, hmaxi, ?_⟩
        intro l' i' hll' hl' hi'
        rcases Nat.lt_or_ge l' (m' + 1) with h | h
        · exact hmaxl l' i' hll' (by omega) hi'
        · have : l' = m' + 1 := by omega
          subst this
          exact hno i' hi'
    · right
      refine ⟨m' + 1, i, ?_, by omega, hi, hocc, hmax, by omega⟩
      rw [retrace_unfold hn hv hm, hsome]

/-! ## Forks and the digit order on stored keys -/

theorem lex_append_left {xs ys : List Nat} (h : List.Lex (· < ·) xs ys) :
    ∀ p : List Nat, List.Lex (· < ·) (p ++ xs) (p ++ ys)
  | [] => h
  | a :: p => List.Lex.cons (lex_append_left h p)

theorem dseq_eq_of_take_eq {u v : String} {l : Nat}
    (h : (digitsK u).take l = (digitsK v).take l) {l₀ : Nat} (hl₀ : l₀ < l) :
    dseq u l₀ = dseq v l₀ := by
  unfold dseq
  rw [List.getD_eq_getD_get?, List.getD_eq_getD_get?]
  have h1 : (digitsK u).get? l₀ = ((digitsK u).take l).get? l₀ :=
    (List.get?_take hl₀).symm
  have h2 : ((digitsK v).take l).get? l₀ = (digitsK v).get? l₀ :=
    List.get?_take hl₀
  rw [h1, h, h2]

/-- Under the search-path node of a stored key, a slot is occupied exactly
when some stored key's digit path goes through it. -/
theorem occupiedAt_iff {r : TNode} {K : List String} (hw : WFT r)
    (hcorr : LeafCorr r K) {v : String} (hvK : v ∈ K) {l i : Nat} :
    occupiedAt r v l i ↔
      ∃ k ∈ K, (digitsK v).take l ++ [i] <+: digitsK k := by
  constructor
  · rintro ⟨n, hn, hs⟩
    exact (present_iff_extends hw hcorr hn i).mp hs
  · intro h
    obtain ⟨k, hk, hpre⟩ := h
    have hpre' : (digitsK v).take l <+: digitsK k :=
      List.IsPrefix.trans ⟨[i], rfl⟩ hpre
    obtain ⟨n, hn⟩ := nodeAt_of_prefix hcorr hk hpre'
    exact ⟨n, hn, (present_iff_extends hw hcorr hn i).mpr ⟨k, hk, hpre⟩⟩

/-- A key whose digit path forks left of `v`'s at place `l` is strictly below
`v`. -/
theorem digitLt_of_fork {k v : String} {l i : Nat}
    (hpre : (digitsK v).take l ++ [i] <+: digitsK k)
    (hl : l < numDigitsOf v) (hi : i < dseq v l) : digitLt k v := by
  obtain ⟨rest, hrest⟩ := hpre
  have hlenv : ((digitsK v).take l).length = l := by
    rw [List.length_take, digitsK_length]
    unfold numDigitsOf at hl
    omega
  have htk : (digitsK k).take l = (digitsK v).take l := by
    rw [← hrest, List.append_assoc, List.take_append_eq_append_take,
      List.take_take, Nat.min_self, hlenv, Nat.sub_self, List.take_zero,
      List.append_nil]
  have hget : (digitsK k).get? l = some i := by
    rw [← hrest, List.append_assoc, List.get?_append_right (by omega), hlenv,
      Nat.sub_self]
    rfl
  have hlk : l < numDigitsOf k := by
    obtain ⟨hb, -⟩ := List.get?_eq_some.mp hget
    rw [digitsK_length] at hb
    unfold numDigitsOf
    omega
  refine digitLt_of_firstdiff htk hlk hl ?_
  rw [show dseq k l = i from getD_of_get? hget]
  exact hi

/-- Conversely, a stored key strictly below `v` marks a fork: an occupied
slot left of `v`'s search path. -/
theorem fork_of_digitLt {r : TNode} {K : List String} (hw : WFT r)
    (hcorr : LeafCorr r K) {v k : String} (hvK : v ∈ K) (hk : k ∈ K)
    (hgk : GoodKey k) (hgv : GoodKey v) (h : digitLt k v) :
    ∃ l, l ≤ v.length ∧ l < numDigitsOf k ∧ dseq k l < dseq v l ∧
      (digitsK k).take l = (digitsK v).take l ∧
      occupiedAt r v l (dseq k l) := by
  obtain ⟨l, ht, hlk, hlv, hd⟩ := digitLt_firstdiff hgk hgv h
  refine ⟨l, by unfold numDigitsOf at hlv; omega, hlk, hd, ht, ?_⟩
  rw [occupiedAt_iff hw hcorr hvK]
  refine ⟨k, hk, ?_⟩
  rw [← ht, ← digitsK_take_succ hlk]
  exact List.take_prefix _ _

theorem take_eq_of_take_le {xs ys : List Nat} {l l₀ : Nat}
    (h : xs.take l = ys.take l) (hle : l₀ ≤ l) : xs.take l₀ = ys.take l₀ := by
  rw [← Nat.min_eq_left hle, ← List.take_take, h, List.take_take]

/-- A digit sequence that extends `v`'s search path by slot `i` at place `l`
agrees with `v` below `l` and reads `i` there. -/
theorem digits_ext_take {v w : String} {l i : Nat} {rest : List Nat}
    (hl : l < numDigitsOf v)
    (heq : (digitsK v).take l ++ i :: rest = digitsK w) :
    (digitsK w).take l = (digitsK v).take l ∧ (digitsK w).get? l = some i := by
  have hlenv : ((digitsK v).take l).length = l := by
    rw [List.length_take, digitsK_length]
    unfold numDigitsOf at hl
    omega
  constructor
  · rw [← heq, List.take_append_eq_append_take, List.take_take, Nat.min_self,
      hlenv, Nat.sub_self, List.take_zero, List.append_nil]
  · rw [← heq, List.get?_append_right (by omega), hlenv, Nat.sub_self]
    rfl

/-- The leaf under the deepest left fork is the greatest stored key strictly
below `v`. -/
theorem pred_maximal {r : TNode} {K : List String} (hw : WFT r)
    (hcorr : LeafCorr r K) (hgood : ∀ k ∈ K, GoodKey k) {v : String}
    (hv : GoodKey v) (hvK : v ∈ K) {l i : Nat} (hl : l ≤ v.length)
    (hi : i < dseq v l)
    (hmaxi : ∀ i', i < i' → i' < dseq v l → ¬ occupiedAt r v l i')
    (hmaxl : ∀ l' i', l < l' → l' ≤ v.length → i' < dseq v l' →
      ¬ occupiedAt r v l' i')
    {c : TNode} (hnp : nodeAt r ((digitsK v).take l ++ [i]) = some c)
    {q : List Nat} {w : String}
    (hmaxq : ∀ q' w', (q', w') ∈ leavesOf c → q' = q ∨ List.Lex (· < ·) q' q)
    (hwK : w ∈ K) (hweq : (digitsK v).take l ++ i :: q = digitsK w) :
    ∀ k ∈ K, digitLt k v → k = w ∨ digitLt k w := by
  intro k hk hkv
  have hgk := hgood k hk
  have hgw := hgood w hwK
  obtain ⟨l₀, hl₀, hl₀k, hd₀, ht₀, hocc₀⟩ :=
    fork_of_digitLt hw hcorr hvK hk hgk hv hkv
  obtain ⟨hwtake, hwget⟩ := digits_ext_take (by unfold numDigitsOf; omega) hweq
  have hwl : dseq w l = i := getD_of_get? hwget
  have hlw : l < numDigitsOf w := by
    obtain ⟨hb, -⟩ := List.get?_eq_some.mp hwget
    rw [digitsK_length] at hb
    unfold numDigitsOf
    omega
  have hll : l₀ ≤ l := by
    by_contra hgt
    exact hmaxl l₀ (dseq k l₀) (by omega) hl₀ hd₀ hocc₀
  rcases Nat.lt_or_ge l₀ l with hlt | hge
  · -- the fork of k is strictly above the found fork: k < w at place l₀
    right
    have hw₀ : (digitsK w).take l₀ = (digitsK v).take l₀ :=
      take_eq_of_take_le hwtake (le_of_lt hlt)
    have htkw : (digitsK k).take l₀ = (digitsK w).take l₀ := ht₀.trans hw₀.symm
    exact digitLt_of_firstdiff htkw hl₀k (by unfold numDigitsOf at hlw ⊢; omega) (by
      rw [dseq_eq_of_take_eq hwtake hlt]
      exact hd₀)
  · have hle : l₀ = l := by omega
    subst hle
    -- the fork of k is at the found level: its slot is at most i
    have hki : dseq k l₀ ≤ i := by
      by_contra hgt
      exact hmaxi (dseq k l₀) (by omega) hd₀ hocc₀
    rcases Nat.lt_or_ge (dseq k l₀) i with hlt | hge'
    · right
      exact digitLt_of_firstdiff (ht₀.trans hwtake.symm) hl₀k hlw
        (by rw [hwl]; exact hlt)
    · have hie : dseq k l₀ = i := by omega
      -- k lives in the subtree below the fork: compare with the max leaf
      have htk1 : (digitsK k).take (l₀ + 1) = (digitsK v).take l₀ ++ [i] := by
        rw [digitsK_take_succ hl₀k, ht₀, hie]
      have hsplit : digitsK k =
          ((digitsK v).take l₀ ++ [i]) ++ (digitsK k).drop (l₀ + 1) := by
        rw [← htk1, List.take_append_drop]
      have hmemk : ((digitsK k).drop (l₀ + 1), k) ∈ leavesOf c := by
        rw [subtree_leaves hnp]
        rw [← hsplit]
        exact (hcorr _ _).mpr ⟨hk, rfl⟩
      rcases hmaxq _ _ hmemk with heq | hlex
      · left
        apply digitsK_inj hgk hgw
        rw [hsplit, heq, List.append_assoc]
        exact hweq
      · right
        unfold digitLt lexLt
        rw [hsplit, ← hweq, List.append_assoc]
        show List.Lex (· < ·) ((digitsK v).take l₀ ++ (i :: (digitsK k).drop (l₀ + 1)))
          ((digitsK v).take l₀ ++ (i :: q))
        exact lex_append_left (List.Lex.cons hlex) _

theorem digitsK_ne_nil (v : String) : digitsK v ≠ [] := by
  intro h
  have := congrArg List.length h
  rw [digitsK_length] at this
  simp at this

theorem dropLast_digitsK (v : String) :
    (digitsK v).dropLast = (digitsK v).take v.length := by
  rw [List.dropLast_eq_take, digitsK_length]
  rfl

/-- `moveToPredecessor` invoked on a stored key (search result `Matched`,
path = the key's digit path): either no stored key is below `v` and it
reports `(false, root)`, or it lands on the leaf of the greatest stored key
strictly below `v`. -/
theorem moveToPred_found {r : TNode} {K : List String} (hw : WFT r)
    (hcorr : LeafCorr r K) (hgood : ∀ k ∈ K, GoodKey k) {v : String}
    (hv : GoodKey v) (hvK : v ∈ K) :
    (moveToPredecessor r v .Matched (digitsK v) = some (.ok (false, [])) ∧
      ∀ k ∈ K, ¬ digitLt k v) ∨
    (∃ p w, moveToPredecessor r v .Matched (digitsK v) = some (.ok (true, p)) ∧
      nodeAt r p = some (.leafN w) ∧ w ∈ K ∧ p = digitsK w ∧ digitLt w v ∧
      ∀ k ∈ K, digitLt k v → k = w ∨ digitLt k w) := by
  have hleafv : nodeAt r (digitsK v) = some (.leafN v) :=
    leaf_nodeAt ((hcorr _ _).mpr ⟨hvK, rfl⟩)
  have hlb : isLeafAt r (digitsK v) = true := by
    unfold isLeafAt
    rw [hleafv]
  have hstep : retrace r v ((digitsK v).length + 1) (digitsK v) =
      retrace r v (v.length + 1) ((digitsK v).take v.length) := by
    rw [digitsK_length, retrace, hleafv]
    show (if digitsK v = [] then Except.ok (digitsK v)
      else retrace r v (v.length + 1) (digitsK v).dropLast) = _
    rw [if_neg (digitsK_ne_nil v), dropLast_digitsK]
  have hmp0 : moveToPredecessor r v .Matched (digitsK v) =
      match retrace r v ((digitsK v).length + 1) (digitsK v) with
      | .error e => some (.error e)
      | .ok p =>
        if p = [] then some (.ok (false, p))
        else if isLeafAt r p then some (.ok (true, p))
        else match nodeAt r p with
          | some n =>
            (match moveToMax depthBudget n with
             | some q => some (.ok (true, p ++ q))
             | none => none)
          | none => none := by
    unfold moveToPredecessor
    rw [hlb]
    rfl
  rcases retrace_from hw hcorr hv hvK v.length (Nat.le_refl _) with
    ⟨hres, hno⟩ | ⟨l, i, hres, hl, hi, hocc, hmaxi, hmaxl⟩
  · left
    constructor
    · rw [hmp0, hstep, hres]
      rfl
    · intro k hk hkv
      obtain ⟨l₀, hl₀, hl₀k, hd₀, ht₀, hocc₀⟩ :=
        fork_of_digitLt hw hcorr hvK hk (hgood k hk) hv hkv
      exact hno l₀ (dseq k l₀) hl₀ hd₀ hocc₀
  · right
    obtain ⟨n, hn, hs⟩ := hocc
    cases n with
    | leafN u => cases hs
    | internal cs =>
      obtain ⟨c, hc⟩ := Option.isSome_iff_exists.mp hs
      have hcc : childOfList cs i = some c := hc
      have hnp : nodeAt r ((digitsK v).take l ++ [i]) = some c := by
        rw [nodeAt_append, hn]
        show nodeAt (TNode.internal cs) [i] = some c
        rw [nodeAt_cons, show (TNode.internal cs).childOf i = some c from hcc]
        rfl
      have hp0ne : (digitsK v).take l ++ [i] ≠ [] := by simp
      have hwcs : WFT (TNode.internal cs) := by
        rcases WFT_nodeAt hw hn with ⟨u, hu⟩ | hwn
        · cases hu
        · exact hwn
      obtain ⟨cs2, hlen96, h0, hsub, hne2⟩ := hwcs
      rcases Nat.eq_zero_or_pos i with hi0 | hip
      · -- slot 0: the child is the leaf itself
        subst hi0
        obtain ⟨w, hwleaf⟩ := h0 c hcc
        subst hwleaf
        have hmemw : ((digitsK v).take l ++ [0], w) ∈ leavesOf r := by
          have h1 : (([] : List Nat), w) ∈ leavesOf (TNode.leafN w) := by
            rw [mem_leavesOf_leaf]
            exact ⟨rfl, rfl⟩
          have := (subtree_leaves hnp [] w).mp h1
          rwa [List.append_nil] at this
        obtain ⟨hwK, hweq⟩ := (hcorr _ _).mp hmemw
        refine ⟨(digitsK v).take l ++ [0], w, ?_, hnp, hwK, hweq, ?_, ?_⟩
        · rw [hmp0, hstep, hres]
          show (if (digitsK v).take l ++ [0] = [] then
              some (Except.ok (false, (digitsK v).take l ++ [0]))
            else if isLeafAt r ((digitsK v).take l ++ [0]) then
              some (Except.ok (true, (digitsK v).take l ++ [0]))
            else _) = _
          rw [if_neg hp0ne]
          have hleafp : isLeafAt r ((digitsK v).take l ++ [0]) = true := by
            unfold isLeafAt
            rw [hnp]
          rw [hleafp, if_pos rfl]
        · exact digitLt_of_fork ⟨[], by rw [List.append_nil]; exact hweq⟩
            (by unfold numDigitsOf; omega) hi
        · exact pred_maximal hw hcorr hgood hv hvK hl hi hmaxi hmaxl hnp
            (by
              intro q' w' hq'
              rw [mem_leavesOf_leaf] at hq'
              exact Or.inl hq'.1)
            hwK (by rw [← hweq])
      · -- positive slot: descend to the greatest leaf of the subtree
        have hwc : WFT c := hsub i c hip hcc
        have hcne : leavesOf c ≠ [] := hne2 i c hip hcc
        have hbound : ∀ q w, (q, w) ∈ leavesOf c → q.length < depthBudget := by
          intro q w hq
          have hmem : ((digitsK v).take l ++ [i] ++ q, w) ∈ leavesOf r :=
            (subtree_leaves hnp q w).mp hq
          obtain ⟨hwK, hweq⟩ := (hcorr _ _).mp hmem
          have hlq := congrArg List.length hweq
          rw [digitsK_length] at hlq
          simp only [List.length_append, List.length_cons, List.length_nil,
            List.length_take] at hlq
          have hw97 : w.length ≤ 97 := (hgood w hwK).2.2.2
          unfold depthBudget
          omega
        obtain ⟨q, w, hmq, hmemq, hmaxq⟩ :=
          moveToMax_spec depthBudget c (Or.inr hwc) hcne hbound
        have hmemw : ((digitsK v).take l ++ [i] ++ q, w) ∈ leavesOf r :=
          (subtree_leaves hnp q w).mp hmemq
        obtain ⟨hwK, hweq⟩ := (hcorr _ _).mp hmemw
        have hcint : isLeafAt r ((digitsK v).take l ++ [i]) = false := by
          unfold isLeafAt
          rw [hnp]
          obtain ⟨cs3, -, -, -, -⟩ := hwc
          rfl
        refine ⟨(digitsK v).take l ++ [i] ++ q, w, ?_, leaf_nodeAt hmemw,
          hwK, hweq, ?_, ?_⟩
        · rw [hmp0, hstep, hres]
          show (if (digitsK v).take l ++ [i] = [] then
              some (Except.ok (false, (digitsK v).take l ++ [i]))
            else if isLeafAt r ((digitsK v).take l ++ [i]) then
              some (Except.ok (true, (digitsK v).take l ++ [i]))
            else match nodeAt r ((digitsK v).take l ++ [i]) with
              | some n =>
                (match moveToMax depthBudget n with
                 | some q => some (Except.ok (true, (digitsK v).take l ++ [i] ++ q))
                 | none => none)
              | none => none) = _
          rw [if_neg hp0ne, hcint]
          show (match nodeAt r ((digitsK v).take l ++ [i]) with
            | some n =>
              (match moveToMax depthBudget n with
               | some q => some (Except.ok (true, (digitsK v).take l ++ [i] ++ q))
               | none => none)
            | none => none) = _
          rw [hnp]
          show (match moveToMax depthBudget c with
            | some q => some (Except.ok (true, (digitsK v).take l ++ [i] ++ q))
            | none => none) = _
          rw [hmq]
        · exact digitLt_of_fork ⟨q, by rw [List.append_assoc] at hweq ⊢; exact hweq⟩
            (by unfold numDigitsOf; omega) hi
        · exact pred_maximal hw hcorr hgood hv hvK hl hi hmaxi hmaxl hnp hmaxq
            hwK (by rw [← hweq, List.append_assoc]; rfl)

/-! ## Splicing and unsplicing the overlay list -/

theorem mem_insertAfterFirst :
    ∀ (l : List String) (w v y : String),
    (y ∈ overlayInsertAfter.insertAfterFirst l w v ↔ y ∈ l ∨ y = v)
  | [], w, v, y => by
    unfold overlayInsertAfter.insertAfterFirst
    simp
  | x :: xs, w, v, y => by
    unfold overlayInsertAfter.insertAfterFirst
    by_cases hxw : x = w
    · rw [if_pos hxw]
      simp only [List.mem_cons]
      constructor
      · rintro (h | h | h)
        · exact Or.inl (Or.inl h)
        · exact Or.inr h
        · exact Or.inl (Or.inr h)
      · rintro ((h | h) | h)
        · exact Or.inl h
        · exact Or.inr (Or.inr h)
        · exact Or.inr (Or.inl h)
    · rw [if_neg hxw]
      simp only [List.mem_cons, mem_insertAfterFirst xs w v y]
      constructor
      · rintro (h | h | h)
        · exact Or.inl (Or.inl h)
        · exact Or.inl (Or.inr h)
        · exact Or.inr h
      · rintro ((h | h) | h)
        · exact Or.inl h
        · exact Or.inr (Or.inl h)
        · exact Or.inr (Or.inr h)

/-- Splicing the new key right after its predecessor keeps the overlay list
strictly ascending. -/
theorem insertAfterFirst_sorted :
    ∀ {l : List String} {v w : String}, l.Pairwise digitLt →
    (∀ x ∈ l, GoodKey x) → GoodKey v → v ∉ l →
    w ∈ l → digitLt w v → (∀ x ∈ l, digitLt x v → x = w ∨ digitLt x w) →
    (overlayInsertAfter.insertAfterFirst l w v).Pairwise digitLt
  | [], v, w, _, _, _, _, hw, _, _ => by cases hw
  | x :: xs, v, w, hs, hgood, hgv, hvnot, hw, hwv, hmax => by
    rw [List.pairwise_cons] at hs
    obtain ⟨hx, hxs⟩ := hs
    unfold overlayInsertAfter.insertAfterFirst
    by_cases hxw : x = w
    · rw [if_pos hxw]
      subst hxw
      refine List.Pairwise.cons ?_ (List.Pairwise.cons ?_ hxs)
      · intro y hy
        rcases List.mem_cons.mp hy with hyv | hyxs
        · rw [hyv]
          exact hwv
        · exact hx y hyxs
      · intro y hy
        have hyK := hgood y (List.mem_cons_of_mem x hy)
        have hyne : y ≠ v := by
          intro he
          exact hvnot (he ▸ List.mem_cons_of_mem x hy)
        rcases digitLt_total hyne hyK hgv with hylt | hvy
        · rcases hmax y (List.mem_cons_of_mem x hy) hylt with hyw | hyw
          · exfalso
            have hwy := hx y hy
            rw [hyw] at hwy
            exact digitLt_irrefl x hwy
          · exact absurd (hx y hy) (digitLt_asymm hyw)
        · exact hvy
    · rw [if_neg hxw]
      have hw' : w ∈ xs := by
        rcases List.mem_cons.mp hw with h | h
        · exact absurd h.symm hxw
        · exact h
      refine List.Pairwise.cons ?_ (insertAfterFirst_sorted hxs
        (fun y hy => hgood y (List.mem_cons_of_mem x hy)) hgv
        (fun hv => hvnot (List.mem_cons_of_mem x hv)) hw' hwv
        (fun y hy hyv => hmax y (List.mem_cons_of_mem x hy) hyv))
      intro y hy
      rcases (mem_insertAfterFirst xs w v y).mp hy with hyxs | hyv
      · exact hx y hyxs
      · rw [hyv]
        exact digitLt_trans (hx w hw') hwv

/-- Prepending a key strictly below all stored keys keeps the overlay list
strictly ascending. -/
theorem cons_sorted {l : List String} {v : String} (hs : l.Pairwise digitLt)
    (hgood : ∀ x ∈ l, GoodKey x) (hgv : GoodKey v) (hvnot : v ∉ l)
    (hno : ∀ k ∈ l, ¬ digitLt k v) : (v :: l).Pairwise digitLt := by
  refine List.Pairwise.cons ?_ hs
  intro y hy
  have hyne : y ≠ v := fun he => hvnot (he ▸ hy)
  rcases digitLt_total hyne (hgood y hy) hgv with h | h
  · exact absurd h (hno y hy)
  · exact h

theorem eraseFirst_sublist : ∀ (l : List String) (w : String),
    List.Sublist (eraseFirst l w) l
  | [], _ => List.Sublist.refl []
  | x :: xs, w => by
    unfold eraseFirst
    by_cases h : x = w
    · rw [if_pos h]
      exact List.sublist_cons_self x xs
    · rw [if_neg h]
      exact List.Sublist.cons₂ x (eraseFirst_sublist xs w)

theorem eraseFirst_pairwise {l : List String} {w : String}
    (hs : l.Pairwise digitLt) : (eraseFirst l w).Pairwise digitLt :=
  hs.sublist (eraseFirst_sublist l w)

theorem length_eraseFirst : ∀ {l : List String} {w : String}, w ∈ l →
    (eraseFirst l w).length + 1 = l.length
  | [], w, hw => by cases hw
  | x :: xs, w, hw => by
    unfold eraseFirst
    by_cases h : x = w
    · rw [if_pos h]
      rfl
    · rw [if_neg h]
      have hw' : w ∈ xs := by
        rcases List.mem_cons.mp hw with h' | h'
        · exact absurd h'.symm h
        · exact h'
      rw [List.length_cons, List.length_cons, length_eraseFirst hw']

theorem mem_eraseFirst : ∀ {l : List String}, l.Pairwise digitLt →
    ∀ {w : String}, w ∈ l → ∀ y, (y ∈ eraseFirst l w ↔ y ∈ l ∧ y ≠ w)
  | [], _, w, hw, _ => by cases hw
  | x :: xs, hs, w, hw, y => by
    rw [List.pairwise_cons] at hs
    obtain ⟨hx, hxs⟩ := hs
    unfold eraseFirst
    by_cases h : x = w
    · rw [if_pos h]
      subst h
      constructor
      · intro hy
        refine ⟨List.mem_cons_of_mem x hy, ?_⟩
        intro he
        exact digitLt_irrefl x (he ▸ hx y hy)
      · rintro ⟨hy, hne⟩
        rcases List.mem_cons.mp hy with h' | h'
        · exact absurd h' hne
        · exact h'
    · rw [if_neg h]
      have hw' : w ∈ xs := by
        rcases List.mem_cons.mp hw with h' | h'
        · exact absurd h'.symm h
        · exact h'
      constructor
      · intro hy
        rcases List.mem_cons.mp hy with h' | h'
        · exact ⟨h' ▸ List.mem_cons_self x xs, h' ▸ h⟩
        · obtain ⟨hy', hne⟩ := (mem_eraseFirst hxs hw' y).mp h'
          exact ⟨List.mem_cons_of_mem x hy', hne⟩
      · rintro ⟨hy, hne⟩
        rcases List.mem_cons.mp hy with h' | h'
        · exact h' ▸ List.mem_cons_self x (eraseFirst xs w)
        · exact List.mem_cons_of_mem x ((mem_eraseFirst hxs hw' y).mpr ⟨h', hne⟩)

/-! ## The net effect of a successful insert -/

theorem length_insertAfterFirst : ∀ (l : List String) (w v : String),
    (overlayInsertAfter.insertAfterFirst l w v).length = l.length + 1
  | [], _, _ => rfl
  | x :: xs, w, v => by
    unfold overlayInsertAfter.insertAfterFirst
    by_cases h : x = w
    · rw [if_pos h]
      rfl
    · rw [if_neg h, List.length_cons, length_insertAfterFirst xs w v]
      rfl

theorem leavesOf_emptyRoot : leavesOf emptyRoot = [] := by
  cases hL : leavesOf emptyRoot with
  | nil => rfl
  | cons hd tl =>
    exfalso
    obtain ⟨q₀, w₀⟩ := hd
    have hm : (q₀, w₀) ∈ leavesOf (TNode.internal emptyChildren) := by
      show (q₀, w₀) ∈ leavesOf emptyRoot
      rw [hL]
      exact List.mem_cons_self _ _
    obtain ⟨i, c, p', hc, -, -⟩ := mem_leavesOf_internal.mp hm
    rw [childOfList_empty] at hc
    cases hc

theorem WFT_emptyRoot : WFT emptyRoot :=
  WFT.node emptyChildren emptyChildren_length
    (fun n hn => by rw [childOfList_empty] at hn; cases hn)
    (fun i n _ hn => by rw [childOfList_empty] at hn; cases hn)
    (fun i n _ hn => by rw [childOfList_empty] at hn; cases hn)

theorem LeafCorr_emptyRoot : LeafCorr emptyRoot [] := by
  intro p w
  rw [leavesOf_emptyRoot]
  simp

/-- Grafting the chain for a fresh key updates the tree exactly by the new
key: the result is well-formed and its leaves correspond to `v :: K`. -/
theorem insert_tree_update {r r' : TNode} {K : List String} {v : String}
    (hv : GoodKey v) (hw : WFT r) (hcorr : LeafCorr r K) {j : Nat}
    (hj : j ≤ v.length)
    (hgraft : addChildAt r ((digitsK v).take j) (dseq v j)
      (chainFrom v j (v.length - j)) = .ok r') :
    WFT r' ∧ LeafCorr r' (v :: K) := by
  constructor
  · refine WFT_addChildAt hgraft hw ?_ ?_
    · intro hd0
      exact ⟨v, chain_d0 hv hj hd0⟩
    · intro hd1
      exact chain_d1 hv hd1
  · intro p w
    rw [leavesOf_addChildAt hgraft p w]
    have hchain := @leavesOf_chainFrom v hv j
    constructor
    · rintro (hold | ⟨px, hpx, hp⟩)
      · obtain ⟨hwK, hweq⟩ := (hcorr p w).mp hold
        exact ⟨List.mem_cons_of_mem v hwK, hweq⟩
      · obtain ⟨hwv, hpx'⟩ := (hchain px w).mp hpx
        refine ⟨by rw [hwv]; exact List.mem_cons_self _ _, ?_⟩
        rw [hp, hpx', hwv]
        rw [show (digitsK v).take j ++ dseq v j :: (digitsK v).drop (j + 1) =
          ((digitsK v).take j ++ [dseq v j]) ++ (digitsK v).drop (j + 1) from by
            rw [List.append_assoc]; rfl,
          ← digitsK_take_succ (by unfold numDigitsOf; omega),
          List.take_append_drop]
    · rintro ⟨hwK, hweq⟩
      rcases List.mem_cons.mp hwK with hwv | hwK'
      · right
        refine ⟨(digitsK v).drop (j + 1), (hchain _ w).mpr ⟨hwv, rfl⟩, ?_⟩
        rw [hweq, hwv]
        rw [show (digitsK v).take j ++ dseq v j :: (digitsK v).drop (j + 1) =
          ((digitsK v).take j ++ [dseq v j]) ++ (digitsK v).drop (j + 1) from by
            rw [List.append_assoc]; rfl,
          ← digitsK_take_succ (by unfold numDigitsOf; omega),
          List.take_append_drop]
      · exact Or.inl ((hcorr p w).mpr ⟨hwK', hweq⟩)

theorem good_length_pos {v : String} (h : GoodKey v) : 1 ≤ v.length := by
  have hd := good_data_ne h
  rw [length_eq_data]
  cases hdata : v.data with
  | nil => exact absurd hdata hd
  | cons c cs => simp

/-- A successful insert of a fresh good key: no error, the key is spliced
into the overlay, the size grows by one, and the invariant is preserved. -/
theorem insertE_effect {t : GoTrie} (hInv : Inv t) {v : String}
    (hv : GoodKey v) (hvnot : v ∉ t.overlay) :
    ∃ t', insertE t v = some (t', none) ∧ Inv t' ∧ t'.size = t.size + 1 ∧
      (∀ y, y ∈ t'.overlay ↔ y ∈ t.overlay ∨ y = v) := by
  have hnum : numDigitsOf v = v.length + 1 := rfl
  have hgood' : ∀ k ∈ v :: t.overlay, GoodKey k := by
    intro k hk
    rcases List.mem_cons.mp hk with h | h
    · exact h ▸ hv
    · exact hInv.good k h
  by_cases hovl : t.overlay = []
  · -- empty trie: the root is created fresh
    have hsz0 : t.size = 0 := by
      rw [hInv.size_eq, hovl]
      rfl
    have hfind : findT t v = .ok (.Unmatched, (digitsK v).take 0) := by
      unfold findT
      rw [hv.1, if_neg hv.2.1, if_pos hsz0]
      rfl
    have hstart : (if t.size = 0 then emptyRoot else t.root.getD emptyRoot) =
        emptyRoot := if_pos hsz0
    obtain ⟨r', hloop0, hgraft⟩ := @addNodeLoop_spec v hv v.length 0
      (numDigitsOf v) emptyRoot emptyChildren (by omega) (by omega) (by omega)
      (by rfl) emptyChildren_length (childOfList_empty _)
    have hloop : addNodeLoop v (numDigitsOf v) (numDigitsOf v) emptyRoot
        ((digitsK v).take 0) = (r', digitsK v, none) := hloop0
    obtain ⟨hw', hcorr1⟩ := insert_tree_update hv WFT_emptyRoot
      LeafCorr_emptyRoot (by omega) hgraft
    have hcorr' : LeafCorr r' (v :: t.overlay) := by
      rw [hovl]
      exact hcorr1
    rcases moveToPred_found hw' hcorr' hgood' hv
        (List.mem_cons_self _ _) with
      ⟨hpred, hnolt⟩ | ⟨p, w, hpred, hnp, hwK, hweq, hwv, hmax⟩
    · refine ⟨⟨some r', v :: t.overlay, t.size + 1⟩, ?_, ?_, rfl, ?_⟩
      · unfold insertE
        rw [hfind]
        show (match addNodeLoop v (numDigitsOf v) (numDigitsOf v)
            (if t.size = 0 then emptyRoot else t.root.getD emptyRoot)
            ((digitsK v).take 0) with
          | (tree1, _, some e) => some ({ t with root := some tree1 }, some e)
          | (tree1, path1, none) =>
            match moveToPredecessor tree1 v .Matched path1 with
            | none => none
            | some (.error e) => some ({ t with root := some tree1 }, some e)
            | some (.ok (m, path2)) =>
              if m then
                match nodeAt tree1 path2 with
                | some (.leafN w) =>
                  some ({ root := some tree1,
                          overlay := overlayInsertAfter t.overlay (some w) v,
                          size := t.size + 1 }, none)
                | _ => none
              else
                some ({ root := some tree1,
                        overlay := overlayInsertAfter t.overlay none v,
                        size := t.size + 1 }, none)) = _
        rw [hstart, hloop]
        show (match moveToPredecessor r' v .Matched (digitsK v) with
          | none => none
          | some (.error e) => some ({ t with root := some r' }, some e)
          | some (.ok (m, path2)) =>
            if m then
              match nodeAt r' path2 with
              | some (.leafN w) =>
                some ({ root := some r',
                        overlay := overlayInsertAfter t.overlay (some w) v,
                        size := t.size + 1 }, none)
              | _ => none
            else
              some ({ root := some r',
                      overlay := overlayInsertAfter t.overlay none v,
                      size := t.size + 1 }, none)) = _
        rw [hpred]
        rfl
      · constructor
        · exact hgood'
        · show (v :: t.overlay).Pairwise digitLt
          rw [hovl]
          exact List.pairwise_singleton _ _
        · show t.size + 1 = (v :: t.overlay).length
          rw [hsz0, hovl]
          rfl
        · intro _
          exact ⟨r', rfl, hw', hcorr'⟩
      · intro y
        simp [List.mem_cons, or_comm]
    · exfalso
      rw [hovl] at hwK
      rcases List.mem_cons.mp hwK with h | h
      · exact digitLt_irrefl v (h ▸ hwv)
      · cases h
  · -- non-empty trie: descend from the existing root
    have hne : t.overlay ≠ [] := hovl
    obtain ⟨r, hr, hw, hcorr⟩ := hInv.tree_spec hne
    have hsz : t.size ≠ 0 := by
      rw [hInv.size_eq]
      intro h
      exact hne (List.eq_nil_of_length_eq_zero h)
    obtain ⟨-, hunm⟩ := findT_spec hr hsz hw hcorr hInv.good hv hne
    obtain ⟨j, hj, hfind, cs, hnd, hslot⟩ := hunm hvnot
    have hlen96 : cs.length = 96 := by
      rcases WFT_nodeAt hw hnd with ⟨u, hu⟩ | hwn
      · cases hu
      · obtain ⟨cs2, hlen, -, -, -⟩ := hwn
        exact hlen
    have hstart : (if t.size = 0 then emptyRoot else t.root.getD emptyRoot) = r := by
      rw [if_neg hsz, hr]
      rfl
    obtain ⟨r', hloop, hgraft⟩ := @addNodeLoop_spec v hv (v.length - j) j
      (numDigitsOf v) r cs rfl hj (by omega) hnd hlen96 hslot
    obtain ⟨hw', hcorr'⟩ := insert_tree_update hv hw hcorr hj hgraft
    rcases moveToPred_found hw' hcorr' hgood' hv (List.mem_cons_self _ _) with
      ⟨hpred, hnolt⟩ | ⟨p, w, hpred, hnp, hwK, hweq, hwv, hmax⟩
    · -- no predecessor: the new key becomes the head of the overlay
      refine ⟨⟨some r', v :: t.overlay, t.size + 1⟩, ?_, ?_, rfl, ?_⟩
      · unfold insertE
        rw [hfind]
        show (match addNodeLoop v (numDigitsOf v) (numDigitsOf v)
            (if t.size = 0 then emptyRoot else t.root.getD emptyRoot)
            ((digitsK v).take j) with
          | (tree1, _, some e) => some ({ t with root := some tree1 }, some e)
          | (tree1, path1, none) =>
            match moveToPredecessor tree1 v .Matched path1 with
            | none => none
            | some (.error e) => some ({ t with root := some tree1 }, some e)
            | some (.ok (m, path2)) =>
              if m then
                match nodeAt tree1 path2 with
                | some (.leafN w) =>
                  some ({ root := some tree1,
                          overlay := overlayInsertAfter t.overlay (some w) v,
                          size := t.size + 1 }, none)
                | _ => none
              else
                some ({ root := some tree1,
                        overlay := overlayInsertAfter t.overlay none v,
                        size := t.size + 1 }, none)) = _
        rw [hstart, hloop]
        show (match moveToPredecessor r' v .Matched (digitsK v) with
          | none => none
          | some (.error e) => some ({ t with root := some r' }, some e)
          | some (.ok (m, path2)) =>
            if m then
              match nodeAt r' path2 with
              | some (.leafN w) =>
                some ({ root := some r',
                        overlay := overlayInsertAfter t.overlay (some w) v,
                        size := t.size + 1 }, none)
              | _ => none
            else
              some ({ root := some r',
                      overlay := overlayInsertAfter t.overlay none v,
                      size := t.size + 1 }, none)) = _
        rw [hpred]
        rfl
      · constructor
        · exact hgood'
        · show (v :: t.overlay).Pairwise digitLt
          refine cons_sorted hInv.sorted hInv.good hv hvnot ?_
          intro k hk
          exact hnolt k (List.mem_cons_of_mem v hk)
        · show t.size + 1 = (v :: t.overlay).length
          rw [hInv.size_eq]
          rfl
        · intro _
          exact ⟨r', rfl, hw', hcorr'⟩
      · intro y
        simp [List.mem_cons, or_comm]
    · -- splice right after the predecessor leaf
      have hwne : w ≠ v := digitLt_ne hwv
      have hwov : w ∈ t.overlay := by
        rcases List.mem_cons.mp hwK with h | h
        · exact absurd h hwne
        · exact h
      refine ⟨⟨some r',
        overlayInsertAfter.insertAfterFirst t.overlay w v, t.size + 1⟩,
        ?_, ?_, rfl, ?_⟩
      · unfold insertE
        rw [hfind]
        show (match addNodeLoop v (numDigitsOf v) (numDigitsOf v)
            (if t.size = 0 then emptyRoot else t.root.getD emptyRoot)
            ((digitsK v).take j) with
          | (tree1, _, some e) => some ({ t with root := some tree1 }, some e)
          | (tree1, path1, none) =>
            match moveToPredecessor tree1 v .Matched path1 with
            | none => none
            | some (.error e) => some ({ t with root := some tree1 }, some e)
            | some (.ok (m, path2)) =>
              if m then
                match nodeAt tree1 path2 with
                | some (.leafN w) =>
                  some ({ root := some tree1,
                          overlay := overlayInsertAfter t.overlay (some w) v,
                          size := t.size + 1 }, none)
                | _ => none
              else
                some ({ root := some tree1,
                        overlay := overlayInsertAfter t.overlay none v,
                        size := t.size + 1 }, none)) = _
        rw [hstart, hloop]
        show (match moveToPredecessor r' v .Matched (digitsK v) with
          | none => none
          | some (.error e) => some ({ t with root := some r' }, some e)
          | some (.ok (m, path2)) =>
            if m then
              match nodeAt r' path2 with
              | some (.leafN w) =>
                some ({ root := some r',
                        overlay := overlayInsertAfter t.overlay (some w) v,
                        size := t.size + 1 }, none)
              | _ => none
            else
              some ({ root := some r',
                      overlay := overlayInsertAfter t.overlay none v,
                      size := t.size + 1 }, none)) = _
        rw [hpred]
        show (match nodeAt r' p with
          | some (TNode.leafN w) =>
            some ({ root := some r',
                    overlay := overlayInsertAfter t.overlay (some w) v,
                    size := t.size + 1 }, none)
          | _ => none : Option (GoTrie × Option GoErr)) = _
        rw [hnp]
        rfl
      · constructor
        · intro k hk
          rcases (mem_insertAfterFirst t.overlay w v k).mp hk with h | h
          · exact hInv.good k h
          · exact h ▸ hv
        · exact insertAfterFirst_sorted hInv.sorted hInv.good hv hvnot hwov hwv
            (fun x hx hxv => hmax x (List.mem_cons_of_mem v hx) hxv)
        · show t.size + 1 =
            (overlayInsertAfter.insertAfterFirst t.overlay w v).length
          rw [hInv.size_eq, length_insertAfterFirst]
        · intro _
          refine ⟨r', rfl, hw', ?_⟩
          intro p' y
          rw [hcorr' p' y]
          constructor
          · rintro ⟨hy, hp⟩
            refine ⟨?_, hp⟩
            rw [mem_insertAfterFirst]
            rcases List.mem_cons.mp hy with h | h
            · exact Or.inr h
            · exact Or.inl h
          · rintro ⟨hy, hp⟩
            refine ⟨?_, hp⟩
            rw [mem_insertAfterFirst] at hy
            rcases hy with h | h
            · exact List.mem_cons_of_mem v h
            · exact h ▸ List.mem_cons_self v t.overlay
      · intro y
        exact mem_insertAfterFirst t.overlay w v y

/-! ## The net effect of a successful remove -/

theorem hasChild_false_leaves {cs : List (Option TNode)}
    (h : hasChild (.internal cs) = false) : leavesOf (.internal cs) = [] := by
  cases hL : leavesOf (TNode.internal cs) with
  | nil => rfl
  | cons hd tl =>
    exfalso
    obtain ⟨q₀, w₀⟩ := hd
    have hm : (q₀, w₀) ∈ leavesOf (TNode.internal cs) := by
      rw [hL]
      exact List.mem_cons_self _ _
    obtain ⟨j, c, p', hcj, -, -⟩ := mem_leavesOf_internal.mp hm
    unfold hasChild at h
    have hmem : some c ∈ cs := by
      unfold childOfList at hcj
      cases hg : cs.get? j with
      | none => rw [hg] at hcj; cases hcj
      | some o =>
        cases o with
        | none => rw [hg] at hcj; cases hcj
        | some c' =>
          rw [hg] at hcj
          have hce : c' = c := by injection hcj
          subst hce
          exact List.get?_mem hg
    have := List.any_eq_false.mp h (some c) hmem
    simp at this

theorem WFT_occupied_leaves {cs : List (Option TNode)}
    (hw : WFT (.internal cs)) {j : Nat} {c : TNode}
    (hc : childOfList cs j = some c) : leavesOf (.internal cs) ≠ [] := by
  obtain ⟨cs2, hlen, h0, hsub, hne⟩ := hw
  rcases Nat.eq_zero_or_pos j with hj0 | hjp
  · obtain ⟨w, hwleaf⟩ := h0 c (hj0 ▸ hc)
    subst hwleaf
    apply List.ne_nil_of_mem
    show ((j : Nat) :: ([] : List Nat), w) ∈ leavesOf (TNode.internal cs)
    exact mem_leavesOf_internal.mpr ⟨j, .leafN w, [], hc, rfl,
      by rw [mem_leavesOf_leaf]; exact ⟨rfl, rfl⟩⟩
  · have hcne := hne j c hjp hc
    obtain ⟨⟨q₀, w₀⟩, hq₀⟩ := List.exists_mem_of_ne_nil _ hcne
    apply List.ne_nil_of_mem
    exact mem_leavesOf_internal.mpr ⟨j, c, q₀, hc, rfl, hq₀⟩

theorem WFT_hasChild_leaves {cs : List (Option TNode)}
    (hw : WFT (.internal cs)) (h : hasChild (.internal cs) = true) :
    leavesOf (.internal cs) ≠ [] := by
  unfold hasChild at h
  obtain ⟨x, hx, hsx⟩ := List.any_eq_true.mp h
  cases x with
  | none => cases hsx
  | some c =>
    obtain ⟨⟨j, hj⟩, hget⟩ := List.mem_iff_get.mp hx
    have hcj : childOfList cs j = some c := by
      unfold childOfList
      rw [List.get?_eq_get hj, hget]
    exact WFT_occupied_leaves hw hcj

/-- The upward pruning walk of `trie.remove`, characterized: it removes
exactly the leaf at the digit path, clears each ancestor left childless,
stays an internal node, and preserves well-formedness. -/
theorem pruneAt_spec {v : String} :
    ∀ (path : List Nat) (n : TNode), path ≠ [] → WFT n →
    nodeAt n path = some (.leafN v) →
    (∃ cs', pruneAt path n = .internal cs') ∧
    (∀ q w, ((q, w) ∈ leavesOf (pruneAt path n) ↔
      (q, w) ∈ leavesOf n ∧ q ≠ path)) ∧
    WFT (pruneAt path n)
  | [d], n, _, hw, hnode => by
    obtain ⟨cs, hlen, h0, hsub, hne⟩ := hw
    have hcd : childOfList cs d = some (.leafN v) := by
      have h2 := hnode
      rw [nodeAt_cons] at h2
      cases hcc : (TNode.internal cs).childOf d with
      | none => rw [hcc] at h2; cases h2
      | some c =>
        rw [hcc] at h2
        have hce : c = .leafN v := by
          have h3 : some c = some (TNode.leafN v) := h2
          injection h3 with h4
        rw [← hce]
        exact hcc
    have hdlt : d < cs.length := childOfList_lt_of_some hcd
    have hpr : pruneAt [d] (.internal cs) = .internal (cs.set d none) := rfl
    rw [hpr]
    refine ⟨⟨_, rfl⟩, ?_, ?_⟩
    · intro q w
      rw [mem_leavesOf_internal, mem_leavesOf_internal]
      constructor
      · rintro ⟨j, c, p', hcj, hq, hmem⟩
        have hjd : j ≠ d := by
          intro he
          rw [he, childOfList_set_self hdlt] at hcj
          cases hcj
        rw [childOfList_set_ne hjd] at hcj
        refine ⟨⟨j, c, p', hcj, hq, hmem⟩, ?_⟩
        rw [hq]
        intro he
        exact hjd (by injection he)
      · rintro ⟨⟨j, c, p', hcj, hq, hmem⟩, hqne⟩
        by_cases hjd : j = d
        · exfalso
          subst hjd
          rw [hcd] at hcj
          have hce : c = .leafN v := by
            injection hcj with h4
            exact h4.symm
          rw [hce, mem_leavesOf_leaf] at hmem
          apply hqne
          rw [hq, hmem.1]
        · exact ⟨j, c, p', by rw [childOfList_set_ne hjd]; exact hcj, hq, hmem⟩
    · refine WFT.node _ (by rw [List.length_set]; exact hlen) ?_ ?_ ?_
      · intro n0 hn0
        by_cases h0d : (0 : Nat) = d
        · rw [← h0d] at hdlt
          rw [← h0d, childOfList_set_self hdlt] at hn0
          cases hn0
        · rw [childOfList_set_ne h0d] at hn0
          exact h0 n0 hn0
      · intro i n0 hi hn0
        by_cases hid : i = d
        · rw [hid, childOfList_set_self hdlt] at hn0
          cases hn0
        · rw [childOfList_set_ne hid] at hn0
          exact hsub i n0 hi hn0
      · intro i n0 hi hn0
        by_cases hid : i = d
        · rw [hid, childOfList_set_self hdlt] at hn0
          cases hn0
        · rw [childOfList_set_ne hid] at hn0
          exact hne i n0 hi hn0
  | d :: e :: rest, n, _, hw, hnode => by
    obtain ⟨cs, hlen, h0, hsub, hne⟩ := hw
    have hstep : ∃ c, childOfList cs d = some c ∧
        nodeAt c (e :: rest) = some (.leafN v) := by
      have h2 := hnode
      rw [nodeAt_cons] at h2
      cases hcc : (TNode.internal cs).childOf d with
      | none => rw [hcc] at h2; cases h2
      | some c => rw [hcc] at h2; exact ⟨c, hcc, h2⟩
    obtain ⟨c, hcd, hrec⟩ := hstep
    have hdlt : d < cs.length := childOfList_lt_of_some hcd
    have hcint : ∀ w', c ≠ .leafN w' := by
      intro w' he
      rw [he, nodeAt_cons] at hrec
      cases hrec
    have hdpos : 1 ≤ d := by
      rcases Nat.eq_zero_or_pos d with h | h
      · obtain ⟨w', hw'⟩ := h0 c (h ▸ hcd)
        exact absurd hw' (hcint w')
      · exact h
    have hwc : WFT c := hsub d c hdpos hcd
    obtain ⟨⟨cs', hcs'⟩, hiff, hwft'⟩ :=
      pruneAt_spec (e :: rest) c (List.cons_ne_nil _ _) hwc hrec
    have hprune : pruneAt (d :: e :: rest) (.internal cs) =
        if hasChild (pruneAt (e :: rest) c) then
          .internal (cs.set d (some (pruneAt (e :: rest) c)))
        else .internal (cs.set d none) := by
      show (match childOfList cs d with
        | some c =>
          match pruneAt (e :: rest) c with
          | c' =>
            if hasChild c' then TNode.internal (cs.set d (some c'))
            else TNode.internal (cs.set d none)
        | none => TNode.internal cs) = _
      rw [hcd]
    cases hhc : hasChild (pruneAt (e :: rest) c) with
    | true =>
      have hlne : leavesOf (pruneAt (e :: rest) c) ≠ [] := by
        rw [hcs'] at hwft' hhc ⊢
        exact WFT_hasChild_leaves hwft' hhc
      rw [hprune, if_pos (by rw [hhc])]
      refine ⟨⟨_, rfl⟩, ?_, ?_⟩
      · intro q w
        rw [mem_leavesOf_internal, mem_leavesOf_internal]
        constructor
        · rintro ⟨j, c₀, p', hcj, hq, hmem⟩
          by_cases hjd : j = d
          · subst hjd
            rw [childOfList_set_self hdlt] at hcj
            simp at hcj
            rw [← hcj] at hmem
            obtain ⟨hmemc, hpne⟩ := (hiff p' w).mp hmem
            refine ⟨⟨j, c, p', hcd, hq, hmemc⟩, ?_⟩
            rw [hq]
            intro he
            exact hpne (by injection he)
          · rw [childOfList_set_ne hjd] at hcj
            refine ⟨⟨j, c₀, p', hcj, hq, hmem⟩, ?_⟩
            rw [hq]
            intro he
            exact hjd (by injection he)
        · rintro ⟨⟨j, c₀, p', hcj, hq, hmem⟩, hqne⟩
          by_cases hjd : j = d
          · subst hjd
            rw [hcd] at hcj
            have hce : c = c₀ := by injection hcj
            subst hce
            refine ⟨j, pruneAt (e :: rest) c, p', ?_, hq, ?_⟩
            · rw [childOfList_set_self hdlt]
              rfl
            · refine (hiff p' w).mpr ⟨hmem, ?_⟩
              intro he
              apply hqne
              rw [hq, he]
          · exact ⟨j, c₀, p', by rw [childOfList_set_ne hjd]; exact hcj, hq, hmem⟩
      · refine WFT.node _ (by rw [List.length_set]; exact hlen) ?_ ?_ ?_
        · intro n0 hn0
          have h0d : (0 : Nat) ≠ d := by omega
          rw [childOfList_set_ne h0d] at hn0
          exact h0 n0 hn0
        · intro i n0 hi hn0
          by_cases hid : i = d
          · rw [hid, childOfList_set_self hdlt] at hn0
            simp at hn0
            rw [← hn0]
            exact hwft'
          · rw [childOfList_set_ne hid] at hn0
            exact hsub i n0 hi hn0
        · intro i n0 hi hn0
          by_cases hid : i = d
          · rw [hid, childOfList_set_self hdlt] at hn0
            simp at hn0
            rw [← hn0]
            exact hlne
          · rw [childOfList_set_ne hid] at hn0
            exact hne i n0 hi hn0
    | false =>
      have hlz : leavesOf (pruneAt (e :: rest) c) = [] := by
        rw [hcs'] at hhc ⊢
        exact hasChild_false_leaves hhc
      rw [hprune, if_neg (by rw [hhc]; exact Bool.false_ne_true)]
      refine ⟨⟨_, rfl⟩, ?_, ?_⟩
      · intro q w
        rw [mem_leavesOf_internal, mem_leavesOf_internal]
        constructor
        · rintro ⟨j, c₀, p', hcj, hq, hmem⟩
          have hjd : j ≠ d := by
            intro he
            rw [he, childOfList_set_self hdlt] at hcj
            cases hcj
          rw [childOfList_set_ne hjd] at hcj
          refine ⟨⟨j, c₀, p', hcj, hq, hmem⟩, ?_⟩
          rw [hq]
          intro he
          exact hjd (by injection he)
        · rintro ⟨⟨j, c₀, p', hcj, hq, hmem⟩, hqne⟩
          by_cases hjd : j = d
          · exfalso
            subst hjd
            rw [hcd] at hcj
            have hce : c = c₀ := by injection hcj
            subst hce
            have hpne : p' ≠ e :: rest := by
              intro he
              apply hqne
              rw [hq, he]
            have := (hiff p' w).mpr ⟨hmem, hpne⟩
            rw [hlz] at this
            cases this
          · exact ⟨j, c₀, p', by rw [childOfList_set_ne hjd]; exact hcj, hq, hmem⟩
      · refine WFT.node _ (by rw [List.length_set]; exact hlen) ?_ ?_ ?_
        · intro n0 hn0
          have h0d : (0 : Nat) ≠ d := by omega
          rw [childOfList_set_ne h0d] at hn0
          exact h0 n0 hn0
        · intro i n0 hi hn0
          by_cases hid : i = d
          · rw [hid, childOfList_set_self hdlt] at hn0
            cases hn0
          · rw [childOfList_set_ne hid] at hn0
            exact hsub i n0 hi hn0
        · intro i n0 hi hn0
          by_cases hid : i = d
          · rw [hid, childOfList_set_self hdlt] at hn0
            cases hn0
          · rw [childOfList_set_ne hid] at hn0
            exact hne i n0 hi hn0

theorem mapM_digitOfE_good {v : String} (hv : GoodKey v) :
    ∀ l : List Nat, l.mapM (digitOfE v) = .ok (l.map (fun p => dseq v p))
  | [] => rfl
  | x :: xs => by
    rw [List.mapM_cons, digitOfE_good hv, mapM_digitOfE_good hv xs]
    rfl

theorem digitsUpTo_digits {v : String} (hv : GoodKey v) :
    digitsUpTo v (numDigitsOf v) = .ok (digitsK v) := by
  unfold digitsUpTo
  rw [mapM_digitOfE_good hv]
  have h0 := drop_digitsK_eq v 0
  rw [List.drop_zero] at h0
  rw [h0]
  congr 1
  apply List.map_congr_left
  intro t _
  rw [Nat.zero_add]

/-- A successful remove of a stored good key: reports removed with no error,
splices the key out of the overlay, decrements the size, prunes its leaf out
of the tree, and preserves the invariant. -/
theorem removeE_effect {t : GoTrie} (hInv : Inv t) {v : String}
    (hv : GoodKey v) (hvin : v ∈ t.overlay) :
    ∃ t', removeE t v = (t', true, none) ∧ Inv t' ∧ t.size = t'.size + 1 ∧
      (∀ y, y ∈ t'.overlay ↔ y ∈ t.overlay ∧ y ≠ v) := by
  have hne : t.overlay ≠ [] := List.ne_nil_of_mem hvin
  obtain ⟨r, hr, hw, hcorr⟩ := hInv.tree_spec hne
  have hsz : t.size ≠ 0 := by
    rw [hInv.size_eq]
    intro h
    exact hne (List.eq_nil_of_length_eq_zero h)
  have hszpos : 1 ≤ t.size := by omega
  obtain ⟨hfindM, -⟩ := findT_spec hr hsz hw hcorr hInv.good hv hne
  have hfind := hfindM hvin
  have hleaf : nodeAt r (digitsK v) = some (.leafN v) :=
    leaf_nodeAt ((hcorr _ _).mpr ⟨hvin, rfl⟩)
  have hroot : t.root.getD emptyRoot = r := by
    rw [hr]
    rfl
  obtain ⟨⟨cs', hcs'⟩, hiff, hwft'⟩ :=
    pruneAt_spec (digitsK v) r (digitsK_ne_nil v) hw hleaf
  refine ⟨⟨some (pruneAt (digitsK v) r), eraseFirst t.overlay v, t.size - 1⟩,
    ?_, ?_, by show t.size = t.size - 1 + 1; omega,
    mem_eraseFirst hInv.sorted hvin⟩
  · unfold removeE
    rw [if_neg hsz, hfind]
    show (match nodeAt (t.root.getD emptyRoot) (digitsK v) with
      | some (TNode.leafN w) =>
        (match digitsUpTo w (numDigitsOf w) with
         | .error e => ({ t with overlay := eraseFirst t.overlay w },
             false, some e)
         | .ok ds =>
           ({ root := some (pruneAt ds (t.root.getD emptyRoot)),
              overlay := eraseFirst t.overlay w,
              size := t.size - 1 }, true, none))
      | _ => (t, false, none) : GoTrie × Bool × Option GoErr) = _
    rw [hroot, hleaf]
    show (match digitsUpTo v (numDigitsOf v) with
      | .error e => ({ t with overlay := eraseFirst t.overlay v },
          false, some e)
      | .ok ds =>
        ({ root := some (pruneAt ds r),
           overlay := eraseFirst t.overlay v,
           size := t.size - 1 }, true, none) : GoTrie × Bool × Option GoErr) = _
    rw [digitsUpTo_digits hv]
  · constructor
    · intro k hk
      exact hInv.good k ((mem_eraseFirst hInv.sorted hvin k).mp hk).1
    · exact eraseFirst_pairwise hInv.sorted
    · show t.size - 1 = (eraseFirst t.overlay v).length
      have hl := length_eraseFirst hvin
      rw [hInv.size_eq]
      omega
    · intro _
      refine ⟨pruneAt (digitsK v) r, rfl, hwft', ?_⟩
      intro q w
      rw [hiff q w, hcorr q w]
      constructor
      · rintro ⟨⟨hwo, hq⟩, hqne⟩
        have hwne : w ≠ v := by
          intro he
          apply hqne
          rw [hq, he]
        exact ⟨(mem_eraseFirst hInv.sorted hvin w).mpr ⟨hwo, hwne⟩, hq⟩
      · rintro ⟨hwe, hq⟩
        obtain ⟨hwo, hwne⟩ := (mem_eraseFirst hInv.sorted hvin w).mp hwe
        refine ⟨⟨hwo, hq⟩, ?_⟩
        rw [hq]
        intro he
        exact hwne (digitsK_inj (hInv.good w hwo) hv he)

/-! ## A key all of whose digit places resolve is good -/

theorem good_of_digits {v : String} (htrim : goTrim v = v) (hne : v ≠ "")
    (hall : ∀ p, p < numDigitsOf v → ∃ d, digitOfE v p = .ok d) :
    GoodKey v := by
  have htd : trimChars v.data = v.data := congrArg String.data htrim
  have hdne : v.data ≠ [] := by
    intro hd
    apply hne
    cases v with
    | mk d =>
      have hd' : d = [] := hd
      rw [hd']
  have hdlen : 1 ≤ v.data.length := by
    cases hd : v.data with
    | nil => exact absurd hd hdne
    | cons _ _ => simp
  have hld : v.length = v.data.length := length_eq_data v
  have hlen97 : v.length ≤ 97 := by
    by_contra hgt
    obtain ⟨d, hd⟩ := hall (v.length - 1) (by unfold numDigitsOf; omega)
    unfold digitOfE at hd
    rw [htd] at hd
    rw [if_neg (by
      simp only [Bool.or_eq_true, decide_eq_true_eq, ge_iff_le]
      omega)] at hd
    rw [if_pos (by unfold digitizerBase; omega)] at hd
    cases hd
  have hmap : ∀ c ∈ v.data, isMapped c = true := by
    intro c hc
    obtain ⟨⟨p, hp⟩, hgc⟩ := List.mem_iff_get.mp hc
    obtain ⟨d, hd⟩ := hall p (by unfold numDigitsOf; omega)
    unfold digitOfE at hd
    rw [htd] at hd
    rw [if_neg (by
      simp only [Bool.or_eq_true, decide_eq_true_eq, ge_iff_le]
      omega)] at hd
    rw [if_neg (by unfold digitizerBase; omega)] at hd
    have hcd : v.data.getD p ' ' = c := by
      rw [List.getD_eq_getD_get?, List.get?_eq_get hp, hgc]
      rfl
    rw [hcd] at hd
    cases ha : asciiDigit c with
    | none => rw [ha] at hd; cases hd
    | some i =>
      unfold asciiDigit at ha
      by_cases hm : (32 ≤ c.toNat && c.toNat ≤ 126) = true
      · exact hm
      · rw [if_neg hm] at ha
        cases ha
  exact ⟨htrim, hne, hmap, hlen97⟩

/-- An error-free run of the `addNode` loop resolved every digit place from
its start position to the end of the key. -/
theorem addNodeLoop_ok_digits {v : String} {numD : Nat} :
    ∀ (fuel : Nat) (tree : TNode) (path : List Nat) (r' : TNode)
      (p1 : List Nat),
    addNodeLoop v numD fuel tree path = (r', p1, none) →
    ∀ p, path.length ≤ p → p < numD → ∃ d, digitOfE v p = .ok d := by
  intro fuel
  induction fuel with
  | zero =>
    intro tree path r' p1 h p hp hpn
    rw [addNodeLoop] at h
    by_cases hlt : path.length < numD - 1
    · rw [if_pos hlt] at h
      exfalso
      cases hdig : digitOfE v path.length with
      | error e =>
        rw [hdig] at h
        have h2 : (tree, path, some e) = (r', p1, (none : Option GoErr)) := h
        have h3 := congrArg (fun x : TNode × List Nat × Option GoErr => x.2.2) h2
        simp at h3
      | ok d =>
        rw [hdig] at h
        have h2 : (match addChildAt tree path d (.internal emptyChildren) with
            | Except.error e => (tree, path, some e)
            | Except.ok tree' => (tree, path, some GoErr.boundsErr)) =
            (r', p1, (none : Option GoErr)) := h
        cases hadd : addChildAt tree path d (.internal emptyChildren) with
        | error e =>
          rw [hadd] at h2
          have h3 : (tree, path, some e) = (r', p1, (none : Option GoErr)) := h2
          have h4 := congrArg (fun x : TNode × List Nat × Option GoErr => x.2.2) h3
          simp at h4
        | ok tree' =>
          rw [hadd] at h2
          have h3 : (tree, path, some GoErr.boundsErr) =
            (r', p1, (none : Option GoErr)) := h2
          have h4 := congrArg (fun x : TNode × List Nat × Option GoErr => x.2.2) h3
          simp at h4
    · rw [if_neg hlt] at h
      cases hdig : digitOfE v path.length with
      | error e =>
        rw [hdig] at h
        exfalso
        have h2 : (tree, path, some e) = (r', p1, (none : Option GoErr)) := h
        have h3 := congrArg (fun x : TNode × List Nat × Option GoErr => x.2.2) h2
        simp at h3
      | ok d =>
        have hpe : p = path.length := by omega
        exact ⟨d, hpe ▸ hdig⟩
  | succ f ih =>
    intro tree path r' p1 h p hp hpn
    rw [addNodeLoop] at h
    by_cases hlt : path.length < numD - 1
    · rw [if_pos hlt] at h
      cases hdig : digitOfE v path.length with
      | error e =>
        rw [hdig] at h
        exfalso
        have h2 : (tree, path, some e) = (r', p1, (none : Option GoErr)) := h
        have h3 := congrArg (fun x : TNode × List Nat × Option GoErr => x.2.2) h2
        simp at h3
      | ok d =>
        rw [hdig] at h
        have h2 : (match addChildAt tree path d (.internal emptyChildren) with
            | Except.error e => (tree, path, some e)
            | Except.ok tree' => addNodeLoop v numD f tree' (path ++ [d])) =
            (r', p1, (none : Option GoErr)) := h
        cases hadd : addChildAt tree path d (.internal emptyChildren) with
        | error e =>
          rw [hadd] at h2
          exfalso
          have h3 : (tree, path, some e) = (r', p1, (none : Option GoErr)) := h2
          have h4 := congrArg (fun x : TNode × List Nat × Option GoErr => x.2.2) h3
          simp at h4
        | ok tree' =>
          rw [hadd] at h2
          have h3 : addNodeLoop v numD f tree' (path ++ [d]) =
            (r', p1, none) := h2
          rcases Nat.eq_or_lt_of_le hp with hpe | hpgt
          · exact ⟨d, hpe ▸ hdig⟩
          · refine ih tree' (path ++ [d]) r' p1 h3 p ?_ hpn
            rw [List.length_append]
            simpa using hpgt
    · rw [if_neg hlt] at h
      cases hdig : digitOfE v path.length with
      | error e =>
        rw [hdig] at h
        exfalso
        have h2 : (tree, path, some e) = (r', p1, (none : Option GoErr)) := h
        have h3 := congrArg (fun x : TNode × List Nat × Option GoErr => x.2.2) h2
        simp at h3
      | ok d =>
        have hpe : p = path.length := by omega
        exact ⟨d, hpe ▸ hdig⟩

/-- An error-free run of the `find` descent resolved every digit place below
the length of the path it returns. -/
theorem findFrom_ok_digits {v : String} {numD : Nat} :
    ∀ (fuel : Nat) (n : TNode) (pos : Nat) (path : List Nat)
      (res : SearchResult) (path' : List Nat),
    pos = path.length →
    findFrom v numD fuel n pos path = .ok (res, path') →
    ∀ p, pos ≤ p → p < path'.length → ∃ d, digitOfE v p = .ok d := by
  intro fuel
  induction fuel with
  | zero =>
    intro n pos path res path' hpos h p hp hp'
    exfalso
    cases n with
    | leafN w =>
      rw [findFrom] at h
      by_cases hc : pos ≠ numD
      · rw [if_pos hc] at h
        have h2 : path' = path := (congrArg (fun x => x.2) (Except.ok.inj h)).symm
        rw [h2] at hp'
        omega
      · rw [if_neg hc] at h
        have h2 : path' = path := (congrArg (fun x => x.2) (Except.ok.inj h)).symm
        rw [h2] at hp'
        omega
    | internal cs =>
      rw [findFrom] at h
      by_cases hc : pos = numD
      · rw [if_pos hc] at h
        have h2 : path' = path := (congrArg (fun x => x.2) (Except.ok.inj h)).symm
        rw [h2] at hp'
        omega
      · rw [if_neg hc] at h
        cases hdig : digitOfE v pos with
        | error e => rw [hdig] at h; cases h
        | ok d =>
          rw [hdig] at h
          have h2 : (match childOfList cs d with
              | some c => Except.ok (SearchResult.Unmatched, path)
              | none => Except.ok (SearchResult.Unmatched, path)) =
              Except.ok (res, path') := h
          cases hch : childOfList cs d with
          | none =>
            rw [hch] at h2
            have h3 : path' = path :=
              (congrArg (fun x => x.2) (Except.ok.inj h2)).symm
            rw [h3] at hp'
            omega
          | some c =>
            rw [hch] at h2
            have h3 : path' = path :=
              (congrArg (fun x => x.2) (Except.ok.inj h2)).symm
            rw [h3] at hp'
            omega
  | succ f ih =>
    intro n pos path res path' hpos h p hp hp'
    cases n with
    | leafN w =>
      exfalso
      rw [findFrom] at h
      by_cases hc : pos ≠ numD
      · rw [if_pos hc] at h
        have h2 : path' = path := (congrArg (fun x => x.2) (Except.ok.inj h)).symm
        rw [h2] at hp'
        omega
      · rw [if_neg hc] at h
        have h2 : path' = path := (congrArg (fun x => x.2) (Except.ok.inj h)).symm
        rw [h2] at hp'
        omega
    | internal cs =>
      rw [findFrom] at h
      by_cases hc : pos = numD
      · rw [if_pos hc] at h
        exfalso
        have h2 : path' = path := (congrArg (fun x => x.2) (Except.ok.inj h)).symm
        rw [h2] at hp'
        omega
      · rw [if_neg hc] at h
        cases hdig : digitOfE v pos with
        | error e => rw [hdig] at h; cases h
        | ok d =>
          rw [hdig] at h
          have h2 : (match childOfList cs d with
              | some c => findFrom v numD f c (pos + 1) (path ++ [d])
              | none => Except.ok (SearchResult.Unmatched, path)) =
              Except.ok (res, path') := h
          cases hch : childOfList cs d with
          | none =>
            rw [hch] at h2
            exfalso
            have h3 : path' = path :=
              (congrArg (fun x => x.2) (Except.ok.inj h2)).symm
            rw [h3] at hp'
            omega
          | some c =>
            rw [hch] at h2
            rcases Nat.eq_or_lt_of_le hp with hpe | hpgt
            · exact ⟨d, hpe ▸ hdig⟩
            · refine ih c (pos + 1) (path ++ [d]) res path' ?_ h2 p ?_ hp'
              · rw [List.length_append, ← hpos]
                rfl
              · omega

/-! ## Invariant preservation for the public mutating operations -/

theorem nodeAt_leaf_mem {w : String} : ∀ {p : List Nat} {n : TNode},
    nodeAt n p = some (.leafN w) → (p, w) ∈ leavesOf n
  | [], n, h => by
    have hn : n = .leafN w := by injection h
    rw [hn, mem_leavesOf_leaf]
    exact ⟨rfl, rfl⟩
  | i :: rest, n, h => by
    rw [nodeAt_cons] at h
    cases n with
    | leafN u =>
      exfalso
      have h2 : (none : Option TNode) = some (TNode.leafN w) → False := by
        intro hx
        cases hx
      exact h2 h
    | internal cs =>
      cases hcc : childOfList cs i with
      | none =>
        exfalso
        rw [show (TNode.internal cs).childOf i = none from hcc] at h
        cases h
      | some c =>
        rw [show (TNode.internal cs).childOf i = some c from hcc] at h
        exact mem_leavesOf_internal.mpr ⟨i, c, rest, hcc, rfl,
          nodeAt_leaf_mem h⟩

/-- An error-free insert run can only happen on a good key: every digit place
was resolved either by the search or by the node-building loop. -/
theorem insertE_none_good {t t' : GoTrie} {v : String}
    (h : insertE t v = some (t', none)) (htrim : goTrim v = v)
    (hne : v ≠ "") : GoodKey v := by
  unfold insertE at h
  cases hf : findT t v with
  | error e =>
    rw [hf] at h
    have h2 : some ((t, some e) : GoTrie × Option GoErr) = some (t', none) := h
    have h3 := congrArg (fun x : GoTrie × Option GoErr => x.2) (Option.some.inj h2)
    simp at h3
  | ok rp =>
    obtain ⟨res, path₁⟩ := rp
    rw [hf] at h
    have key : (match addNodeLoop v (numDigitsOf v) (numDigitsOf v)
        (if t.size = 0 then emptyRoot else t.root.getD emptyRoot) path₁ with
      | (tree1, _, some e) => some ({ t with root := some tree1 }, some e)
      | (tree1, path1, none) =>
        match moveToPredecessor tree1 v .Matched path1 with
        | none => none
        | some (.error e) => some ({ t with root := some tree1 }, some e)
        | some (.ok (m, path2)) =>
          if m then
            match nodeAt tree1 path2 with
            | some (.leafN w) =>
              some ({ root := some tree1,
                      overlay := overlayInsertAfter t.overlay (some w) v,
                      size := t.size + 1 }, none)
            | _ => none
          else
            some ({ root := some tree1,
                    overlay := overlayInsertAfter t.overlay none v,
                    size := t.size + 1 }, none)) = some (t', none) →
        GoodKey v := by
      intro hkey
      cases hloop : addNodeLoop v (numDigitsOf v) (numDigitsOf v)
          (if t.size = 0 then emptyRoot else t.root.getD emptyRoot) path₁ with
      | mk tree1 rest =>
        obtain ⟨p1, oe⟩ := rest
        rw [hloop] at hkey
        cases oe with
        | some e =>
          exfalso
          have h2 : some (({ t with root := some tree1 }, some e) :
            GoTrie × Option GoErr) = some (t', none) := hkey
          have h3 := congrArg (fun x : GoTrie × Option GoErr => x.2)
            (Option.some.inj h2)
          simp at h3
        | none =>
          have hdig1 : ∀ p, p < path₁.length → ∃ d, digitOfE v p = .ok d := by
            unfold findT at hf
            rw [htrim, if_neg hne] at hf
            by_cases hsz : t.size = 0
            · rw [if_pos hsz] at hf
              have h2 : path₁ = ([] : List Nat) :=
                (congrArg (fun x : SearchResult × List Nat => x.2)
                  (Except.ok.inj hf)).symm
              intro p hp
              rw [h2] at hp
              simp at hp
            · rw [if_neg hsz] at hf
              intro p hp
              exact findFrom_ok_digits (numDigitsOf v) _ 0 [] res path₁ rfl hf
                p (by omega) hp
          have hdig2 := addNodeLoop_ok_digits (numDigitsOf v) _ path₁ tree1 p1 hloop
          refine good_of_digits htrim hne ?_
          intro p hp
          by_cases hplt : p < path₁.length
          · exact hdig1 p hplt
          · exact hdig2 p (by omega) hp
    cases res with
    | Matched =>
      exfalso
      have h2 : some ((t, some GoErr.prefixViolation) : GoTrie × Option GoErr) =
        some (t', none) := h
      have h3 := congrArg (fun x : GoTrie × Option GoErr => x.2)
        (Option.some.inj h2)
      simp at h3
    | Unmatched => exact key h
    | Prefix => exact key h
    | Extension => exact key h
    | Greater => exact key h
    | Less => exact key h

/-- A successful `Add` step preserves the invariant. -/
theorem Inv_addKeyE {t t' : GoTrie} (hInv : Inv t) {v : String}
    (h : addKeyE t v = some (t', none)) : Inv t' := by
  unfold addKeyE at h
  by_cases hb : goTrim v = ""
  · rw [if_pos hb] at h
    have h2 : t = t' := congrArg Prod.fst (Option.some.inj h)
    rw [← h2]
    exact hInv
  · rw [if_neg hb] at h
    have hgood : GoodKey (goTrim v) := insertE_none_good h (goTrim_idem v) hb
    by_cases hmem : goTrim v ∈ t.overlay
    · exfalso
      have hnel : t.overlay ≠ [] := List.ne_nil_of_mem hmem
      obtain ⟨r, hr, hw, hcorr⟩ := hInv.tree_spec hnel
      have hsz : t.size ≠ 0 := by
        rw [hInv.size_eq]
        intro hz
        exact hnel (List.eq_nil_of_length_eq_zero hz)
      have hfm := (findT_spec hr hsz hw hcorr hInv.good hgood hnel).1 hmem
      unfold insertE at h
      rw [hfm] at h
      have h2 : some ((t, some GoErr.prefixViolation) : GoTrie × Option GoErr) =
        some (t', none) := h
      have h3 := congrArg (fun x : GoTrie × Option GoErr => x.2)
        (Option.some.inj h2)
      simp at h3
    · obtain ⟨t'', heq, hInv'', -, -⟩ := insertE_effect hInv hgood hmem
      rw [heq] at h
      have h2 : t'' = t' := congrArg Prod.fst (Option.some.inj h)
      rw [← h2]
      exact hInv''

/-- A successful (error-free) `Remove` step preserves the invariant, whether
or not anything was removed. -/
theorem Inv_removeE {t t' : GoTrie} (hInv : Inv t) {v : String} {b : Bool}
    (h : removeE t v = (t', b, none)) : Inv t' := by
  unfold removeE at h
  by_cases hsz : t.size = 0
  · rw [if_pos hsz] at h
    exfalso
    have h3 := congrArg (fun x : GoTrie × Bool × Option GoErr => x.2.2) h
    simp at h3
  · rw [if_neg hsz] at h
    have notm : ((t, false, none) : GoTrie × Bool × Option GoErr) =
        (t', b, none) → Inv t' := by
      intro h2
      have h3 : t = t' := congrArg (fun x : GoTrie × Bool × Option GoErr => x.1) h2
      rw [← h3]
      exact hInv
    cases hf : findT t v with
    | error e =>
      rw [hf] at h
      exact notm h
    | ok rp =>
      obtain ⟨res, path⟩ := rp
      rw [hf] at h
      cases res with
      | Unmatched => exact notm h
      | Prefix => exact notm h
      | Extension => exact notm h
      | Greater => exact notm h
      | Less => exact notm h
      | Matched =>
        have h1 : (match nodeAt (t.root.getD emptyRoot) path with
          | some (TNode.leafN w) =>
            (match digitsUpTo w (numDigitsOf w) with
             | .error e => ({ t with overlay := eraseFirst t.overlay w },
                 false, some e)
             | .ok ds =>
               ({ root := some (pruneAt ds (t.root.getD emptyRoot)),
                  overlay := eraseFirst t.overlay w,
                  size := t.size - 1 }, true, none))
          | _ => (t, false, none) : GoTrie × Bool × Option GoErr) =
          (t', b, none) := h
        cases hn : nodeAt (t.root.getD emptyRoot) path with
        | none =>
          rw [hn] at h1
          exact notm h1
        | some nd =>
          cases nd with
          | internal cs =>
            rw [hn] at h1
            exact notm h1
          | leafN w =>
            rw [hn] at h1
            have hnel : t.overlay ≠ [] := by
              rw [hInv.size_eq] at hsz
              intro hz
              apply hsz
              rw [hz]
              rfl
            obtain ⟨r, hr, hw, hcorr⟩ := hInv.tree_spec hnel
            have hroot : t.root.getD emptyRoot = r := by
              rw [hr]
              rfl
            rw [hroot] at h1
            have hmemw : (path, w) ∈ leavesOf r :=
              nodeAt_leaf_mem (hroot ▸ hn)
            obtain ⟨hwov, hpeq⟩ := (hcorr path w).mp hmemw
            have hgw : GoodKey w := hInv.good w hwov
            have h1b : (match digitsUpTo w (numDigitsOf w) with
              | .error e => ({ t with overlay := eraseFirst t.overlay w },
                  false, some e)
              | .ok ds =>
                (⟨some (pruneAt ds r), eraseFirst t.overlay w, t.size - 1⟩,
                  true, none) : GoTrie × Bool × Option GoErr) =
                (t', b, none) := h1
            rw [digitsUpTo_digits hgw] at h1b
            have h2 : ((⟨some (pruneAt (digitsK w) r), eraseFirst t.overlay w,
                t.size - 1⟩, true, none) : GoTrie × Bool × Option GoErr) =
                (t', b, none) := h1b
            have ht' : (⟨some (pruneAt (digitsK w) r), eraseFirst t.overlay w,
                t.size - 1⟩ : GoTrie) = t' :=
              congrArg (fun x : GoTrie × Bool × Option GoErr => x.1) h2
            rw [← ht']
            have hleaf : nodeAt r (digitsK w) = some (.leafN w) := by
              rw [← hpeq]
              exact hroot ▸ hn
            obtain ⟨⟨cs', hcs'⟩, hiff, hwft'⟩ :=
              pruneAt_spec (digitsK w) r (digitsK_ne_nil w) hw hleaf
            constructor
            · intro k hk
              exact hInv.good k
                ((mem_eraseFirst hInv.sorted hwov k).mp hk).1
            · exact eraseFirst_pairwise hInv.sorted
            · show t.size - 1 = (eraseFirst t.overlay w).length
              have hl := length_eraseFirst hwov
              rw [hInv.size_eq]
              omega
            · intro _
              refine ⟨pruneAt (digitsK w) r, rfl, hwft', ?_⟩
              intro q y
              rw [hiff q y, hcorr q y]
              constructor
              · rintro ⟨⟨hyo, hq⟩, hqne⟩
                have hyne : y ≠ w := by
                  intro he
                  apply hqne
                  rw [hq, he]
                exact ⟨(mem_eraseFirst hInv.sorted hwov y).mpr ⟨hyo, hyne⟩, hq⟩
              · rintro ⟨hye, hq⟩
                obtain ⟨hyo, hyne⟩ := (mem_eraseFirst hInv.sorted hwov y).mp hye
                refine ⟨⟨hyo, hq⟩, ?_⟩
                rw [hq]
                intro he
                exact hyne (digitsK_inj (hInv.good y hyo) hgw he)

/-- Every reachable trie state satisfies the invariant. -/
theorem ReachOk_Inv : ∀ {t : GoTrie}, ReachOk t → Inv t := by
  intro t h
  induction h with
  | base =>
    refine ⟨?_, ?_, rfl, ?_⟩
    · intro k hk
      cases hk
    · exact List.Pairwise.nil
    · intro hne
      exact absurd rfl hne
  | add _ hstep ih => exact Inv_addKeyE ih hstep
  | rem _ hstep ih => exact Inv_removeE ih hstep

/-! ## Order facts about the sorted overlay list -/

theorem headI_mem {l : List String} (h : l ≠ []) : l.headI ∈ l := by
  cases l with
  | nil => exact absurd rfl h
  | cons a l => exact List.mem_cons_self _ _

theorem sorted_head_min {l : List String} (hs : l.Pairwise digitLt) :
    ∀ x ∈ l, x = l.headI ∨ digitLt l.headI x := by
  cases l with
  | nil => intro x hx; cases hx
  | cons a l =>
    rw [List.pairwise_cons] at hs
    intro x hx
    rcases List.mem_cons.mp hx with h | h
    · exact Or.inl h
    · exact Or.inr (hs.1 x h)

theorem getLastD_irrel : ∀ (a : String) (l : List String) (d d' : String),
    (a :: l).getLastD d = (a :: l).getLastD d'
  | _, [], _, _ => rfl
  | a, b :: l, d, d' => by
    rw [List.getLastD_cons d a (b :: l), List.getLastD_cons d' a (b :: l)]

theorem getLastD_mem : ∀ (a : String) (l : List String) (d : String),
    (a :: l).getLastD d ∈ a :: l
  | _, [], _ => List.mem_cons_self _ _
  | a, b :: l, d => by
    rw [List.getLastD_cons d a (b :: l)]
    exact List.mem_cons_of_mem a (getLastD_mem b l a)

theorem sorted_last_max {l : List String} (hs : l.Pairwise digitLt) (d : String) :
    ∀ x ∈ l, x = l.getLastD d ∨ digitLt x (l.getLastD d) := by
  induction l generalizing d with
  | nil => intro x hx; cases hx
  | cons a l ih =>
    rw [List.pairwise_cons] at hs
    intro x hx
    cases l with
    | nil =>
      rcases List.mem_cons.mp hx with h | h
      · exact Or.inl h
      · cases h
    | cons b l' =>
      rw [List.getLastD_cons d a (b :: l')]
      rcases List.mem_cons.mp hx with h | h
      · right
        rw [h]
        exact hs.1 _ (getLastD_mem b l' a)
      · exact ih hs.2 a x h

/-- `leaf.Next()` of the greatest key strictly below `v` is `v` itself: the
two are adjacent in the sorted overlay. -/
theorem overlayNextOf_of_greatest_below :
    ∀ {l : List String} {w v : String}, l.Pairwise digitLt → w ∈ l → v ∈ l →
    digitLt w v → (∀ x ∈ l, digitLt x v → x = w ∨ digitLt x w) →
    overlayNextOf l w = some v
  | [], w, v, _, hw, _, _, _ => by cases hw
  | a :: l, w, v, hs, hw, hv, hwv, hmax => by
    rw [List.pairwise_cons] at hs
    by_cases haw : a = w
    · subst haw
      have hvne : v ≠ a := fun he => digitLt_irrefl v (he ▸ hwv)
      have hvl : v ∈ l := by
        rcases List.mem_cons.mp hv with h | h
        · exact absurd h hvne
        · exact h
      cases l with
      | nil => cases hvl
      | cons b l' =>
        show (if a = a then some b else overlayNextOf (b :: l') a) = some v
        rw [if_pos rfl]
        by_cases hbv : b = v
        · rw [hbv]
        · exfalso
          have hab : digitLt a b := hs.1 b (List.mem_cons_self _ _)
          have hv' : v ∈ l' := by
            rcases List.mem_cons.mp hvl with h | h
            · exact absurd h.symm hbv
            · exact h
          have hbv' : digitLt b v := by
            have h2 := hs.2
            rw [List.pairwise_cons] at h2
            exact h2.1 v hv'
          rcases hmax b (List.mem_cons_of_mem a (List.mem_cons_self _ _)) hbv'
            with h | h
          · exact digitLt_irrefl b (h ▸ hab)
          · exact digitLt_asymm hab h
    · have hwl : w ∈ l := by
        rcases List.mem_cons.mp hw with h | h
        · exact absurd h.symm haw
        · exact h
      have hvne : v ≠ a := by
        intro he
        exact digitLt_asymm (hs.1 w hwl) (he ▸ hwv)
      have hvl : v ∈ l := by
        rcases List.mem_cons.mp hv with h | h
        · exact absurd h hvne
        · exact h
      cases l with
      | nil => cases hwl
      | cons b l' =>
        show (if a = w then some b else overlayNextOf (b :: l') w) = some v
        rw [if_neg haw]
        exact overlayNextOf_of_greatest_below hs.2 hwl hvl hwv
          (fun x hx hxv => hmax x (List.mem_cons_of_mem a hx) hxv)

/-- Conversely, `leaf.Next()` points at the adjacent key: the linked key is
strictly above, and nothing stored sits in between. -/
theorem greatest_below_of_overlayNextOf :
    ∀ {l : List String} {w s : String}, l.Pairwise digitLt → w ∈ l →
    overlayNextOf l w = some s →
    s ∈ l ∧ digitLt w s ∧ (∀ x ∈ l, digitLt x s → x = w ∨ digitLt x w)
  | [], w, s, _, hw, _ => by cases hw
  | [a], w, s, _, hw, h => by
    exfalso
    have h2 : (if a = w then (none : Option String) else none) = some s := h
    by_cases haw : a = w
    · rw [if_pos haw] at h2
      cases h2
    · rw [if_neg haw] at h2
      cases h2
  | a :: b :: l, w, s, hs, hw, h => by
    rw [List.pairwise_cons] at hs
    have h2 : (if a = w then some b else overlayNextOf (b :: l) w) = some s := h
    by_cases haw : a = w
    · rw [if_pos haw] at h2
      have hbs : b = s := by injection h2
      subst hbs
      subst haw
      refine ⟨List.mem_cons_of_mem a (List.mem_cons_self _ _),
        hs.1 b (List.mem_cons_self _ _), ?_⟩
      intro x hx hxs
      rcases List.mem_cons.mp hx with hxa | hxbl
      · exact Or.inl hxa
      · exfalso
        rcases List.mem_cons.mp hxbl with hxb | hxl
        · exact digitLt_irrefl b (hxb ▸ hxs)
        · have h3 := hs.2
          rw [List.pairwise_cons] at h3
          exact digitLt_asymm (h3.1 x hxl) hxs
    · rw [if_neg haw] at h2
      have hwl : w ∈ b :: l := by
        rcases List.mem_cons.mp hw with h' | h'
        · exact absurd h'.symm haw
        · exact h'
      obtain ⟨hsl, hws, hmax⟩ :=
        greatest_below_of_overlayNextOf hs.2 hwl h2
      refine ⟨List.mem_cons_of_mem a hsl, hws, ?_⟩
      intro x hx hxs
      rcases List.mem_cons.mp hx with hxa | hxbl
      · right
        rw [hxa]
        exact hs.1 w hwl
      · exact hmax x hxbl hxs

/-- `leaf.Next()` of a key with nothing above it is the tail sentinel. -/
theorem overlayNextOf_none_of_max :
    ∀ {l : List String} {w : String}, l.Pairwise digitLt → w ∈ l →
    (∀ y ∈ l, ¬ digitLt w y) → overlayNextOf l w = none
  | [], w, _, hw, _ => by cases hw
  | [a], w, _, _, _ => by
    show (if a = w then (none : Option String) else none) = none
    by_cases haw : a = w
    · rw [if_pos haw]
    · rw [if_neg haw]
  | a :: b :: l, w, hs, hw, hmaxw => by
    rw [List.pairwise_cons] at hs
    show (if a = w then some b else overlayNextOf (b :: l) w) = none
    by_cases haw : a = w
    · exfalso
      subst haw
      exact hmaxw b (List.mem_cons_of_mem a (List.mem_cons_self _ _))
        (hs.1 b (List.mem_cons_self _ _))
    · rw [if_neg haw]
      have hwl : w ∈ b :: l := by
        rcases List.mem_cons.mp hw with h' | h'
        · exact absurd h'.symm haw
        · exact h'
      exact overlayNextOf_none_of_max hs.2 hwl
        (fun y hy => hmaxw y (List.mem_cons_of_mem a hy))

/-- A key with something above it has a live `Next()` link. -/
theorem overlayNextOf_some_of_not_max :
    ∀ {l : List String} {w : String}, l.Pairwise digitLt → w ∈ l →
    ∀ {y : String}, y ∈ l → digitLt w y → ∃ s, overlayNextOf l w = some s
  | [], w, _, hw, _, _, _ => by cases hw
  | [a], w, _, hw, y, hy, hwy => by
    exfalso
    have hwa : w = a := by
      rcases List.mem_cons.mp hw with h' | h'
      · exact h'
      · cases h'
    have hya : y = a := by
      rcases List.mem_cons.mp hy with h' | h'
      · exact h'
      · cases h'
    rw [hwa, hya] at hwy
    exact digitLt_irrefl a hwy
  | a :: b :: l, w, hs, hw, y, hy, hwy => by
    rw [List.pairwise_cons] at hs
    show ∃ s, (if a = w then some b else overlayNextOf (b :: l) w) = some s
    by_cases haw : a = w
    · exact ⟨b, by rw [if_pos haw]⟩
    · have hwl : w ∈ b :: l := by
        rcases List.mem_cons.mp hw with h' | h'
        · exact absurd h'.symm haw
        · exact h'
      have hyl : y ∈ b :: l := by
        rcases List.mem_cons.mp hy with h' | h'
        · exact absurd (h' ▸ hwy) (digitLt_asymm (hs.1 w hwl))
        · exact h'
      obtain ⟨s, hsome⟩ := overlayNextOf_some_of_not_max hs.2 hwl hyl hwy
      exact ⟨s, by rw [if_neg haw]; exact hsome⟩

/-- `Predecessor` on a stored key: `NotFound` when nothing is below it,
otherwise the greatest stored key strictly below it. -/
theorem predT_matched {t : GoTrie} (hInv : Inv t) {v : String}
    (hvin : v ∈ t.overlay) :
    (predecessorT t v = some (.error .notFound) ∧
      ∀ k ∈ t.overlay, ¬ digitLt k v) ∨
    (∃ w, predecessorT t v = some (.ok w) ∧ w ∈ t.overlay ∧ digitLt w v ∧
      ∀ k ∈ t.overlay, digitLt k v → k = w ∨ digitLt k w) := by
  have hv : GoodKey v := hInv.good v hvin
  have hne : t.overlay ≠ [] := List.ne_nil_of_mem hvin
  obtain ⟨r, hr, hw, hcorr⟩ := hInv.tree_spec hne
  have hsz : t.size ≠ 0 := by
    rw [hInv.size_eq]
    intro hz
    exact hne (List.eq_nil_of_length_eq_zero hz)
  have hfind := (findT_spec hr hsz hw hcorr hInv.good hv hne).1 hvin
  have hroot : t.root.getD emptyRoot = r := by
    rw [hr]
    rfl
  have hcomp : predecessorT t v =
      (match moveToPredecessor r v .Matched (digitsK v) with
      | none => none
      | some (.error e) => some (.error e)
      | some (.ok (m, p)) =>
        if m then
          match nodeAt r p with
          | some (.leafN w) => some (.ok w)
          | _ => none
        else some (.error .notFound)) := by
    unfold predecessorT
    rw [if_neg hsz, hv.1, if_neg hv.2.1, hfind]
    show (match moveToPredecessor (t.root.getD emptyRoot) v .Matched
        (digitsK v) with
      | none => none
      | some (.error e) => some (.error e)
      | some (.ok (m, p)) =>
        if m then
          match nodeAt (t.root.getD emptyRoot) p with
          | some (.leafN w) => some (.ok w)
          | _ => none
        else some (.error .notFound) : Option (Except GoErr String)) = _
    rw [hroot]
  rcases moveToPred_found hw hcorr hInv.good hv hvin with
    ⟨hpred, hno⟩ | ⟨p, w2, hpred, hnp, hwK, hweq, hwv, hmax⟩
  · left
    refine ⟨?_, hno⟩
    rw [hcomp, hpred]
    rfl
  · right
    refine ⟨w2, ?_, hwK, hwv, hmax⟩
    rw [hcomp, hpred]
    show (match nodeAt r p with
      | some (.leafN w) => some (Except.ok w)
      | _ => none : Option (Except GoErr String)) = _
    rw [hnp]

/-- `Successor` on a stored key follows the overlay `Next` link. -/
theorem succT_matched {t : GoTrie} (hInv : Inv t) {v : String}
    (hvin : v ∈ t.overlay) :
    successorT t v =
      (match overlayNextOf t.overlay v with
      | some s => some (.ok s)
      | none => some (.error .notFound)) := by
  have hv : GoodKey v := hInv.good v hvin
  have hne : t.overlay ≠ [] := List.ne_nil_of_mem hvin
  obtain ⟨r, hr, hw, hcorr⟩ := hInv.tree_spec hne
  have hsz : t.size ≠ 0 := by
    rw [hInv.size_eq]
    intro hz
    exact hne (List.eq_nil_of_length_eq_zero hz)
  have hfind := (findT_spec hr hsz hw hcorr hInv.good hv hne).1 hvin
  have hroot : t.root.getD emptyRoot = r := by
    rw [hr]
    rfl
  have hleaf : nodeAt r (digitsK v) = some (.leafN v) :=
    leaf_nodeAt ((hcorr _ _).mpr ⟨hvin, rfl⟩)
  unfold successorT
  rw [if_neg hsz, hv.1, if_neg hv.2.1, hfind]
  show (match nodeAt (t.root.getD emptyRoot) (digitsK v) with
    | some (.leafN w) =>
      (match overlayNextOf t.overlay w with
       | some s => some (Except.ok s)
       | none => some (Except.error GoErr.notFound))
    | _ => none : Option (Except GoErr String)) = _
  rw [hroot, hleaf]

/-! # Claims -/

/-- C1: for every sequence of successful `Add`/`Remove` operations starting
from `New()` with the default (prefix-free) digitizer, `Entries()` and
`Values()` — i.e. a head-to-tail walk of the overlay list — return the
stored keys in strictly ascending digit order. -/
theorem C1_sorted_invariant {t : GoTrie} (h : ReachOk t) :
    (entriesT t).Pairwise digitLt ∧ (valuesT t).Pairwise digitLt ∧
    t.overlay.Pairwise digitLt :=
  ⟨(ReachOk_Inv h).sorted, (ReachOk_Inv h).sorted, (ReachOk_Inv h).sorted⟩

theorem C1_sorted_invariant_witness :
    (entriesT twoKeyTrie).Pairwise digitLt ∧
    (valuesT twoKeyTrie).Pairwise digitLt ∧
    twoKeyTrie.overlay.Pairwise digitLt :=
  C1_sorted_invariant
    (ReachOk.add
      (ReachOk.add ReachOk.base
        (show addKeyE emptyTrie "ab" = some (oneKeyTrie, none) from rfl))
      (show addKeyE oneKeyTrie "ba" = some (twoKeyTrie, none) from rfl))


/-- C3: round trip on a reachable trie, for any non-blank key of supported
characters (trimmed, mapped, and short enough to digitize): after a
successful `Add` the key searches as `Matched` and `Contains` is true; after
a successful removal (`removed = true`, no error) the key no longer searches
as `Matched` and `Contains` is false. -/
theorem C3_round_trip {t : GoTrie} (hreach : ReachOk t) {v : String}
    (hv : GoodKey v) :
    (∀ t', addKeyE t v = some (t', none) →
      findT t' v = .ok (.Matched, digitsK v) ∧ containsT t' v = true) ∧
    (∀ t', removeE t v = (t', true, none) →
      containsT t' v = false ∧
      ∀ res path, findT t' v = .ok (res, path) → res ≠ .Matched) := by
  have hInv := ReachOk_Inv hreach
  constructor
  · intro t' hadd
    have hins : insertE t v = some (t', none) := by
      unfold addKeyE at hadd
      rw [hv.1, if_neg hv.2.1] at hadd
      exact hadd
    by_cases hmem : v ∈ t.overlay
    · exfalso
      have hnel : t.overlay ≠ [] := List.ne_nil_of_mem hmem
      obtain ⟨r, hr, hw, hcorr⟩ := hInv.tree_spec hnel
      have hsz : t.size ≠ 0 := by
        rw [hInv.size_eq]
        intro hz
        exact hnel (List.eq_nil_of_length_eq_zero hz)
      have hfm := (findT_spec hr hsz hw hcorr hInv.good hv hnel).1 hmem
      unfold insertE at hins
      rw [hfm] at hins
      have h2 : some ((t, some GoErr.prefixViolation) : GoTrie × Option GoErr) =
        some (t', none) := hins
      have h3 := congrArg (fun x : GoTrie × Option GoErr => x.2)
        (Option.some.inj h2)
      simp at h3
    · obtain ⟨t'', heq, hInv'', -, hmem'⟩ := insertE_effect hInv hv hmem
      rw [heq] at hins
      have he : t'' = t' := congrArg Prod.fst (Option.some.inj hins)
      subst he
      have hvin' : v ∈ t''.overlay := (hmem' v).mpr (Or.inr rfl)
      have hne' : t''.overlay ≠ [] := List.ne_nil_of_mem hvin'
      obtain ⟨r', hr', hw', hcorr'⟩ := hInv''.tree_spec hne'
      have hsz' : t''.size ≠ 0 := by
        rw [hInv''.size_eq]
        intro hz
        exact hne' (List.eq_nil_of_length_eq_zero hz)
      have hfind := (findT_spec hr' hsz' hw' hcorr' hInv''.good hv hne').1 hvin'
      refine ⟨hfind, ?_⟩
      unfold containsT
      rw [if_neg hsz', hv.1, if_neg hv.2.1, hfind]
  · intro t' hrem
    have hvin : v ∈ t.overlay := by
      by_contra hnot
      unfold removeE at hrem
      by_cases hsz : t.size = 0
      · rw [if_pos hsz] at hrem
        have h3 := congrArg (fun x : GoTrie × Bool × Option GoErr => x.2.2) hrem
        simp at h3
      · rw [if_neg hsz] at hrem
        have hnel : t.overlay ≠ [] := by
          rw [hInv.size_eq] at hsz
          intro hz
          apply hsz
          rw [hz]
          rfl
        obtain ⟨r, hr, hw, hcorr⟩ := hInv.tree_spec hnel
        obtain ⟨j, hj, hfind, -⟩ :=
          (findT_spec hr hsz hw hcorr hInv.good hv hnel).2 hnot
        rw [hfind] at hrem
        have h2 : ((t, false, none) : GoTrie × Bool × Option GoErr) =
          (t', true, none) := hrem
        have h3 := congrArg (fun x : GoTrie × Bool × Option GoErr => x.2.1) h2
        simp at h3
    obtain ⟨t'', heq, hInv'', -, hmem'⟩ := removeE_effect hInv hv hvin
    rw [heq] at hrem
    have he : t'' = t' :=
      congrArg (fun x : GoTrie × Bool × Option GoErr => x.1) hrem
    subst he
    have hnot' : v ∉ t''.overlay := fun hin => ((hmem' v).mp hin).2 rfl
    constructor
    · unfold containsT
      by_cases hsz' : t''.size = 0
      · rw [if_pos hsz']
      · rw [if_neg hsz', hv.1, if_neg hv.2.1]
        have hne' : t''.overlay ≠ [] := by
          rw [hInv''.size_eq] at hsz'
          intro hz
          apply hsz'
          rw [hz]
          rfl
        obtain ⟨r', hr', hw', hcorr'⟩ := hInv''.tree_spec hne'
        obtain ⟨j, hj, hfind', -⟩ :=
          (findT_spec hr' hsz' hw' hcorr' hInv''.good hv hne').2 hnot'
        rw [hfind']
    · intro res path hfindr
      by_cases hsz' : t''.size = 0
      · unfold findT at hfindr
        rw [hv.1, if_neg hv.2.1, if_pos hsz'] at hfindr
        have hres : SearchResult.Unmatched = res :=
          congrArg (fun x : SearchResult × List Nat => x.1)
            (Except.ok.inj hfindr)
        rw [← hres]
        intro he
        cases he
      · have hne' : t''.overlay ≠ [] := by
          rw [hInv''.size_eq] at hsz'
          intro hz
          apply hsz'
          rw [hz]
          rfl
        obtain ⟨r', hr', hw', hcorr'⟩ := hInv''.tree_spec hne'
        obtain ⟨j, hj, hfind', -⟩ :=
          (findT_spec hr' hsz' hw' hcorr' hInv''.good hv hne').2 hnot'
        rw [hfind'] at hfindr
        have hres : SearchResult.Unmatched = res :=
          congrArg (fun x : SearchResult × List Nat => x.1)
            (Except.ok.inj hfindr)
        rw [← hres]
        intro he
        cases he

theorem C3_round_trip_witness :
    GoodKey "ba" ∧
    ((∀ t', addKeyE oneKeyTrie "ba" = some (t', none) →
      findT t' "ba" = .ok (.Matched, digitsK "ba") ∧
      containsT t' "ba" = true) ∧
    (∀ t', removeE oneKeyTrie "ba" = (t', true, none) →
      containsT t' "ba" = false ∧
      ∀ res path, findT t' "ba" = .ok (res, path) → res ≠ .Matched)) :=
  ⟨⟨rfl, by decide, by decide, by decide⟩,
    C3_round_trip
      (ReachOk.add ReachOk.base
        (show addKeyE emptyTrie "ab" = some (oneKeyTrie, none) from rfl))
      ⟨rfl, by decide, by decide, by decide⟩⟩

/-- C7: on every non-empty reachable trie, `Predecessor` of the minimum
stored key and `Successor` of the maximum stored key both fail with
`NotFound`; for every stored key that is neither the minimum nor the
maximum, the two are mutually consistent: the successor of its predecessor
and the predecessor of its successor are the key itself. -/
theorem C7_pred_succ {t : GoTrie} (hreach : ReachOk t)
    (hne : t.overlay ≠ []) :
    (∀ m, minT t = .ok m → predecessorT t m = some (.error .notFound)) ∧
    (∀ M, maxT t = .ok M → successorT t M = some (.error .notFound)) ∧
    (∀ k, k ∈ t.overlay → (∀ m, minT t = .ok m → k ≠ m) →
      (∀ M, maxT t = .ok M → k ≠ M) →
      (∃ p, predecessorT t k = some (.ok p) ∧
        successorT t p = some (.ok k)) ∧
      (∃ s, successorT t k = some (.ok s) ∧
        predecessorT t s = some (.ok k))) := by
  have hInv := ReachOk_Inv hreach
  have hsz : t.size ≠ 0 := by
    rw [hInv.size_eq]
    intro hz
    exact hne (List.eq_nil_of_length_eq_zero hz)
  have hminv : minT t = .ok t.overlay.headI := by
    unfold minT
    rw [if_neg hsz]
  have hmaxv : maxT t = .ok (t.overlay.getLastD "") := by
    unfold maxT
    rw [if_neg hsz]
  have hlastmem : t.overlay.getLastD "" ∈ t.overlay := by
    cases hL : t.overlay with
    | nil => exact absurd hL hne
    | cons a l =>
      rw [← hL]
      rw [hL]
      exact getLastD_mem a l ""
  have hlastmax : ∀ y ∈ t.overlay, ¬ digitLt (t.overlay.getLastD "") y := by
    intro y hy hlt
    rcases sorted_last_max hInv.sorted "" y hy with h | h
    · exact digitLt_irrefl _ (h ▸ hlt)
    · exact digitLt_asymm h hlt
  refine ⟨?_, ?_, ?_⟩
  · intro m hm
    have hme : t.overlay.headI = m := by
      rw [hminv] at hm
      exact Except.ok.inj hm
    have hmem : t.overlay.headI ∈ t.overlay := headI_mem hne
    rcases predT_matched hInv hmem with ⟨hp, -⟩ | ⟨w, hp, hwK, hwv, -⟩
    · rw [← hme]
      exact hp
    · exfalso
      rcases sorted_head_min hInv.sorted w hwK with h | h
      · exact digitLt_irrefl _ (h ▸ hwv)
      · exact digitLt_asymm h hwv
  · intro M hM
    have hMe : t.overlay.getLastD "" = M := by
      rw [hmaxv] at hM
      exact Except.ok.inj hM
    rw [← hMe, succT_matched hInv hlastmem,
      overlayNextOf_none_of_max hInv.sorted hlastmem hlastmax]
  · intro k hk hkm hkM
    have hkh : k ≠ t.overlay.headI := hkm _ hminv
    have hkl : k ≠ t.overlay.getLastD "" := hkM _ hmaxv
    have hheadlt : digitLt t.overlay.headI k := by
      rcases sorted_head_min hInv.sorted k hk with h | h
      · exact absurd h hkh
      · exact h
    have hklast : digitLt k (t.overlay.getLastD "") := by
      rcases sorted_last_max hInv.sorted "" k hk with h | h
      · exact absurd h hkl
      · exact h
    constructor
    · rcases predT_matched hInv hk with ⟨-, hno⟩ | ⟨w, hp, hwK, hwv, hmax⟩
      · exact absurd hheadlt (hno _ (headI_mem hne))
      · refine ⟨w, hp, ?_⟩
        rw [succT_matched hInv hwK,
          overlayNextOf_of_greatest_below hInv.sorted hwK hk hwv hmax]
    · obtain ⟨s, hsome⟩ := overlayNextOf_some_of_not_max hInv.sorted hk
        hlastmem hklast
      obtain ⟨hsl, hks, hmaxs⟩ :=
        greatest_below_of_overlayNextOf hInv.sorted hk hsome
      refine ⟨s, ?_, ?_⟩
      · rw [succT_matched hInv hk, hsome]
      · rcases predT_matched hInv hsl with ⟨-, hno⟩ | ⟨w2, hp2, hw2K, hw2s, hmax2⟩
        · exact absurd hks (hno k hk)
        · have hw2k : w2 = k := by
            rcases hmax2 k hk hks with h | h
            · exact h.symm
            · rcases hmaxs w2 hw2K hw2s with h' | h'
              · exact h'
              · exact absurd h (digitLt_asymm h')
          rw [hw2k] at hp2
          exact hp2

theorem C7_pred_succ_witness :
    twoKeyTrie.overlay ≠ [] ∧
    ((∀ m, minT twoKeyTrie = .ok m →
      predecessorT twoKeyTrie m = some (.error .notFound)) ∧
    (∀ M, maxT twoKeyTrie = .ok M →
      successorT twoKeyTrie M = some (.error .notFound)) ∧
    (∀ k, k ∈ twoKeyTrie.overlay →
      (∀ m, minT twoKeyTrie = .ok m → k ≠ m) →
      (∀ M, maxT twoKeyTrie = .ok M → k ≠ M) →
      (∃ p, predecessorT twoKeyTrie k = some (.ok p) ∧
        successorT twoKeyTrie p = some (.ok k)) ∧
      (∃ s, successorT twoKeyTrie k = some (.ok s) ∧
        predecessorT twoKeyTrie s = some (.ok k)))) :=
  ⟨by simp [twoKeyTrie],
    C7_pred_succ
      (ReachOk.add
        (ReachOk.add ReachOk.base
          (show addKeyE emptyTrie "ab" = some (oneKeyTrie, none) from rfl))
        (show addKeyE oneKeyTrie "ba" = some (twoKeyTrie, none) from rfl))
      (by simp [twoKeyTrie])⟩

/-- C2 (counterexample): inserting `"ab"` and then `"abc"` into a default
trie does NOT fail — both inserts succeed and the size becomes `2` (the
end-of-key digit keeps the two digit sequences prefix-free), contradicting
the claim that the second insert fails with a prefix violation and leaves the
size unchanged. -/
theorem C2_counterexample :
    ((addKeyE emptyTrie "ab").bind fun p => addKeyE p.1 "abc").map
        (fun q => (q.1.overlay, q.1.size, q.2)) =
      some (["ab", "abc"], 2, none) := by
  rfl

/-- C2 (amended): under the default (prefix-free) digitizer, inserting
`"ab"` and then `"abc"` both succeed — the end-of-key digit `0` makes the
digit sequence of `"ab"` not a digit-prefix of that of `"abc"` — and the
prefix-violation error is instead raised when inserting a key that is
already stored (`find` returns `Matched`), leaving the size unchanged. -/
theorem C2_amended :
    ((addKeyE emptyTrie "ab").bind fun p => addKeyE p.1 "abc").map
        (fun q => (q.1.overlay, q.1.size, q.2)) =
      some (["ab", "abc"], 2, none) ∧
    (addKeyE (trieOfList ["ab"]) "ab").map
        (fun q => (q.1.overlay, q.1.size, q.2)) =
      some (["ab"], 1, some .prefixViolation) := by
  exact ⟨rfl, rfl⟩

/-- C4: starting from a fresh trie, after any interleaving of error-free
operations among which `n` are size-incrementing inserts and `m` are
removals reporting `removed = true`, `Len()` equals `n - m`. -/
theorem C4_count_invariant (ops : List TrieOp) (t : GoTrie) (n m : Nat)
    (h : runOps emptyTrie ops = some (t, n, m)) : lenT t = n - m ∧ m ≤ n := by
  have hs := runOps_size ops emptyTrie t n m h
  unfold lenT
  have h0 : emptyTrie.size = 0 := rfl
  omega

theorem C4_count_invariant_witness :
    runOps emptyTrie [.add "b", .add "a", .remove "b", .remove "x"] =
      some ((removeE (trieOfList ["b", "a"]) "b").1, 2, 1) ∧
    lenT (removeE (trieOfList ["b", "a"]) "b").1 = 2 - 1 :=
  ⟨rfl, (C4_count_invariant [.add "b", .add "a", .remove "b", .remove "x"]
      (removeE (trieOfList ["b", "a"]) "b").1 2 1 rfl).1⟩

/-- C5 (failing input): with `"ab"` stored, `Add "ac\u0001"` fails with the
unsupported-character error, and although the overlay list and size are
untouched, the node tree is not what it was before the call: a freshly
grafted internal node remains at the digit path `a → c` (`[66, 68]`), where
before the call there was none.  The partially built digit path survives the
failed insert, contradicting the claim that a failed operation leaves the
state exactly as it was. -/
theorem C5_partial_mutation :
    ((addKeyE emptyTrie "ab").bind fun p => addKeyE p.1 badC5Key).map
        (fun q => (q.2, q.1.size, q.1.overlay,
          (nodeAt (q.1.root.getD emptyRoot) [66, 68]).isSome)) =
      some (some .unsupportedChar, 1, ["ab"], true) ∧
    (addKeyE emptyTrie "ab").map
        (fun p => (nodeAt (p.1.root.getD emptyRoot) [66, 68]).isSome) =
      some false := by
  exact ⟨rfl, rfl⟩

/-- C6: after inserting `{"acb", "dabc", "daca", "da", "ab"}`,
`Completions "da"` appends exactly `["da", "dabc", "daca"]` (the exact match
included via the end-of-key step-back) and `Completions "a"` appends exactly
`["ab", "acb"]`. -/
theorem C6_completions :
    (addAllT emptyTrie ["acb", "dabc", "daca", "da", "ab"]).map Prod.snd =
      some none ∧
    completionsT (trieOfList ["acb", "dabc", "daca", "da", "ab"]) "da" =
      some (.ok ["da", "dabc", "daca"]) ∧
    completionsT (trieOfList ["acb", "dabc", "daca", "da", "ab"]) "a" =
      some (.ok ["ab", "acb"]) := by
  exact ⟨rfl, rfl, rfl⟩

/-- C8 (counterexample): with `"ab"` stored, `Remove ""` — a key that cannot
be resolved — returns `(false, nil)` with the size unchanged, not the
non-nil error the claim requires for unresolvable keys (`find`'s error is
swallowed by `RemoveEntry`). -/
theorem C8_counterexample :
    (removeE (trieOfList ["ab"]) "").2 = (false, none) ∧
    (removeE (trieOfList ["ab"]) "").1.overlay = ["ab"] ∧
    (removeE (trieOfList ["ab"]) "").1.size = 1 := by
  exact ⟨rfl, rfl, rfl⟩

/-- C8 (amended): `Remove`/`RemoveEntry` returns a non-nil error only when
the trie is empty; when the key cannot be resolved (`find` fails, e.g. on a
blank key) or when the key resolves but no matching entry is stored, it
returns `(false, nil)` and the trie is unchanged. -/
theorem C8_remove_contract (t : GoTrie) (v : String) :
    (t.size = 0 → removeE t v = (t, false, some .collectionEmpty)) ∧
    (∀ e, t.size ≠ 0 → findT t v = .error e → removeE t v = (t, false, none)) ∧
    (∀ r p, t.size ≠ 0 → findT t v = .ok (r, p) → r ≠ .Matched →
      removeE t v = (t, false, none)) :=
  ⟨fun h => removeE_empty v h,
   fun _ hs h => removeE_find_error hs h,
   fun _ _ hs h hr => removeE_not_matched hs h hr⟩

theorem C8_remove_contract_witness :
    (trieOfList ["ab"]).size ≠ 0 ∧
    findT (trieOfList ["ab"]) "" = .error .notFound ∧
    removeE (trieOfList ["ab"]) "" = ((trieOfList ["ab"]), false, none) :=
  ⟨by decide, rfl,
    (C8_remove_contract (trieOfList ["ab"]) "").2.1 .notFound (by decide) rfl⟩

/-- C9 (failing input): `node.checkBounds` accepts `index == capacity`
(`index < 0 || index > len(children)` — an off-by-one), so on a node of
capacity `96`, `ChildAt 96` and `RemoveChildAt 96` reach the slice access
`children[96]` and panic instead of returning an error respectively `false`;
for indices strictly outside `[0, capacity]` both behave as the claim says. -/
theorem C9_bounds_crash :
    nodeCheckBounds 96 96 = true ∧
    childAtN emptyChildren 96 = .crash ∧
    removeChildAtN emptyChildren 96 = .crash ∧
    childAtN emptyChildren 97 = .errOut ∧
    childAtN emptyChildren (-1) = .errOut ∧
    removeChildAtN emptyChildren 97 = .ok (emptyChildren, false) ∧
    removeChildAtN emptyChildren (-1) = .ok (emptyChildren, false) := by
  refine ⟨rfl, ?_, ?_, ?_, ?_, ?_, ?_⟩ <;> rfl

/-- C10 (counterexample): keys and their trimmed forms are NOT
interchangeable in every public key-taking operation: `Completions`
compares the traversal depth against the UNtrimmed prefix's digit count, so
with `"ab"` stored, `Completions " a "` appends nothing while
`Completions "a"` appends `["ab"]`. -/
theorem C10_counterexample :
    completionsT (trieOfList ["ab"]) " a " = some (.ok []) ∧
    completionsT (trieOfList ["ab"]) "a" = some (.ok ["ab"]) := by
  exact ⟨rfl, rfl⟩

/-- C10 (amended): the key-resolving operations — `Add`, `Contains`,
`Remove`, `Predecessor`, `Successor` (and `find` itself) — trim the key
first, so for them a key and its trimmed form are interchangeable, and `Add`
of a blank (empty or whitespace-only) key returns nil without any change;
`Completions` however sizes its digit budget with the untrimmed prefix,
so padded prefixes are not interchangeable there. -/
theorem C10_trim_behavior (t : GoTrie) (v : String) :
    addKeyE t (goTrim v) = addKeyE t v ∧
    containsT t (goTrim v) = containsT t v ∧
    removeE t (goTrim v) = removeE t v ∧
    predecessorT t (goTrim v) = predecessorT t v ∧
    successorT t (goTrim v) = successorT t v ∧
    (goTrim v = "" → addKeyE t v = some (t, none)) :=
  ⟨addKeyE_trim t v, containsT_trim t v, removeE_trim t v,
   predecessorT_trim t v, successorT_trim t v, fun h => addKeyE_blank h⟩

theorem C10_trim_behavior_witness :
    goTrim "  " = "" ∧ addKeyE (trieOfList ["ab"]) "  " = some (trieOfList ["ab"], none) :=
  ⟨rfl, (C10_trim_behavior (trieOfList ["ab"]) "  ").2.2.2.2.2 rfl⟩

end Coll
